import Mathlib


namespace GaussReduce

/-- Fraction `Rat` of gauss_reduce_in_c.c (lines 8-11): numerator and denominator. The
components are mathematical integers. The functions without a suffix compute on them in
exact integer arithmetic (no overflow); the functions whose name ends in 64 are the
`long long` reading of the same source lines, with wrap-around modulo 2^64 and the
division trap, and `InI64` says that a component is a `long long` value. -/
structure Rat where
  num : Int
  den : Int
  deriving DecidableEq, Repr

/-- Source `i64_abs` (line 15), in exact integer arithmetic; `i64_abs64` is the
`long long` reading. -/
def i64_abs (x : Int) : Int := if x < 0 then -x else x

/-- The `while (b)` loop of `gcd_i64` (lines 19-23); `%` is C truncated remainder. The first
argument bounds the number of iterations; `gcd_i64` passes `b`, which the strictly
decreasing `b` never exceeds, so the loop has exited when the bound is used up. -/
def gcd_loop : Nat → Int → Int → Int
  | 0, a, _ => a
  | fuel + 1, a, b => if b ≠ 0 then gcd_loop fuel b (Int.tmod a b) else a

/-- Source `gcd_i64` (lines 17-25), in exact integer arithmetic: Euclid on absolute values,
with result 1 instead of 0; `gcd_i64_64` is the `long long` reading. -/
def gcd_i64 (a b : Int) : Int :=
  let a := i64_abs a
  let b := i64_abs b
  let a := gcd_loop b.toNat a b
  if a ≠ 0 then a else 1

/-- Source `rat_norm` (lines 27-34), in exact integer arithmetic; `/` is C truncated
division; `rat_norm64` is the `long long` reading. -/
def rat_norm (r : Rat) : Rat :=
  if r.num = 0 then { r with den := 1 }
  else
    let r : Rat := if r.den < 0 then { num := -r.num, den := -r.den } else r
    let g := gcd_i64 r.num r.den
    { num := Int.tdiv r.num g, den := Int.tdiv r.den g }

/-- Source `rat_from_i64` (line 36). -/
def rat_from_i64 (x : Int) : Rat := ⟨x, 1⟩

/-- Source `rat_is_zero` (line 37). -/
def rat_is_zero (r : Rat) : Bool := r.num == 0

/-- Source `rat_add` (lines 39-41), in exact integer arithmetic; `rat_add64` is the
`long long` reading. -/
def rat_add (a b : Rat) : Rat :=
  rat_norm ⟨a.num * b.den + b.num * a.den, a.den * b.den⟩

/-- Source `rat_sub` (lines 43-45), in exact integer arithmetic; `rat_sub64` is the
`long long` reading. -/
def rat_sub (a b : Rat) : Rat :=
  rat_norm ⟨a.num * b.den - b.num * a.den, a.den * b.den⟩

/-- Source `rat_mul` (lines 47-49), in exact integer arithmetic; `rat_mul64` is the
`long long` reading. -/
def rat_mul (a b : Rat) : Rat :=
  rat_norm ⟨a.num * b.num, a.den * b.den⟩

/-- Fatal outcomes: the `exit(1)` of `rat_div`, and an exhausted iteration bound of the
model of the main loop of `rref` (shown not to occur). -/
inductive Fatal where
  | DivideByZero
  | OutOfFuel
  deriving DecidableEq, Repr

deriving instance DecidableEq for Except

/-- Source `rat_div` (lines 51-54), in exact integer arithmetic: the divide-by-zero exit is
an error result; `rat_div64` is the `long long` reading. -/
def rat_div (a b : Rat) : Except Fatal Rat :=
  if b.num = 0 then .error .DivideByZero
  else .ok (rat_norm ⟨a.num * b.den, a.den * b.num⟩)

/-- Source `rat_neg` (line 56), in exact integer arithmetic; `rat_neg64` is the `long long`
reading. -/
def rat_neg (a : Rat) : Rat := ⟨-a.num, a.den⟩

/-- The Rational Number invariant: positive denominator and lowest terms (so zero is
only (0, 1)). -/
def Normalized (r : Rat) : Prop := 0 < r.den ∧ Int.gcd r.num r.den = 1

instance (r : Rat) : Decidable (Normalized r) := by unfold Normalized; infer_instance

/-- The rational number denoted by a pair. -/
def toQ (r : Rat) : ℚ := (r.num : ℚ) / (r.den : ℚ)

/-- The normalized pair of a rational number. -/
def ofQ (q : ℚ) : Rat := ⟨q.num, q.den⟩

/-- Contents of a `Rat **A` buffer: the cell at row i, column j. Only the cells with
i < m and j < n belong to the matrix. -/
abbrev Mat := Nat → Nat → Rat

/-- The assignment `A[i][j] = v`. -/
def mat_set (A : Mat) (i j : Nat) (v : Rat) : Mat :=
  fun i' j' => if i' = i ∧ j' = j then v else A i' j'

/-- State of the matrix after the first j iterations of the loop of `swap_rows`
(lines 87-91). -/
def swap_rows_loop (r1 r2 : Nat) : Nat → Mat → Mat
  | 0, A => A
  | j + 1, A =>
    let A := swap_rows_loop r1 r2 j A
    let t := A r1 j
    let A := mat_set A r1 j (A r2 j)
    mat_set A r2 j t

/-- Source `swap_rows` (lines 85-92). -/
def swap_rows (A : Mat) (r1 r2 n : Nat) : Mat :=
  if r1 = r2 then A else swap_rows_loop r1 r2 n A

/-- Variables of `rref` (lines 107-135): the matrix, the two halves of the pivot map, and
the loop variables `r` and `lead`. -/
structure RrefState where
  A : Mat
  pivot_col : Nat → Int
  is_pivot : Nat → Int
  r : Nat
  lead : Nat

/-- The scan `while (i < m && rat_is_zero(A[i][lead])) i++` (line 114), started at i with
an iteration bound; `rref_body` passes m - r, which is only used up when i = m. -/
def find_pivot (A : Mat) (m lead : Nat) : Nat → Nat → Nat
  | 0, i => i
  | fuel + 1, i =>
    if i < m ∧ rat_is_zero (A i lead) = true then find_pivot A m lead fuel (i + 1) else i

/-- State after the first j iterations of `A[r][j] = rat_div(A[r][j], piv)` (lines 120-121),
in exact integer arithmetic; a failing division aborts. -/
def div_row_loop (r : Nat) (piv : Rat) : Nat → Mat → Except Fatal Mat
  | 0, A => .ok A
  | j + 1, A => do
    let A ← div_row_loop r piv j A
    let q ← rat_div (A r j) piv
    pure (mat_set A r j q)

/-- State after the first j iterations of the inner elimination loop (lines 127-128) for
row rr with factor f, in exact integer arithmetic. -/
def elim_row_loop (r rr : Nat) (f : Rat) : Nat → Mat → Mat
  | 0, A => A
  | j + 1, A =>
    let A := elim_row_loop r rr f j A
    mat_set A rr j (rat_sub (A rr j) (rat_mul f (A r j)))

/-- State after the first rr iterations of the elimination loop (lines 123-129), in exact
integer arithmetic. -/
def elim_loop (r lead n : Nat) : Nat → Mat → Mat
  | 0, A => A
  | rr + 1, A =>
    let A := elim_loop r lead n rr A
    if rr = r then A
    else
      let f := A rr lead
      if rat_is_zero f = true then A
      else elim_row_loop r rr f n A

/-- The assignment `a[i] = v` on an int array. -/
def int_set (a : Nat → Int) (i : Nat) (v : Int) : Nat → Int :=
  fun i' => if i' = i then v else a i'

/-- One iteration of the main loop of `rref` (lines 113-133) together with the `r++` of the
loop header: in the no-pivot branch `lead++; r--; continue` followed by `r++` leaves r
unchanged. Exact integer arithmetic; `rref_body64` is the `long long` reading. -/
def rref_body (m n : Nat) (s : RrefState) : Except Fatal RrefState :=
  let i := find_pivot s.A m s.lead (m - s.r) s.r
  if i = m then .ok { s with lead := s.lead + 1 }
  else do
    let A := swap_rows s.A s.r i n
    let piv := A s.r s.lead
    let A ← div_row_loop s.r piv n A
    let A := elim_loop s.r s.lead n m A
    pure { A := A
           pivot_col := int_set s.pivot_col s.r s.lead
           is_pivot := int_set s.is_pivot s.lead 1
           r := s.r + 1
           lead := s.lead + 1 }

/-- The main loop `for (r = 0; r < m && lead < n; r++)` of `rref` with an iteration bound. -/
def rref_loop (m n : Nat) : Nat → RrefState → Except Fatal RrefState
  | 0, s => if s.r < m ∧ s.lead < n then .error .OutOfFuel else .ok s
  | fuel + 1, s =>
    if s.r < m ∧ s.lead < n then do
      let s ← rref_body m n s
      rref_loop m n fuel s
    else .ok s

/-- Source `rref` (lines 107-135), in exact integer arithmetic: clears the pivot map and
runs the main loop; m + n iterations always suffice. `rref64` is the `long long`
reading. -/
def rref (A : Mat) (m n : Nat) : Except Fatal RrefState :=
  rref_loop m n (m + n)
    { A := A, pivot_col := fun _ => -1, is_pivot := fun _ => 0, r := 0, lead := 0 }

/-- One printed term of an expression line: ` - coef*t<param>` when `minus`, else
` + coef*t<param>` (lines 226-231). -/
structure Term where
  minus : Bool
  coef : Rat
  param : Nat
  deriving DecidableEq, Repr

/-- One printed line `x<var> = const` followed by its terms (lines 222-233). -/
structure Line where
  var : Nat
  const : Rat
  terms : List Term
  deriving DecidableEq, Repr

/-- What `main` prints after the reduced matrix: `NO SOLUTION`, or `UNIQUE SOLUTION` with
lines `x<j> = value`, or `INFINITE SOLUTIONS` with lines `x<j> = t<k>` and expression
lines. -/
inductive Solution where
  | Inconsistent
  | Unique (values : List (Nat × Rat))
  | Infinite (free : List (Nat × Nat)) (exprs : List Line)
  deriving DecidableEq, Repr

/-- The flag `all_zero` for row i after the loop of lines 188-189. -/
def all_zero (A : Mat) (i vars : Nat) : Bool :=
  (List.range vars).all (fun j => rat_is_zero (A i j))

/-- The inconsistency check of `main` (lines 186-194): true when some row makes it print
`NO SOLUTION`. -/
def inconsistent (A : Mat) (m vars : Nat) : Bool :=
  (List.range m).any (fun i => all_zero A i vars && !rat_is_zero (A i vars))

/-- The count `rank` of `main` (lines 196-197). -/
def rank (is_pivot : Nat → Int) (vars : Nat) : Nat :=
  (List.range vars).countP (fun j => is_pivot j != 0)

/-- Lines printed in the unique branch of `main` (lines 201-207), as (j+1, value). -/
def unique_lines (A : Mat) (m vars : Nat) (pivot_col : Nat → Int) : List (Nat × Rat) :=
  (List.range vars).flatMap fun j =>
    (List.range m).filterMap fun i =>
      if pivot_col i = (j : Int) then some (j + 1, A i vars) else none

/-- The array `free` of `main` after the loop of lines 213-214; its length is t - 1. -/
def free_cols (is_pivot : Nat → Int) (vars : Nat) : List Nat :=
  (List.range vars).filter (fun j => is_pivot j == 0)

/-- Lines `x<free[k]+1> = t<k+1>` printed by the loop of lines 216-217. -/
def free_lines (free : List Nat) : List (Nat × Nat) :=
  (List.range free.length).map fun k => (free.getD k 0 + 1, k + 1)

/-- Terms printed for row i by the loop of lines 224-232, in exact integer arithmetic. -/
def row_terms (A : Mat) (i : Nat) (free : List Nat) : List Term :=
  (List.range free.length).filterMap fun k =>
    let a := A i (free.getD k 0)
    if rat_is_zero a = true then none
    else if a.num > 0 then some ⟨true, a, k + 1⟩
    else some ⟨false, rat_neg a, k + 1⟩

/-- Expression lines printed by the loop of lines 219-235. -/
def pivot_lines (A : Mat) (m vars : Nat) (pivot_col is_pivot : Nat → Int)
    (free : List Nat) : List Line :=
  (List.range vars).flatMap fun j =>
    if is_pivot j = 0 then []
    else (List.range m).filterMap fun i =>
      if pivot_col i = (j : Int) then some ⟨j + 1, A i vars, row_terms A i free⟩ else none

/-- The part of `main` after the reduction (lines 185-236), with `vars = n - 1`; meant for
n ≥ 1. -/
def classify (A : Mat) (m n : Nat) (pivot_col is_pivot : Nat → Int) : Solution :=
  let vars := n - 1
  if inconsistent A m vars = true then .Inconsistent
  else if rank is_pivot vars = vars then .Unique (unique_lines A m vars pivot_col)
  else
    let free := free_cols is_pivot vars
    .Infinite (free_lines free) (pivot_lines A m vars pivot_col is_pivot free)

/-- Source `main` from line 176 on, for an m x n matrix that has been read (m ≥ 1, n ≥ 1):
reduce, then classify. Exact integer arithmetic; `main64` is the `long long` reading. -/
def main (A : Mat) (m n : Nat) : Except Fatal Solution := do
  let s ← rref A m n
  pure (classify s.A m n s.pivot_col s.is_pivot)

/-- Every cell of the m x n matrix is a normalized rational. -/
def MatNormalized (A : Mat) (m n : Nat) : Prop :=
  ∀ i < m, ∀ j < n, Normalized (A i j)

/-- Row i of the matrix, read over the rationals. -/
def rowQ (A : Mat) (n : Nat) (i : Nat) : Fin n → ℚ := fun j => toQ (A i j)

/-- Span of the m rows over the rationals. -/
def rowSpace (A : Mat) (m n : Nat) : Submodule ℚ (Fin n → ℚ) :=
  Submodule.span ℚ (Set.range fun i : Fin m => rowQ A n i)

/-- The assignment x solves the system of the augmented matrix: in each row the
coefficients (columns 0..n-2) applied to x give the right-hand side (column n-1). -/
def IsSolution (A : Mat) (m n : Nat) (x : Nat → ℚ) : Prop :=
  ∀ i < m, ∑ j ∈ Finset.range (n - 1), toQ (A i j) * x j = toQ (A i (n - 1))

/-- Reduced row-echelon form of the first n columns with pivot map (pc, ip): rows 0..k-1
carry the pivots, in strictly increasing columns, each pivot cell is (1, 1) with (0, 1) to
its left and in the rest of its column; the rows from k on are zero and carry -1. -/
structure PivotForm (A : Mat) (m n : Nat) (pc ip : Nat → Int) (k : Nat) : Prop where
  k_le : k ≤ m
  pc_range : ∀ i < k, ∃ c < n, pc i = (c : Int)
  pc_none : ∀ i, k ≤ i → pc i = -1
  pc_mono : ∀ i i', i < i' → i' < k → pc i < pc i'
  piv_one : ∀ i < k, ∀ c : Nat, pc i = (c : Int) → A i c = ⟨1, 1⟩
  left_zero : ∀ i < k, ∀ j : Nat, (j : Int) < pc i → A i j = ⟨0, 1⟩
  col_zero : ∀ i < k, ∀ c : Nat, pc i = (c : Int) → ∀ rr < m, rr ≠ i → A rr c = ⟨0, 1⟩
  zero_rows : ∀ i, k ≤ i → i < m → ∀ j < n, A i j = ⟨0, 1⟩
  ip_val : ∀ j, ip j = 1 ∨ ip j = 0
  ip_iff : ∀ j : Nat, ip j = 1 ↔ ∃ i < k, pc i = (j : Int)

/-- Invariant of the main loop of `rref` started on A0. -/
structure LoopInv (A0 : Mat) (m n : Nat) (s : RrefState) : Prop where
  norm : MatNormalized s.A m n
  space : rowSpace s.A m n = rowSpace A0 m n
  lead_le : s.lead ≤ n
  form : PivotForm s.A m s.lead s.pivot_col s.is_pivot s.r

/-- Invariant of the main loop of `rref` started on a matrix R in pivot form (pc, k). -/
structure IdemInv (R : Mat) (m n : Nat) (pc : Nat → Int) (k : Nat) (s : RrefState) : Prop where
  cells : ∀ i < m, ∀ j < n, s.A i j = R i j
  r_le : s.r ≤ k
  lead_le : s.lead ≤ n
  pc_done : ∀ i < s.r, s.pivot_col i = pc i ∧ pc i < (s.lead : Int)
  pc_rest : ∀ i, s.r ≤ i → s.pivot_col i = -1
  next : s.r < k → (s.lead : Int) ≤ pc s.r
  ip_val : ∀ j, s.is_pivot j = 1 ∨ s.is_pivot j = 0
  ip_iff : ∀ j : Nat, s.is_pivot j = 1 ↔ ∃ i < s.r, pc i = (j : Int)

/-- Weights that turn a row equation into a linear form: x on the coefficient columns and
-1 on the augmented column. -/
def eqWeight (n : Nat) (x : Nat → ℚ) (j : Nat) : ℚ :=
  if j + 1 < n then x j else -1

/-- The rows whose equation is satisfied by x. -/
def solSpace (n : Nat) (x : Nat → ℚ) : Submodule ℚ (Fin n → ℚ) where
  carrier := {v | ∑ j : Fin n, v j * eqWeight n x j = 0}
  add_mem' := by
    intro a b ha hb
    simp only [Set.mem_setOf_eq, Pi.add_apply, add_mul, Finset.sum_add_distrib] at *
    rw [ha, hb, add_zero]
  zero_mem' := by simp
  smul_mem' := by
    intro c v hv
    simp only [Set.mem_setOf_eq, Pi.smul_apply, smul_eq_mul, mul_assoc] at *
    rw [← Finset.mul_sum, hv, mul_zero]

/-- Contribution of the non-pivot coefficient columns to row i under x. -/
def freeSum (B : Mat) (i vars : Nat) (ip : Nat → Int) (x : Nat → ℚ) : ℚ :=
  ∑ j ∈ Finset.range vars, if ip j = 0 then toQ (B i j) * x j else 0

/-- Value of a printed term under parameter values t. -/
def termVal (t : Nat → ℚ) (tm : Term) : ℚ :=
  (if tm.minus = true then -1 else 1) * toQ tm.coef * t tm.param

/-- Value of the right-hand side of a printed expression line under parameter values t. -/
def lineVal (t : Nat → ℚ) (ln : Line) : ℚ :=
  toQ ln.const + (ln.terms.map (termVal t)).sum

/-- The assignment x agrees with the printed lines under parameter values t: a line
`x<a> = ...` constrains the variable with index a - 1. -/
def Describes (free : List (Nat × Nat)) (exprs : List Line) (t x : Nat → ℚ) : Prop :=
  (∀ p ∈ free, x (p.1 - 1) = t p.2) ∧ (∀ ln ∈ exprs, x (ln.var - 1) = lineVal t ln)

/-- Matrix buffer holding the given rows (other cells as left by calloc). -/
def ofRows (rows : List (List Rat)) : Mat :=
  fun i j => (rows.getD i []).getD j ⟨0, 0⟩

/-- Scenario Unique of the specification: rows [1 1 | 3], [1 -1 | 1]. -/
def exUnique : Mat :=
  ofRows [[⟨1, 1⟩, ⟨1, 1⟩, ⟨3, 1⟩], [⟨1, 1⟩, ⟨-1, 1⟩, ⟨1, 1⟩]]

/-- Scenario fraction input of the specification: row [2 | 1/2]. -/
def exFraction : Mat := ofRows [[⟨2, 1⟩, ⟨1, 2⟩]]

/-- Scenario Infinite of the specification: row [1 1 | 1]. -/
def exInfinite : Mat := ofRows [[⟨1, 1⟩, ⟨1, 1⟩, ⟨1, 1⟩]]

/-- Scenario Inconsistent of the specification: rows [1 1 | 1], [1 1 | 2]. -/
def exInconsistent : Mat :=
  ofRows [[⟨1, 1⟩, ⟨1, 1⟩, ⟨1, 1⟩], [⟨1, 1⟩, ⟨1, 1⟩, ⟨2, 1⟩]]

instance (A : Mat) (m n : Nat) : Decidable (MatNormalized A m n) := by
  unfold MatNormalized; infer_instance

/-- The main loop of `rref` as a total function: the recursion is justified by the measure
(m - r) + (n - lead), which every iteration of the body decreases. -/
def rref_total (m n : Nat) (s : RrefState) : Except Fatal RrefState :=
  if s.r < m ∧ s.lead < n then
    match _hb : rref_body m n s with
    | .error e => .error e
    | .ok s' => rref_total m n s'
  else .ok s
termination_by (m - s.r) + (n - s.lead)
decreasing_by
  rename_i hc
  unfold rref_body at _hb
  simp only [] at _hb
  split at _hb
  · cases _hb
    simp only
    omega
  · cases hd : div_row_loop s.r (swap_rows s.A s.r (find_pivot s.A m s.lead (m - s.r) s.r) n
        s.r s.lead) n (swap_rows s.A s.r (find_pivot s.A m s.lead (m - s.r) s.r) n) with
    | error e => rw [hd] at _hb; cases _hb
    | ok A2 =>
      rw [hd] at _hb
      cases _hb
      simp only
      omega

/-- The pivot map alone, without the cells: rows 0..k-1 carry strictly increasing column
indices below n, the rows from k on carry -1, and is_pivot marks exactly those columns. -/
structure PivotMap (m n : Nat) (pc ip : Nat → Int) (k : Nat) : Prop where
  k_le : k ≤ m
  pc_range : ∀ i < k, ∃ c < n, pc i = (c : Int)
  pc_none : ∀ i, k ≤ i → pc i = -1
  pc_mono : ∀ i i', i < i' → i' < k → pc i < pc i'
  ip_val : ∀ j, ip j = 1 ∨ ip j = 0
  ip_iff : ∀ j : Nat, ip j = 1 ↔ ∃ i < k, pc i = (j : Int)

/-- Model of the C library function `strchr` on a string given as its characters (without
the terminating NUL): the suffix that starts at the first occurrence of c, if there is
one. -/
def strchr : List Char → Char → Option (List Char)
  | [], _ => none
  | x :: xs, c => if x = c then some (x :: xs) else strchr xs c

/-- Model of the C library predicate `isspace` in the C locale: space, and the control
characters 9 to 13. -/
def is_space (c : Char) : Bool := c.toNat = 32 || (9 ≤ c.toNat && c.toNat ≤ 13)

/-- Model of the C library predicate `isdigit`. -/
def is_digit (c : Char) : Bool := 48 ≤ c.toNat && c.toNat ≤ 57

/-- The digit loop of `atoll`: accumulates decimal digits and stops at the first character
that is not a digit. -/
def atoll_digits : Nat → List Char → Nat
  | acc, [] => acc
  | acc, c :: cs => if is_digit c = true then atoll_digits (acc * 10 + (c.toNat - 48)) cs else acc

/-- Model of the C library function `atoll` over unbounded integers: skips leading white
space, reads an optional sign and then the longest run of decimal digits; the value is 0
when there is no digit. -/
def atoll (s : List Char) : Int :=
  match s.dropWhile is_space with
  | [] => 0
  | c :: cs =>
    if c = '-' then -(atoll_digits 0 cs : Int)
    else if c = '+' then (atoll_digits 0 cs : Int)
    else (atoll_digits 0 (c :: cs) : Int)

/-- Source `rat_parse` (lines 58-64), over unbounded integers; `slash + 1` is the text after
the first '/'. `rat_parse64` is the `long long` reading. -/
def rat_parse (s : List Char) : Rat :=
  match strchr s '/' with
  | none => rat_from_i64 (atoll s)
  | some slash => rat_norm ⟨atoll s, atoll (slash.drop 1)⟩

/-- Decimal digits of n in front of acc, most significant first; the first argument bounds
the number of digits, and n + 1 is always enough. -/
def dec_digits : Nat → Nat → List Char → List Char
  | 0, _, acc => acc
  | fuel + 1, n, acc =>
    if n / 10 = 0 then Char.ofNat (48 + n % 10) :: acc
    else dec_digits fuel (n / 10) (Char.ofNat (48 + n % 10) :: acc)

/-- Model of the conversion `%lld` of printf: a minus sign for a negative value, then the
decimal digits of the absolute value. -/
def fmt_lld (x : Int) : List Char :=
  if x < 0 then '-' :: dec_digits (x.natAbs + 1) x.natAbs []
  else dec_digits (x.natAbs + 1) x.natAbs []

/-- Source `rat_print` (lines 66-69), returning the text it prints. -/
def rat_print (r : Rat) : List Char :=
  if r.den = 1 then fmt_lld r.num
  else fmt_lld r.num ++ '/' :: fmt_lld r.den

/-- Two-complement wrap-around of a mathematical integer into the 64-bit signed range
-2^63 .. 2^63 - 1 (arithmetic modulo 2^64). -/
def wrap64 (x : Int) : Int :=
  (x + 9223372036854775808) % 18446744073709551616 - 9223372036854775808

/-- The value fits the 64-bit signed range. -/
def InI64 (x : Int) : Prop := -9223372036854775808 ≤ x ∧ x ≤ 9223372036854775807

/-- The value and its negation fit the 64-bit signed range: absolute value at most
2^63 - 1. -/
def NoWrap (x : Int) : Prop := -9223372036854775807 ≤ x ∧ x ≤ 9223372036854775807

instance (x : Int) : Decidable (InI64 x) := by unfold InI64; infer_instance

instance (x : Int) : Decidable (NoWrap x) := by unfold NoWrap; infer_instance

/-- Every cell of the m x n matrix has 64-bit components. -/
def MatInI64 (A : Mat) (m n : Nat) : Prop :=
  ∀ i < m, ∀ j < n, InI64 (A i j).num ∧ InI64 (A i j).den

instance (A : Mat) (m n : Nat) : Decidable (MatInI64 A m n) := by
  unfold MatInI64; infer_instance

/-- Fatal outcomes of the `long long` reading of the program: the `exit(1)` of `rat_div`,
the hardware trap (SIGFPE) of a 64-bit division or remainder whose divisor is 0 or whose
operands are -2^63 and -1, and an exhausted iteration bound of the model (shown not to
occur). -/
inductive Fatal64 where
  | DivideByZero
  | Sigfpe
  | OutOfFuel
  deriving DecidableEq, Repr

/-- The C operator `%` on `long long`: truncated remainder, trapping on a zero divisor and
on -2^63 % -1. -/
def i64_rem (a b : Int) : Except Fatal64 Int :=
  if b = 0 ∨ (a = -9223372036854775808 ∧ b = -1) then .error .Sigfpe
  else .ok (Int.tmod a b)

/-- The C operator `/` on `long long`: truncated quotient, trapping on a zero divisor and
on -2^63 / -1. -/
def i64_div (a b : Int) : Except Fatal64 Int :=
  if b = 0 ∨ (a = -9223372036854775808 ∧ b = -1) then .error .Sigfpe
  else .ok (Int.tdiv a b)

/-- Source `i64_abs` (line 15) on `long long`: the negation wraps, so the result of
-2^63 is -2^63. -/
def i64_abs64 (x : Int) : Int := if x < 0 then wrap64 (-x) else x

/-- The `while (b)` loop of `gcd_i64` (lines 19-23) on `long long`. The first argument
bounds the number of iterations; the absolute value of b is enough because the absolute
value of the remainder is smaller than that of the divisor. -/
def gcd_loop64 : Nat → Int → Int → Except Fatal64 Int
  | 0, a, b => if b ≠ 0 then .error .OutOfFuel else .ok a
  | fuel + 1, a, b =>
    if b ≠ 0 then do
      let t ← i64_rem a b
      gcd_loop64 fuel b t
    else .ok a

/-- Source `gcd_i64` (lines 17-25) on `long long`. -/
def gcd_i64_64 (a b : Int) : Except Fatal64 Int := do
  let a := i64_abs64 a
  let b := i64_abs64 b
  let a ← gcd_loop64 b.natAbs a b
  pure (if a ≠ 0 then a else 1)

/-- Source `rat_norm` (lines 27-34) on `long long`: the negations wrap and the two
divisions by g can trap. -/
def rat_norm64 (r : Rat) : Except Fatal64 Rat :=
  if r.num = 0 then .ok { r with den := 1 }
  else do
    let r : Rat := if r.den < 0 then { num := wrap64 (-r.num), den := wrap64 (-r.den) } else r
    let g ← gcd_i64_64 r.num r.den
    let n ← i64_div r.num g
    let d ← i64_div r.den g
    pure { num := n, den := d }

/-- Source `rat_add` (lines 39-41) on `long long`: every product and the sum wrap. -/
def rat_add64 (a b : Rat) : Except Fatal64 Rat :=
  rat_norm64 ⟨wrap64 (wrap64 (a.num * b.den) + wrap64 (b.num * a.den)), wrap64 (a.den * b.den)⟩

/-- Source `rat_sub` (lines 43-45) on `long long`. -/
def rat_sub64 (a b : Rat) : Except Fatal64 Rat :=
  rat_norm64 ⟨wrap64 (wrap64 (a.num * b.den) - wrap64 (b.num * a.den)), wrap64 (a.den * b.den)⟩

/-- Source `rat_mul` (lines 47-49) on `long long`. -/
def rat_mul64 (a b : Rat) : Except Fatal64 Rat :=
  rat_norm64 ⟨wrap64 (a.num * b.num), wrap64 (a.den * b.den)⟩

/-- Source `rat_div` (lines 51-54) on `long long`. -/
def rat_div64 (a b : Rat) : Except Fatal64 Rat :=
  if b.num = 0 then .error .DivideByZero
  else rat_norm64 ⟨wrap64 (a.num * b.den), wrap64 (a.den * b.num)⟩

/-- Source `rat_neg` (line 56) on `long long`: the negation wraps. -/
def rat_neg64 (a : Rat) : Rat := ⟨wrap64 (-a.num), a.den⟩

/-- State after the first j iterations of `A[r][j] = rat_div(A[r][j], piv)` (lines 120-121)
on `long long`. -/
def div_row_loop64 (r : Nat) (piv : Rat) : Nat → Mat → Except Fatal64 Mat
  | 0, A => .ok A
  | j + 1, A => do
    let A ← div_row_loop64 r piv j A
    let q ← rat_div64 (A r j) piv
    pure (mat_set A r j q)

/-- State after the first j iterations of the inner elimination loop (lines 127-128) on
`long long`. -/
def elim_row_loop64 (r rr : Nat) (f : Rat) : Nat → Mat → Except Fatal64 Mat
  | 0, A => .ok A
  | j + 1, A => do
    let A ← elim_row_loop64 r rr f j A
    let p ← rat_mul64 f (A r j)
    let d ← rat_sub64 (A rr j) p
    pure (mat_set A rr j d)

/-- State after the first rr iterations of the elimination loop (lines 123-129) on
`long long`. -/
def elim_loop64 (r lead n : Nat) : Nat → Mat → Except Fatal64 Mat
  | 0, A => .ok A
  | rr + 1, A => do
    let A ← elim_loop64 r lead n rr A
    if rr = r then pure A
    else
      let f := A rr lead
      if rat_is_zero f = true then pure A
      else elim_row_loop64 r rr f n A

/-- One iteration of the main loop of `rref` (lines 113-133) on `long long`, together with
the `r++` of the loop header. -/
def rref_body64 (m n : Nat) (s : RrefState) : Except Fatal64 RrefState :=
  let i := find_pivot s.A m s.lead (m - s.r) s.r
  if i = m then .ok { s with lead := s.lead + 1 }
  else do
    let A := swap_rows s.A s.r i n
    let piv := A s.r s.lead
    let A ← div_row_loop64 s.r piv n A
    let A ← elim_loop64 s.r s.lead n m A
    pure { A := A
           pivot_col := int_set s.pivot_col s.r s.lead
           is_pivot := int_set s.is_pivot s.lead 1
           r := s.r + 1
           lead := s.lead + 1 }

/-- The main loop of `rref` on `long long`, with an iteration bound. -/
def rref_loop64 (m n : Nat) : Nat → RrefState → Except Fatal64 RrefState
  | 0, s => if s.r < m ∧ s.lead < n then .error .OutOfFuel else .ok s
  | fuel + 1, s =>
    if s.r < m ∧ s.lead < n then do
      let s ← rref_body64 m n s
      rref_loop64 m n fuel s
    else .ok s

/-- Source `rref` (lines 107-135) on `long long`. -/
def rref64 (A : Mat) (m n : Nat) : Except Fatal64 RrefState :=
  rref_loop64 m n (m + n)
    { A := A, pivot_col := fun _ => -1, is_pivot := fun _ => 0, r := 0, lead := 0 }

/-- Terms printed for row i by the loop of lines 224-232 on `long long`. -/
def row_terms64 (A : Mat) (i : Nat) (free : List Nat) : List Term :=
  (List.range free.length).filterMap fun k =>
    let a := A i (free.getD k 0)
    if rat_is_zero a = true then none
    else if a.num > 0 then some ⟨true, a, k + 1⟩
    else some ⟨false, rat_neg64 a, k + 1⟩

/-- Expression lines printed by the loop of lines 219-235 on `long long`. -/
def pivot_lines64 (A : Mat) (m vars : Nat) (pivot_col is_pivot : Nat → Int)
    (free : List Nat) : List Line :=
  (List.range vars).flatMap fun j =>
    if is_pivot j = 0 then []
    else (List.range m).filterMap fun i =>
      if pivot_col i = (j : Int) then some ⟨j + 1, A i vars, row_terms64 A i free⟩ else none

/-- The part of `main` after the reduction (lines 185-236) on `long long`. -/
def classify64 (A : Mat) (m n : Nat) (pivot_col is_pivot : Nat → Int) : Solution :=
  let vars := n - 1
  if inconsistent A m vars = true then .Inconsistent
  else if rank is_pivot vars = vars then .Unique (unique_lines A m vars pivot_col)
  else
    let free := free_cols is_pivot vars
    .Infinite (free_lines free) (pivot_lines64 A m vars pivot_col is_pivot free)

/-- Source `main` from line 176 on, on `long long`, for an m x n matrix that has been read
(m ≥ 1, n ≥ 1). -/
def main64 (A : Mat) (m n : Nat) : Except Fatal64 Solution := do
  let s ← rref64 A m n
  pure (classify64 s.A m n s.pivot_col s.is_pivot)

/-- Model of the C library function `atoll` with a `long long` result: the value read is
clamped to the range -2^63 .. 2^63 - 1, as `strtoll` does. -/
def atoll64 (s : List Char) : Int :=
  max (-9223372036854775808) (min (atoll s) 9223372036854775807)

/-- Source `rat_parse` (lines 58-64) on `long long`. -/
def rat_parse64 (s : List Char) : Except Fatal64 Rat :=
  match strchr s '/' with
  | none => .ok (rat_from_i64 (atoll64 s))
  | some slash => rat_norm64 ⟨atoll64 s, atoll64 (slash.drop 1)⟩

/-- Overflow example: rows [1 3/2^32 | 0], [1 1/2^32 | 0]. -/
def exWrapPivot : Mat :=
  ofRows [[⟨1, 1⟩, ⟨3, 4294967296⟩, ⟨0, 1⟩], [⟨1, 1⟩, ⟨1, 4294967296⟩, ⟨0, 1⟩]]

/-- Overflow example: rows [1 3/2^32 | 0], [1 1/2^32 | 0], [0 1 | 0]. -/
def exWrapSentinel : Mat :=
  ofRows [[⟨1, 1⟩, ⟨3, 4294967296⟩, ⟨0, 1⟩], [⟨1, 1⟩, ⟨1, 4294967296⟩, ⟨0, 1⟩],
    [⟨0, 1⟩, ⟨1, 1⟩, ⟨0, 1⟩]]

/-- Overflow example: rows [1 3/2^32 | 0], [1 1/2^32 | 0], [0 1 | 5]. -/
def exWrapAugmented : Mat :=
  ofRows [[⟨1, 1⟩, ⟨3, 4294967296⟩, ⟨0, 1⟩], [⟨1, 1⟩, ⟨1, 4294967296⟩, ⟨0, 1⟩],
    [⟨0, 1⟩, ⟨1, 1⟩, ⟨5, 1⟩]]

/-- Overflow example: rows [1 2^32 | 1], [2^32 0 | 0]. -/
def exWrapSolvable : Mat :=
  ofRows [[⟨1, 1⟩, ⟨4294967296, 1⟩, ⟨1, 1⟩], [⟨4294967296, 1⟩, ⟨0, 1⟩, ⟨0, 1⟩]]

/-- Overflow example: rows [2^32 1 | 0], [1 2^32 | 1]. -/
def exWrapUnique : Mat :=
  ofRows [[⟨4294967296, 1⟩, ⟨1, 1⟩, ⟨0, 1⟩], [⟨1, 1⟩, ⟨4294967296, 1⟩, ⟨1, 1⟩]]

/-- Overflow example: rows [1 2^32 | 1], [2^32 0 | 2^32]. -/
def exWrapInfinite : Mat :=
  ofRows [[⟨1, 1⟩, ⟨4294967296, 1⟩, ⟨1, 1⟩], [⟨4294967296, 1⟩, ⟨0, 1⟩, ⟨4294967296, 1⟩]]

/-- Overflow example: the single row [1 | -2^63/5], which is in reduced row-echelon
form. -/
def exTrap : Mat := ofRows [[⟨1, 1⟩, ⟨-9223372036854775808, 5⟩]]

/-- Pivot map and cells of a state over the m x n range, as lists: pivot_col of the rows,
is_pivot of the columns, and the rows of cells. -/
def snapshot (m n : Nat) (s : RrefState) : List Int × List Int × List (List Rat) :=
  ((List.range m).map s.pivot_col, (List.range n).map s.is_pivot,
    (List.range m).map fun i => (List.range n).map fun j => s.A i j)

theorem i64_abs_eq (x : Int) : i64_abs x = |x| := by
  unfold i64_abs
  split_ifs with h
  · exact (abs_of_neg h).symm
  · exact (abs_of_nonneg (not_lt.mp h)).symm

theorem gcd_loop_eq (fuel : Nat) (a b : Int) (ha : 0 ≤ a) (hb : 0 ≤ b)
    (hf : b.toNat ≤ fuel) : gcd_loop fuel a b = (Int.gcd a b : Int) := by
  induction fuel generalizing a b with
  | zero =>
    have hb0 : b = 0 := by omega
    subst hb0
    simp [gcd_loop, Int.gcd_zero_right, abs_of_nonneg ha]
  | succ k ih =>
    unfold gcd_loop
    split_ifs with h
    · have hbpos : 0 < b := lt_of_le_of_ne hb (Ne.symm h)
      have hm : Int.tmod a b = a % b := Int.tmod_eq_emod ha hb
      have hm0 : 0 ≤ a % b := Int.emod_nonneg a h
      have hmlt : a % b < b := Int.emod_lt_of_pos a hbpos
      rw [hm, ih b (a % b) hb hm0 (by omega)]
      congr 1
      rw [Int.gcd_comm a b]
      simp only [Int.gcd_eq_natAbs]
      rw [Nat.gcd_rec b.natAbs a.natAbs, Nat.gcd_comm]
      congr 1
      zify
      rw [abs_of_nonneg hm0, abs_of_nonneg ha, abs_of_nonneg hb]
    · have hb0 : b = 0 := by simpa using h
      subst hb0
      simp [Int.gcd_zero_right, abs_of_nonneg ha]

theorem gcd_i64_eq (a b : Int) (h : a ≠ 0 ∨ b ≠ 0) : gcd_i64 a b = (Int.gcd a b : Int) := by
  unfold gcd_i64
  simp only [i64_abs_eq]
  rw [gcd_loop_eq _ _ _ (abs_nonneg a) (abs_nonneg b) le_rfl]
  have hg : Int.gcd |a| |b| = Int.gcd a b := by simp [Int.gcd_eq_natAbs, Int.natAbs_abs]
  rw [hg]
  have hne : (Int.gcd a b : Int) ≠ 0 := by
    have := Int.gcd_pos_iff.mpr h
    omega
  simp [hne]


theorem ofQ_div_of_coprime (a b : Int) (hb : 0 < b) (h : Int.gcd a b = 1) :
    ofQ ((a : ℚ) / (b : ℚ)) = ⟨a, b⟩ := by
  have hc : Nat.Coprime a.natAbs b.natAbs := by
    rw [Nat.Coprime, ← Int.gcd_eq_natAbs]; exact h
  unfold ofQ
  rw [Rat.num_div_eq_of_coprime hb hc, Rat.den_div_eq_of_coprime hb hc]

theorem reduce_pos (n d : Int) (hd : 0 < d) :
    (⟨Int.tdiv n (Int.gcd n d), Int.tdiv d (Int.gcd n d)⟩ : Rat) = ofQ ((n : ℚ) / (d : ℚ)) := by
  have hgpos : 0 < Int.gcd n d := Int.gcd_pos_iff.mpr (Or.inr hd.ne')
  have hdn : (Int.gcd n d : Int) ∣ n := Int.gcd_dvd_left
  have hdd : (Int.gcd n d : Int) ∣ d := Int.gcd_dvd_right
  rw [Int.tdiv_eq_ediv_of_dvd hdn, Int.tdiv_eq_ediv_of_dvd hdd]
  have hcop : Int.gcd (n / (Int.gcd n d : Int)) (d / (Int.gcd n d : Int)) = 1 :=
    Int.gcd_div_gcd_div_gcd hgpos
  have hgZ : (0 : Int) < (Int.gcd n d : Int) := by exact_mod_cast hgpos
  have hbpos : 0 < d / (Int.gcd n d : Int) :=
    Int.ediv_pos_of_pos_of_dvd hd hgZ.le hdd
  rw [← ofQ_div_of_coprime _ _ hbpos hcop]
  congr 1
  have hgQ : ((Int.gcd n d : Int) : ℚ) ≠ 0 := by exact_mod_cast hgZ.ne'
  rw [Int.cast_div hdn hgQ, Int.cast_div hdd hgQ]
  have hdQ : (d : ℚ) ≠ 0 := by exact_mod_cast hd.ne'
  field_simp

theorem rat_norm_eq (n d : Int) (hd : d ≠ 0) :
    rat_norm ⟨n, d⟩ = ofQ ((n : ℚ) / (d : ℚ)) := by
  unfold rat_norm
  by_cases hn : n = 0
  · subst hn
    simp [ofQ]
  · simp only [hn, if_false]
    by_cases hneg : d < 0
    · simp only [hneg, if_true]
      rw [gcd_i64_eq _ _ (Or.inl (neg_ne_zero.mpr hn)), reduce_pos _ _ (by omega : 0 < -d)]
      congr 1
      push_cast
      rw [neg_div_neg_eq]
    · simp only [hneg, if_false]
      have hpos : 0 < d := by omega
      rw [gcd_i64_eq _ _ (Or.inl hn), reduce_pos _ _ hpos]

theorem ofQ_normalized (q : ℚ) : Normalized (ofQ q) := by
  refine ⟨?_, ?_⟩
  · simp only [ofQ]; exact_mod_cast q.den_pos
  · simp only [ofQ, Int.gcd_eq_natAbs, Int.natAbs_ofNat]
    exact q.reduced

theorem toQ_ofQ (q : ℚ) : toQ (ofQ q) = q := by
  simp only [toQ, ofQ]
  exact_mod_cast Rat.num_div_den q

theorem ofQ_toQ (r : Rat) (h : Normalized r) : ofQ (toQ r) = r := by
  unfold toQ
  exact ofQ_div_of_coprime r.num r.den h.1 h.2

theorem toQ_zero : toQ ⟨0, 1⟩ = 0 := by simp [toQ]

theorem toQ_one : toQ ⟨1, 1⟩ = 1 := by simp [toQ]

theorem ofQ_zero : ofQ 0 = ⟨0, 1⟩ := rfl

theorem ofQ_one : ofQ 1 = ⟨1, 1⟩ := rfl

theorem normalized_ext (a b : Rat) (ha : Normalized a) (hb : Normalized b)
    (h : toQ a = toQ b) : a = b := by
  rw [← ofQ_toQ a ha, ← ofQ_toQ b hb, h]

theorem rat_is_zero_iff (a : Rat) (ha : a.den ≠ 0) : rat_is_zero a = true ↔ toQ a = 0 := by
  have hd : (a.den : ℚ) ≠ 0 := by exact_mod_cast ha
  simp [rat_is_zero, toQ, hd]

theorem rat_sub_eq (a b : Rat) (ha : a.den ≠ 0) (hb : b.den ≠ 0) :
    rat_sub a b = ofQ (toQ a - toQ b) := by
  have haQ : (a.den : ℚ) ≠ 0 := by exact_mod_cast ha
  have hbQ : (b.den : ℚ) ≠ 0 := by exact_mod_cast hb
  unfold rat_sub
  rw [rat_norm_eq _ _ (mul_ne_zero ha hb)]
  congr 1
  simp only [toQ]
  push_cast
  field_simp
  ring

theorem rat_mul_eq (a b : Rat) (ha : a.den ≠ 0) (hb : b.den ≠ 0) :
    rat_mul a b = ofQ (toQ a * toQ b) := by
  have haQ : (a.den : ℚ) ≠ 0 := by exact_mod_cast ha
  have hbQ : (b.den : ℚ) ≠ 0 := by exact_mod_cast hb
  unfold rat_mul
  rw [rat_norm_eq _ _ (mul_ne_zero ha hb)]
  congr 1
  simp only [toQ]
  push_cast
  field_simp

theorem rat_div_eq (a b : Rat) (ha : a.den ≠ 0) (hb : b.den ≠ 0) (hn : b.num ≠ 0) :
    rat_div a b = .ok (ofQ (toQ a / toQ b)) := by
  have haQ : (a.den : ℚ) ≠ 0 := by exact_mod_cast ha
  have hbQ : (b.den : ℚ) ≠ 0 := by exact_mod_cast hb
  have hnQ : (b.num : ℚ) ≠ 0 := by exact_mod_cast hn
  simp only [rat_div, hn, if_false]
  rw [rat_norm_eq _ _ (mul_ne_zero ha hn)]
  congr 2
  simp only [toQ]
  push_cast
  field_simp

theorem swap_rows_loop_apply (r1 r2 : Nat) (h : r1 ≠ r2) (k : Nat) (A : Mat) (i j : Nat) :
    swap_rows_loop r1 r2 k A i j =
      if j < k then (if i = r1 then A r2 j else if i = r2 then A r1 j else A i j)
      else A i j := by
  induction k generalizing i j with
  | zero => simp [swap_rows_loop]
  | succ k ih =>
    simp only [swap_rows_loop, mat_set]
    by_cases hj : j = k
    · subst hj
      by_cases h2 : i = r2
      · subst h2
        simp [ih, Ne.symm h]
      · by_cases h1 : i = r1
        · subst h1
          simp [ih, h]
        · simp [ih, h1, h2]
    · have hlt : j < k + 1 ↔ j < k := by omega
      simp [hj, ih, hlt]

theorem swap_rows_apply (A : Mat) (r1 r2 n i j : Nat) :
    swap_rows A r1 r2 n i j =
      if j < n then (if i = r1 then A r2 j else if i = r2 then A r1 j else A i j)
      else A i j := by
  unfold swap_rows
  by_cases h : r1 = r2
  · subst h
    simp only [if_true]
    split_ifs with h1 h2 <;> simp_all
  · simp only [h, if_false]
    exact swap_rows_loop_apply r1 r2 h n A i j

theorem div_row_loop_eq (r : Nat) (piv : Rat) (hp : piv.num ≠ 0) (k : Nat) (A : Mat) :
    div_row_loop r piv k A = .ok (fun i j =>
      if i = r ∧ j < k then rat_norm ⟨(A r j).num * piv.den, (A r j).den * piv.num⟩
      else A i j) := by
  induction k with
  | zero => simp [div_row_loop]
  | succ k ih =>
    simp only [div_row_loop, ih, rat_div, hp, if_false]
    show Except.ok _ = Except.ok _
    congr 1
    funext i j
    simp only [mat_set]
    by_cases hi : i = r
    · subst hi
      by_cases hj : j = k
      · subst hj; simp
      · have hlt : j < k + 1 ↔ j < k := by omega
        simp [hj, hlt]
    · simp [hi]

theorem elim_row_loop_apply (r rr : Nat) (f : Rat) (h : rr ≠ r) (k : Nat) (A : Mat)
    (i j : Nat) :
    elim_row_loop r rr f k A i j =
      if i = rr ∧ j < k then rat_sub (A rr j) (rat_mul f (A r j)) else A i j := by
  induction k generalizing i j with
  | zero => simp [elim_row_loop]
  | succ k ih =>
    simp only [elim_row_loop, mat_set]
    by_cases hi : i = rr
    · subst hi
      by_cases hj : j = k
      · subst hj
        simp [ih, Ne.symm h]
      · have hlt : j < k + 1 ↔ j < k := by omega
        simp [hj, ih, hlt]
    · simp [hi, ih]

theorem elim_loop_apply (r lead n : Nat) (k : Nat) (A : Mat) (i j : Nat) :
    elim_loop r lead n k A i j =
      if i < k ∧ i ≠ r ∧ j < n ∧ rat_is_zero (A i lead) = false
      then rat_sub (A i j) (rat_mul (A i lead) (A r j)) else A i j := by
  induction k generalizing i j with
  | zero => simp [elim_loop]
  | succ k ih =>
    simp only [elim_loop]
    by_cases hk : k = r
    · subst hk
      simp only [if_true]
      rw [ih]
      by_cases hi : i = k
      · subst hi; simp
      · have hlt : i < k + 1 ↔ i < k := by omega
        simp [hlt]
    · simp only [hk, if_false]
      have hkl : elim_loop r lead n k A k lead = A k lead := by
        rw [ih]; simp
      have hrow : ∀ j', elim_loop r lead n k A r j' = A r j' := by
        intro j'; rw [ih]; simp
      have hkrow : ∀ j', elim_loop r lead n k A k j' = A k j' := by
        intro j'; rw [ih]; simp
      rw [hkl]
      by_cases hz : rat_is_zero (A k lead) = true
      · simp only [hz, if_true]
        rw [ih]
        by_cases hi : i = k
        · subst hi; simp [hz]
        · have hlt : i < k + 1 ↔ i < k := by omega
          simp [hlt]
      · have hzf : rat_is_zero (A k lead) = false := by simpa using hz
        simp only [hzf, Bool.false_eq_true, if_false]
        rw [elim_row_loop_apply r k _ hk, hkrow, hrow]
        by_cases hi : i = k
        · subst hi
          simp [hk, hzf, hkrow]
        · have hlt : i < k + 1 ↔ i < k := by omega
          simp only [hi, false_and, if_false, hlt]
          exact ih i j

theorem find_pivot_spec (A : Mat) (m lead : Nat) (fuel i : Nat) (h : m ≤ i + fuel)
    (hi : i ≤ m) :
    i ≤ find_pivot A m lead fuel i ∧ find_pivot A m lead fuel i ≤ m
    ∧ (∀ k, i ≤ k → k < find_pivot A m lead fuel i → rat_is_zero (A k lead) = true)
    ∧ (find_pivot A m lead fuel i < m →
        rat_is_zero (A (find_pivot A m lead fuel i) lead) = false) := by
  induction fuel generalizing i with
  | zero =>
    have : i = m := by omega
    subst this
    simp only [find_pivot]
    exact ⟨le_rfl, le_rfl, fun k h1 h2 => absurd h2 (by omega), fun h => absurd h (by omega)⟩
  | succ fuel ih =>
    unfold find_pivot
    by_cases hc : i < m ∧ rat_is_zero (A i lead) = true
    · simp only [hc, and_self, if_true]
      obtain ⟨h1, h2, h3, h4⟩ := ih (i + 1) (by omega) (by omega)
      refine ⟨by omega, h2, ?_, h4⟩
      intro k hk1 hk2
      by_cases hki : k = i
      · subst hki; exact hc.2
      · exact h3 k (by omega) hk2
    · simp only [hc, if_false]
      refine ⟨le_rfl, hi, ?_, ?_⟩
      · intro k hk1 hk2; omega
      · intro hlt
        simpa [hlt] using hc

theorem normalized_den_ne (a : Rat) (h : Normalized a) : a.den ≠ 0 := h.1.ne'

theorem normalized_zero (a : Rat) (h : Normalized a) (hz : rat_is_zero a = true) :
    a = ⟨0, 1⟩ := by
  apply normalized_ext a _ h (by decide)
  rw [toQ_zero]
  exact (rat_is_zero_iff a (normalized_den_ne a h)).mp hz

theorem swap_rows_normalized (A : Mat) (m n r i : Nat) (hr : r < m) (hi : i < m)
    (hA : MatNormalized A m n) : MatNormalized (swap_rows A r i n) m n := by
  intro a ha b hb
  rw [swap_rows_apply]
  simp only [hb, if_true]
  split_ifs
  · exact hA i hi b hb
  · exact hA r hr b hb
  · exact hA a ha b hb

/-- Effect of the pivot branch of the loop body on a matrix `S` (the matrix after the row
swap): row `r` is divided by the pivot and the pivot column is eliminated elsewhere. -/
theorem pivot_branch_cells (S : Mat) (m n r lead : Nat) (hr : r < m) (hl : lead < n)
    (hS : MatNormalized S m n) (hp : rat_is_zero (S r lead) = false) :
    ∃ A2 : Mat, div_row_loop r (S r lead) n S = .ok A2
      ∧ MatNormalized (elim_loop r lead n m A2) m n
      ∧ (∀ j < n, toQ (elim_loop r lead n m A2 r j) = toQ (S r j) / toQ (S r lead))
      ∧ (∀ rr < m, rr ≠ r → ∀ j < n,
          toQ (elim_loop r lead n m A2 rr j)
            = toQ (S rr j) - toQ (S rr lead) * (toQ (S r j) / toQ (S r lead))) := by
  have hpn : (S r lead).num ≠ 0 := by
    simpa [rat_is_zero] using hp
  have hpd : (S r lead).den ≠ 0 := normalized_den_ne _ (hS r hr lead hl)
  refine ⟨_, div_row_loop_eq r (S r lead) hpn n S, ?_⟩
  -- the matrix after the division loop
  have hA2r : ∀ j < n, (fun i j =>
      if i = r ∧ j < n then rat_norm ⟨(S r j).num * (S r lead).den, (S r j).den * (S r lead).num⟩
      else S i j : Mat) r j = ofQ (toQ (S r j) / toQ (S r lead)) := by
    intro j hj
    have h := rat_div_eq (S r j) (S r lead) (normalized_den_ne _ (hS r hr j hj)) hpd hpn
    simp only [rat_div, hpn, if_false] at h
    simp only [hj, and_self, if_true]
    exact Except.ok.inj h
  have hA2o : ∀ rr, rr ≠ r → ∀ j, (fun i j =>
      if i = r ∧ j < n then rat_norm ⟨(S r j).num * (S r lead).den, (S r j).den * (S r lead).num⟩
      else S i j : Mat) rr j = S rr j := by
    intro rr hrr j
    simp [hrr]
  generalize (fun i j =>
      if i = r ∧ j < n then rat_norm ⟨(S r j).num * (S r lead).den, (S r j).den * (S r lead).num⟩
      else S i j : Mat) = A2 at hA2r hA2o
  have hA2n : MatNormalized A2 m n := by
    intro a ha b hb
    by_cases har : a = r
    · subst har; rw [hA2r b hb]; exact ofQ_normalized _
    · rw [hA2o a har b]; exact hS a ha b hb
  have hrow : ∀ j < n, elim_loop r lead n m A2 r j = ofQ (toQ (S r j) / toQ (S r lead)) := by
    intro j hj
    rw [elim_loop_apply]; simp [hA2r j hj]
  have hoth : ∀ rr < m, rr ≠ r → ∀ j < n,
      elim_loop r lead n m A2 rr j
        = ofQ (toQ (S rr j) - toQ (S rr lead) * (toQ (S r j) / toQ (S r lead))) := by
    intro rr hrr hne j hj
    rw [elim_loop_apply]
    have hd1 : (S rr j).den ≠ 0 := normalized_den_ne _ (hS rr hrr j hj)
    have hd2 : (S rr lead).den ≠ 0 := normalized_den_ne _ (hS rr hrr lead hl)
    have hd3 : (ofQ (toQ (S r j) / toQ (S r lead))).den ≠ 0 :=
      normalized_den_ne _ (ofQ_normalized _)
    by_cases hz : rat_is_zero (S rr lead) = true
    · have hz0 : toQ (S rr lead) = 0 := (rat_is_zero_iff _ hd2).mp hz
      simp only [hA2o rr hne, hz, hrr, hne, hj]
      simp only [ne_eq, not_false_eq_true, Bool.true_eq_false, and_false, if_false, hz0,
        zero_mul, sub_zero]
      exact (ofQ_toQ _ (hS rr hrr j hj)).symm
    · have hzf : rat_is_zero (S rr lead) = false := by simpa using hz
      simp only [hA2o rr hne, hzf, hrr, hne, hj, hA2r j hj]
      simp only [ne_eq, not_false_eq_true, and_self, if_true]
      rw [rat_mul_eq _ _ hd2 hd3, rat_sub_eq _ _ hd1 (normalized_den_ne _ (ofQ_normalized _)),
        toQ_ofQ, toQ_ofQ]
      simp [hne]
  refine ⟨?_, ?_, ?_⟩
  · intro a ha b hb
    by_cases har : a = r
    · subst har; rw [hrow b hb]; exact ofQ_normalized _
    · rw [hoth a ha har b hb]; exact ofQ_normalized _
  · intro j hj; rw [hrow j hj, toQ_ofQ]
  · intro rr hrr hne j hj; rw [hoth rr hrr hne j hj, toQ_ofQ]

theorem rowQ_mem_rowSpace (A : Mat) (m n i : Nat) (hi : i < m) :
    rowQ A n i ∈ rowSpace A m n :=
  Submodule.subset_span ⟨⟨i, hi⟩, rfl⟩

theorem rowSpace_le_of_rows (A B : Mat) (m n : Nat)
    (h : ∀ i < m, rowQ B n i ∈ rowSpace A m n) : rowSpace B m n ≤ rowSpace A m n := by
  apply Submodule.span_le.mpr
  rintro _ ⟨i, rfl⟩
  exact h i i.2

theorem rowSpace_swap (A : Mat) (m n r i : Nat) (hr : r < m) (hi : i < m) :
    rowSpace (swap_rows A r i n) m n = rowSpace A m n := by
  have hrow : ∀ a, rowQ (swap_rows A r i n) n a
      = rowQ A n (if a = r then i else if a = i then r else a) := by
    intro a
    funext j
    simp only [rowQ, swap_rows_apply, j.2, if_true]
    split_ifs <;> rfl
  apply le_antisymm
  · apply rowSpace_le_of_rows
    intro a ha
    rw [hrow]
    apply rowQ_mem_rowSpace
    split_ifs <;> assumption
  · apply rowSpace_le_of_rows
    intro a ha
    have h2 : rowQ A n a
        = rowQ (swap_rows A r i n) n (if a = r then i else if a = i then r else a) := by
      rw [hrow]
      split_ifs <;> simp_all
    rw [h2]
    apply rowQ_mem_rowSpace
    split_ifs <;> assumption

theorem rowSpace_pivot (S B : Mat) (m n r : Nat) (hr : r < m) (p : ℚ) (hp : p ≠ 0)
    (f : Nat → ℚ)
    (hrow : ∀ j < n, toQ (B r j) = toQ (S r j) / p)
    (hoth : ∀ rr < m, rr ≠ r → ∀ j < n,
      toQ (B rr j) = toQ (S rr j) - f rr * (toQ (S r j) / p)) :
    rowSpace B m n = rowSpace S m n := by
  have h1 : rowQ B n r = p⁻¹ • rowQ S n r := by
    funext j
    simp only [rowQ, Pi.smul_apply, smul_eq_mul, hrow j j.2]
    field_simp
  have h2 : ∀ rr < m, rr ≠ r → rowQ B n rr = rowQ S n rr - (f rr * p⁻¹) • rowQ S n r := by
    intro rr hrr hne
    funext j
    simp only [rowQ, Pi.sub_apply, Pi.smul_apply, smul_eq_mul, hoth rr hrr hne j j.2]
    field_simp
  have h3 : rowQ S n r = p • rowQ B n r := by
    rw [h1, smul_smul, mul_inv_cancel₀ hp, one_smul]
  have h4 : ∀ rr < m, rr ≠ r → rowQ S n rr = rowQ B n rr + f rr • rowQ B n r := by
    intro rr hrr hne
    rw [h2 rr hrr hne, h1, smul_smul]
    abel
  apply le_antisymm
  · apply rowSpace_le_of_rows
    intro a ha
    by_cases har : a = r
    · subst har
      rw [h1]
      exact Submodule.smul_mem _ _ (rowQ_mem_rowSpace S m n a ha)
    · rw [h2 a ha har]
      exact Submodule.sub_mem _ (rowQ_mem_rowSpace S m n a ha)
        (Submodule.smul_mem _ _ (rowQ_mem_rowSpace S m n r hr))
  · apply rowSpace_le_of_rows
    intro a ha
    by_cases har : a = r
    · subst har
      rw [h3]
      exact Submodule.smul_mem _ _ (rowQ_mem_rowSpace B m n a ha)
    · rw [h4 a ha har]
      exact Submodule.add_mem _ (rowQ_mem_rowSpace B m n a ha)
        (Submodule.smul_mem _ _ (rowQ_mem_rowSpace B m n r hr))

theorem pivotForm_skip (A : Mat) (m lead : Nat) (pc ip : Nat → Int) (r : Nat)
    (h : PivotForm A m lead pc ip r)
    (hz : ∀ i, r ≤ i → i < m → A i lead = ⟨0, 1⟩) :
    PivotForm A m (lead + 1) pc ip r where
  k_le := h.k_le
  pc_range := fun i hi => by
    obtain ⟨c, hc, hpc⟩ := h.pc_range i hi
    exact ⟨c, by omega, hpc⟩
  pc_none := h.pc_none
  pc_mono := h.pc_mono
  piv_one := h.piv_one
  left_zero := h.left_zero
  col_zero := h.col_zero
  zero_rows := fun i hi him j hj => by
    by_cases hjl : j = lead
    · subst hjl; exact hz i hi him
    · exact h.zero_rows i hi him j (by omega)
  ip_val := h.ip_val
  ip_iff := h.ip_iff

theorem pivotForm_pivot (A B : Mat) (m lead : Nat) (pc ip : Nat → Int) (r : Nat)
    (hr : r < m) (h : PivotForm A m lead pc ip r)
    (hsame : ∀ rr < m, ∀ j < lead, B rr j = A rr j)
    (hone : B r lead = ⟨1, 1⟩)
    (hcol : ∀ rr < m, rr ≠ r → B rr lead = ⟨0, 1⟩) :
    PivotForm B m (lead + 1) (int_set pc r lead) (int_set ip lead 1) (r + 1) := by
  have hpc_old : ∀ i < r, int_set pc r lead i = pc i := by
    intro i hi
    have : i ≠ r := by omega
    simp [int_set, this]
  have hpc_new : int_set pc r lead r = (lead : Int) := by simp [int_set]
  have hlt : ∀ i < r, ∀ c : Nat, pc i = (c : Int) → c < lead := by
    intro i hi c hc
    obtain ⟨c', hc', hpc⟩ := h.pc_range i hi
    have : (c : Int) = (c' : Int) := by rw [← hc, hpc]
    omega
  have hcases : ∀ i, i < r + 1 → i < r ∨ i = r := fun i hi => by omega
  refine
    { k_le := hr
      pc_range := ?_
      pc_none := ?_
      pc_mono := ?_
      piv_one := ?_
      left_zero := ?_
      col_zero := ?_
      zero_rows := ?_
      ip_val := ?_
      ip_iff := ?_ }
  · intro i hi
    rcases hcases i hi with h1 | h1
    · obtain ⟨c, hc, hpc⟩ := h.pc_range i h1
      exact ⟨c, by omega, by rw [hpc_old i h1, hpc]⟩
    · subst h1
      exact ⟨lead, by omega, hpc_new⟩
  · intro i hi
    have : i ≠ r := by omega
    simp only [int_set, this, if_false]
    exact h.pc_none i (by omega)
  · intro i i' hii hi'
    rcases hcases i' hi' with h1 | h1
    · rw [hpc_old i (by omega), hpc_old i' h1]
      exact h.pc_mono i i' hii h1
    · subst h1
      rw [hpc_old i hii, hpc_new]
      obtain ⟨c, hc, hpc⟩ := h.pc_range i hii
      rw [hpc]
      exact_mod_cast hc
  · intro i hi c hc
    rcases hcases i hi with h1 | h1
    · rw [hpc_old i h1] at hc
      rw [hsame i (by omega) c (hlt i h1 c hc)]
      exact h.piv_one i h1 c hc
    · subst h1
      rw [hpc_new] at hc
      have : c = lead := by omega
      subst this
      exact hone
  · intro i hi j hj
    rcases hcases i hi with h1 | h1
    · rw [hpc_old i h1] at hj
      obtain ⟨c, hc, hpc⟩ := h.pc_range i h1
      have hjl : j < lead := by rw [hpc] at hj; omega
      rw [hsame i (by omega) j hjl]
      exact h.left_zero i h1 j hj
    · subst h1
      rw [hpc_new] at hj
      have hjl : j < lead := by omega
      rw [hsame i hr j hjl]
      exact h.zero_rows i le_rfl hr j hjl
  · intro i hi c hc rr hrr hne
    rcases hcases i hi with h1 | h1
    · rw [hpc_old i h1] at hc
      rw [hsame rr hrr c (hlt i h1 c hc)]
      exact h.col_zero i h1 c hc rr hrr hne
    · subst h1
      rw [hpc_new] at hc
      have : c = lead := by omega
      subst this
      exact hcol rr hrr hne
  · intro i hi him j hj
    by_cases hjl : j = lead
    · subst hjl
      exact hcol i him (by omega)
    · have hjl' : j < lead := by omega
      rw [hsame i him j hjl']
      exact h.zero_rows i (by omega) him j hjl'
  · intro j
    by_cases hjl : j = lead
    · left; simp [int_set, hjl]
    · simp only [int_set, hjl, if_false]
      exact h.ip_val j
  · intro j
    by_cases hjl : j = lead
    · subst hjl
      simp only [int_set, if_true, true_iff]
      exact ⟨r, by omega, hpc_new⟩
    · have hip : int_set ip lead 1 j = ip j := by simp [int_set, hjl]
      rw [hip, h.ip_iff j]
      constructor
      · rintro ⟨i, hi, hpc⟩
        exact ⟨i, by omega, by rw [hpc_old i hi, hpc]⟩
      · rintro ⟨i, hi, hpc⟩
        rcases hcases i hi with h1 | h1
        · exact ⟨i, h1, by rw [← hpc_old i h1, hpc]⟩
        · subst h1
          rw [hpc_new] at hpc
          exact absurd (by omega : j = lead) hjl

theorem rref_body_inv (A0 : Mat) (m n : Nat) (s : RrefState) (h : LoopInv A0 m n s)
    (hr : s.r < m) (hl : s.lead < n) :
    ∃ s', rref_body m n s = .ok s' ∧ LoopInv A0 m n s'
      ∧ (m - s'.r) + (n - s'.lead) < (m - s.r) + (n - s.lead) := by
  obtain ⟨hi1, hi2, hi3, hi4⟩ :=
    find_pivot_spec s.A m s.lead (m - s.r) s.r (by omega) (by omega)
  unfold rref_body
  generalize find_pivot s.A m s.lead (m - s.r) s.r = i at hi1 hi2 hi3 hi4
  by_cases him : i = m
  · -- no pivot in this column
    subst him
    simp only [if_true]
    refine ⟨_, rfl, ?_, ?_⟩
    · refine ⟨h.norm, h.space, hl, ?_⟩
      apply pivotForm_skip _ _ _ _ _ _ h.form
      intro k hk hkm
      exact normalized_zero _ (h.norm k hkm s.lead hl) (hi3 k hk hkm)
    · simp only; omega
  · have hilt : i < m := by omega
    simp only [him, if_false]
    have hSn := swap_rows_normalized s.A m n s.r i hr hilt h.norm
    have hSr : ∀ j < n, swap_rows s.A s.r i n s.r j = s.A i j := by
      intro j hj; simp [swap_rows_apply, hj]
    have hp : rat_is_zero (swap_rows s.A s.r i n s.r s.lead) = false := by
      rw [hSr s.lead hl]; exact hi4 hilt
    obtain ⟨A2, hA2, hnorm, hrow, hoth⟩ :=
      pivot_branch_cells (swap_rows s.A s.r i n) m n s.r s.lead hr hl hSn hp
    have hpQ : toQ (swap_rows s.A s.r i n s.r s.lead) ≠ 0 := by
      intro h0
      have := (rat_is_zero_iff _ (normalized_den_ne _ (hSn s.r hr s.lead hl))).mpr h0
      rw [hp] at this
      exact Bool.false_ne_true this
    rw [hA2]
    refine ⟨_, rfl, ?_, ?_⟩
    · refine ⟨hnorm, ?_, hl, ?_⟩
      · show rowSpace (elim_loop s.r s.lead n m A2) m n = rowSpace A0 m n
        rw [rowSpace_pivot (swap_rows s.A s.r i n) _ m n s.r hr _ hpQ
          (fun rr => toQ (swap_rows s.A s.r i n rr s.lead)) hrow hoth,
          rowSpace_swap s.A m n s.r i hr hilt, h.space]
      · show PivotForm (elim_loop s.r s.lead n m A2) m (s.lead + 1) _ _ (s.r + 1)
        -- below row r, the columns left of lead are zero
        have hzero : ∀ k, s.r ≤ k → k < m → ∀ j < s.lead, toQ (s.A k j) = 0 := by
          intro k hk hkm j hj
          rw [h.form.zero_rows k hk hkm j hj, toQ_zero]
        have hSq : ∀ rr < m, ∀ j < s.lead,
            toQ (swap_rows s.A s.r i n rr j) = toQ (s.A rr j) := by
          intro rr hrr j hj
          have hjn : j < n := by omega
          simp only [swap_rows_apply, hjn, if_true]
          split_ifs with h1 h2
          · rw [h1, hzero i hi1 hilt j hj, hzero s.r le_rfl hr j hj]
          · rw [h2, hzero s.r le_rfl hr j hj, hzero i hi1 hilt j hj]
          · rfl
        apply pivotForm_pivot s.A _ m s.lead _ _ s.r hr h.form
        · intro rr hrr j hj
          have hjn : j < n := by omega
          apply normalized_ext _ _ (hnorm rr hrr j hjn) (h.norm rr hrr j hjn)
          have hr0 : toQ (swap_rows s.A s.r i n s.r j) = 0 := by
            rw [hSq s.r hr j hj, hzero s.r le_rfl hr j hj]
          by_cases hrr' : rr = s.r
          · subst hrr'
            rw [hrow j hjn, hr0, zero_div, hzero _ le_rfl hr j hj]
          · rw [hoth rr hrr hrr' j hjn, hr0, zero_div, mul_zero, sub_zero, hSq rr hrr j hj]
        · apply normalized_ext _ _ (hnorm s.r hr s.lead hl) (by decide)
          rw [hrow s.lead hl, div_self hpQ, toQ_one]
        · intro rr hrr hne
          apply normalized_ext _ _ (hnorm rr hrr s.lead hl) (by decide)
          rw [hoth rr hrr hne s.lead hl, div_self hpQ, mul_one, sub_self, toQ_zero]
    · simp only; omega

theorem rref_loop_rule (m n : Nat) (P : RrefState → Prop)
    (hstep : ∀ s, P s → s.r < m → s.lead < n →
      ∃ s', rref_body m n s = .ok s' ∧ P s'
        ∧ (m - s'.r) + (n - s'.lead) < (m - s.r) + (n - s.lead)) :
    ∀ fuel s, P s → (m - s.r) + (n - s.lead) ≤ fuel →
      ∃ s', rref_loop m n fuel s = .ok s' ∧ P s' ∧ ¬(s'.r < m ∧ s'.lead < n) := by
  intro fuel
  induction fuel with
  | zero =>
    intro s hP hfuel
    have hc : ¬(s.r < m ∧ s.lead < n) := by omega
    exact ⟨s, by simp [rref_loop, hc], hP, hc⟩
  | succ fuel ih =>
    intro s hP hfuel
    unfold rref_loop
    by_cases hc : s.r < m ∧ s.lead < n
    · obtain ⟨s1, hbody, hP1, hdec⟩ := hstep s hP hc.1 hc.2
      obtain ⟨s2, hloop, hP2, hdone⟩ := ih s1 hP1 (by omega)
      refine ⟨s2, ?_, hP2, hdone⟩
      simp only [hc, and_self, if_true, hbody]
      exact hloop
    · exact ⟨s, by simp [hc], hP, hc⟩

theorem pivotForm_init (A : Mat) (m : Nat) :
    PivotForm A m 0 (fun _ => -1) (fun _ => 0) 0 where
  k_le := Nat.zero_le m
  pc_range := fun i hi => absurd hi (Nat.not_lt_zero i)
  pc_none := fun _ _ => rfl
  pc_mono := fun i i' _ hi' => absurd hi' (Nat.not_lt_zero i')
  piv_one := fun i hi => absurd hi (Nat.not_lt_zero i)
  left_zero := fun i hi => absurd hi (Nat.not_lt_zero i)
  col_zero := fun i hi => absurd hi (Nat.not_lt_zero i)
  zero_rows := fun _ _ _ j hj => absurd hj (Nat.not_lt_zero j)
  ip_val := fun _ => Or.inr rfl
  ip_iff := fun j => by
    constructor
    · intro h; exact absurd h (by decide)
    · rintro ⟨i, hi, _⟩; exact absurd hi (Nat.not_lt_zero i)

theorem pivotForm_final (A : Mat) (m n lead : Nat) (pc ip : Nat → Int) (r : Nat)
    (h : PivotForm A m lead pc ip r) (hl : lead ≤ n) (hdone : ¬(r < m ∧ lead < n)) :
    PivotForm A m n pc ip r where
  k_le := h.k_le
  pc_range := fun i hi => by
    obtain ⟨c, hc, hpc⟩ := h.pc_range i hi
    exact ⟨c, by omega, hpc⟩
  pc_none := h.pc_none
  pc_mono := h.pc_mono
  piv_one := h.piv_one
  left_zero := h.left_zero
  col_zero := h.col_zero
  zero_rows := fun i hi him j hj => h.zero_rows i hi him j (by omega)
  ip_val := h.ip_val
  ip_iff := h.ip_iff

/-- Main correctness statement of the reducer on normalized input: it returns without a
fatal error, the output is normalized, spans the same row space, and is in pivot form. -/
theorem rref_correct (A : Mat) (m n : Nat) (hA : MatNormalized A m n) :
    ∃ s, rref A m n = .ok s ∧ MatNormalized s.A m n
      ∧ rowSpace s.A m n = rowSpace A m n
      ∧ PivotForm s.A m n s.pivot_col s.is_pivot s.r := by
  obtain ⟨s, hs, hinv, hdone⟩ :=
    rref_loop_rule m n (LoopInv A m n) (rref_body_inv A m n) (m + n)
      { A := A, pivot_col := fun _ => -1, is_pivot := fun _ => 0, r := 0, lead := 0 }
      ⟨hA, rfl, Nat.zero_le n, pivotForm_init A m⟩ (by simp)
  exact ⟨s, hs, hinv.norm, hinv.space,
    pivotForm_final _ _ _ _ _ _ _ hinv.form hinv.lead_le hdone⟩

theorem rref_body_idem (R : Mat) (m n : Nat) (pc ip : Nat → Int) (k : Nat)
    (hR : MatNormalized R m n) (hF : PivotForm R m n pc ip k)
    (s : RrefState) (h : IdemInv R m n pc k s) (hr : s.r < m) (hl : s.lead < n) :
    ∃ s', rref_body m n s = .ok s' ∧ IdemInv R m n pc k s'
      ∧ (m - s'.r) + (n - s'.lead) < (m - s.r) + (n - s.lead) := by
  have hsn : MatNormalized s.A m n := by
    intro a ha b hb; rw [h.cells a ha b hb]; exact hR a ha b hb
  obtain ⟨hi1, hi2, hi3, hi4⟩ :=
    find_pivot_spec s.A m s.lead (m - s.r) s.r (by omega) (by omega)
  unfold rref_body
  generalize find_pivot s.A m s.lead (m - s.r) s.r = i at hi1 hi2 hi3 hi4
  by_cases hcase : s.r < k ∧ pc s.r = (s.lead : Int)
  · -- the pivot of row r sits in this column
    obtain ⟨hrk, hpc⟩ := hcase
    have hone : s.A s.r s.lead = ⟨1, 1⟩ := by
      rw [h.cells s.r hr s.lead hl]; exact hF.piv_one s.r hrk s.lead hpc
    have hir : i = s.r := by
      by_contra hne
      have := hi3 s.r le_rfl (by omega)
      rw [hone] at this
      exact absurd this (by decide)
    subst hir
    have him : ¬ s.r = m := by omega
    simp only [him, if_false]
    have hS : ∀ a b, swap_rows s.A s.r s.r n a b = s.A a b := by
      intro a b
      rw [swap_rows_apply]
      split_ifs with h1 h2 <;> simp_all
    have hSn : MatNormalized (swap_rows s.A s.r s.r n) m n := by
      intro a ha b hb; rw [hS]; exact hsn a ha b hb
    have hp : rat_is_zero (swap_rows s.A s.r s.r n s.r s.lead) = false := by
      rw [hS, hone]; rfl
    obtain ⟨A2, hA2, hnorm, hrow, hoth⟩ :=
      pivot_branch_cells (swap_rows s.A s.r s.r n) m n s.r s.lead hr hl hSn hp
    rw [hA2]
    refine ⟨_, rfl, ?_, ?_⟩
    · refine
        { cells := ?_
          r_le := hrk
          lead_le := hl
          pc_done := ?_
          pc_rest := ?_
          next := ?_
          ip_val := ?_
          ip_iff := ?_ }
      · intro a ha b hb
        show elim_loop s.r s.lead n m A2 a b = R a b
        apply normalized_ext _ _ (hnorm a ha b hb) (hR a ha b hb)
        by_cases har : a = s.r
        · subst har
          rw [hrow b hb, hS, hS, hone, toQ_one, div_one, h.cells _ hr b hb]
        · have hz : s.A a s.lead = ⟨0, 1⟩ := by
            rw [h.cells a ha s.lead hl]
            exact hF.col_zero s.r hrk s.lead hpc a ha har
          rw [hoth a ha har b hb, hS, hS, hz, toQ_zero, zero_mul, sub_zero,
            h.cells a ha b hb]
      · intro a ha
        show int_set s.pivot_col s.r s.lead a = pc a ∧ pc a < ((s.lead + 1 : Nat) : Int)
        by_cases har : a = s.r
        · subst har
          simp only [int_set, if_true]
          exact ⟨hpc.symm, by rw [hpc]; push_cast; omega⟩
        · have ha' : a < s.r := by
            have : a < s.r + 1 := ha
            omega
          obtain ⟨h1, h2⟩ := h.pc_done a ha'
          simp only [int_set, har, if_false]
          exact ⟨h1, by push_cast; omega⟩
      · intro a ha
        have ha' : s.r + 1 ≤ a := ha
        have har : a ≠ s.r := by omega
        show int_set s.pivot_col s.r s.lead a = -1
        simp only [int_set, har, if_false]
        exact h.pc_rest a (by omega)
      · intro hlt
        have hlt' : s.r + 1 < k := hlt
        have := hF.pc_mono s.r (s.r + 1) (by omega) hlt'
        show ((s.lead + 1 : Nat) : Int) ≤ pc (s.r + 1)
        push_cast
        omega
      · intro j
        show int_set s.is_pivot s.lead 1 j = 1 ∨ int_set s.is_pivot s.lead 1 j = 0
        by_cases hj : j = s.lead
        · left; simp [int_set, hj]
        · simp only [int_set, hj, if_false]; exact h.ip_val j
      · intro j
        show int_set s.is_pivot s.lead 1 j = 1 ↔ ∃ a < s.r + 1, pc a = (j : Int)
        by_cases hj : j = s.lead
        · subst hj
          simp only [int_set, if_true, true_iff]
          exact ⟨s.r, by omega, hpc⟩
        · have hip : int_set s.is_pivot s.lead 1 j = s.is_pivot j := by simp [int_set, hj]
          rw [hip, h.ip_iff j]
          constructor
          · rintro ⟨a, ha, hpa⟩; exact ⟨a, by omega, hpa⟩
          · rintro ⟨a, ha, hpa⟩
            by_cases har : a = s.r
            · subst har
              rw [hpc] at hpa
              exact absurd (by omega : j = s.lead) hj
            · exact ⟨a, by omega, hpa⟩
    · simp only; omega
  · -- no pivot in this column: every row from r on is zero there
    have hzero : ∀ a, s.r ≤ a → a < m → s.A a s.lead = ⟨0, 1⟩ := by
      intro a ha ham
      rw [h.cells a ham s.lead hl]
      by_cases hak : a < k
      · apply hF.left_zero a hak
        have hrk : s.r < k := by omega
        have h1 := h.next hrk
        have h2 : pc s.r ≠ (s.lead : Int) := fun heq => hcase ⟨hrk, heq⟩
        have h3 : pc s.r ≤ pc a := by
          by_cases hra : s.r = a
          · rw [hra]
          · exact (hF.pc_mono s.r a (by omega) hak).le
        omega
      · exact hF.zero_rows a (by omega) ham s.lead hl
    have him : i = m := by
      by_contra hne
      have hilt : i < m := by omega
      have h1 := hi4 hilt
      rw [hzero i hi1 hilt] at h1
      exact absurd h1 (by decide)
    subst him
    simp only [if_true]
    refine ⟨_, rfl, ?_, ?_⟩
    · refine
        { cells := h.cells
          r_le := h.r_le
          lead_le := hl
          pc_done := ?_
          pc_rest := h.pc_rest
          next := ?_
          ip_val := h.ip_val
          ip_iff := h.ip_iff }
      · intro a ha
        obtain ⟨h1, h2⟩ := h.pc_done a ha
        exact ⟨h1, by show pc a < ((s.lead + 1 : Nat) : Int); push_cast; omega⟩
      · intro hrk
        have h1 := h.next hrk
        have h2 : pc s.r ≠ (s.lead : Int) := fun heq => hcase ⟨hrk, heq⟩
        show ((s.lead + 1 : Nat) : Int) ≤ pc s.r
        push_cast
        omega
    · simp only; omega

/-- Running the reducer on a normalized matrix that is already in pivot form changes no
cell and recomputes the same pivot map. -/
theorem rref_of_pivotForm (R : Mat) (m n : Nat) (pc ip : Nat → Int) (k : Nat)
    (hR : MatNormalized R m n) (hF : PivotForm R m n pc ip k) :
    ∃ s, rref R m n = .ok s ∧ (∀ i < m, ∀ j < n, s.A i j = R i j)
      ∧ (∀ i, s.pivot_col i = pc i) ∧ (∀ j : Nat, s.is_pivot j = ip j) := by
  have hinit : IdemInv R m n pc k
      { A := R, pivot_col := fun _ => -1, is_pivot := fun _ => 0, r := 0, lead := 0 } :=
    { cells := fun _ _ _ _ => rfl
      r_le := Nat.zero_le k
      lead_le := Nat.zero_le n
      pc_done := fun i hi => absurd hi (Nat.not_lt_zero i)
      pc_rest := fun _ _ => rfl
      next := fun hk => by
        obtain ⟨c, _, hpc⟩ := hF.pc_range 0 hk
        show ((0 : Nat) : Int) ≤ pc 0
        rw [hpc]; omega
      ip_val := fun _ => Or.inr rfl
      ip_iff := fun j => by
        show (0 : Int) = 1 ↔ ∃ i < 0, pc i = (j : Int)
        constructor
        · intro h; exact absurd h (by decide)
        · rintro ⟨i, hi, _⟩; exact absurd hi (Nat.not_lt_zero i) }
  obtain ⟨s, hs, hinv, hdone⟩ :=
    rref_loop_rule m n (IdemInv R m n pc k) (rref_body_idem R m n pc ip k hR hF) (m + n)
      _ hinit (by simp)
  have hrk : s.r = k := by
    by_contra hne
    have hlt : s.r < k := lt_of_le_of_ne hinv.r_le hne
    have h1 := hinv.next hlt
    obtain ⟨c, hc, hpc⟩ := hF.pc_range s.r hlt
    have := hF.k_le
    have := hinv.lead_le
    apply hdone
    constructor
    · omega
    · omega
  refine ⟨s, hs, hinv.cells, ?_, ?_⟩
  · intro i
    by_cases hi : i < s.r
    · exact (hinv.pc_done i hi).1
    · rw [hinv.pc_rest i (by omega), hF.pc_none i (by omega)]
  · intro j
    have h1 := hinv.ip_iff j
    have h2 := hF.ip_iff j
    rw [hrk] at h1
    have h3 : s.is_pivot j = 1 ↔ ip j = 1 := h1.trans h2.symm
    rcases hinv.ip_val j with ha | ha <;> rcases hF.ip_val j with hb | hb
    · rw [ha, hb]
    · exact absurd (h3.mp ha) (by rw [hb]; decide)
    · exact absurd (h3.mpr hb) (by rw [ha]; decide)
    · rw [ha, hb]

theorem rowQ_mem_solSpace (A : Mat) (n i : Nat) (hn : 1 ≤ n) (x : Nat → ℚ) :
    rowQ A n i ∈ solSpace n x
      ↔ ∑ j ∈ Finset.range (n - 1), toQ (A i j) * x j = toQ (A i (n - 1)) := by
  obtain ⟨k, rfl⟩ : ∃ k, n = k + 1 := ⟨n - 1, by omega⟩
  show ∑ j : Fin (k + 1), rowQ A (k + 1) i j * eqWeight (k + 1) x j = 0 ↔ _
  have h1 : ∑ j : Fin (k + 1), rowQ A (k + 1) i j * eqWeight (k + 1) x j
      = ∑ j ∈ Finset.range (k + 1), toQ (A i j) * eqWeight (k + 1) x j :=
    Fin.sum_univ_eq_sum_range (fun j => toQ (A i j) * eqWeight (k + 1) x j) (k + 1)
  have h2 : ∑ j ∈ Finset.range k, toQ (A i j) * eqWeight (k + 1) x j
      = ∑ j ∈ Finset.range k, toQ (A i j) * x j := by
    apply Finset.sum_congr rfl
    intro j hj
    have : j + 1 < k + 1 := by have := Finset.mem_range.mp hj; omega
    simp [eqWeight, this]
  have h3 : eqWeight (k + 1) x k = -1 := by simp [eqWeight]
  rw [h1, Finset.sum_range_succ, h2, h3]
  simp only [Nat.add_sub_cancel]
  constructor
  · intro h; linarith
  · intro h; linarith

theorem isSolution_iff_le (A : Mat) (m n : Nat) (hn : 1 ≤ n) (x : Nat → ℚ) :
    IsSolution A m n x ↔ rowSpace A m n ≤ solSpace n x := by
  constructor
  · intro h
    apply Submodule.span_le.mpr
    rintro _ ⟨i, rfl⟩
    exact (rowQ_mem_solSpace A n i hn x).mpr (h i i.2)
  · intro h i hi
    exact (rowQ_mem_solSpace A n i hn x).mp (h (rowQ_mem_rowSpace A m n i hi))

theorem isSolution_congr (A B : Mat) (m n : Nat) (hn : 1 ≤ n)
    (h : rowSpace B m n = rowSpace A m n) (x : Nat → ℚ) :
    IsSolution B m n x ↔ IsSolution A m n x := by
  rw [isSolution_iff_le A m n hn, isSolution_iff_le B m n hn, h]

theorem inconsistent_iff (B : Mat) (m vars : Nat) :
    inconsistent B m vars = true
      ↔ ∃ i < m, (∀ j < vars, rat_is_zero (B i j) = true) ∧ rat_is_zero (B i vars) = false := by
  simp only [inconsistent, all_zero, List.any_eq_true, List.mem_range, Bool.and_eq_true,
    List.all_eq_true, Bool.not_eq_true']

theorem pivot_lt_vars (B : Mat) (m n : Nat) (pc ip : Nat → Int) (k : Nat) (hn : 1 ≤ n)
    (hF : PivotForm B m n pc ip k) (hc : inconsistent B m (n - 1) = false)
    (i : Nat) (hi : i < k) (c : Nat) (hpc : pc i = (c : Int)) : c < n - 1 := by
  by_contra hnot
  obtain ⟨c', hc', hpc'⟩ := hF.pc_range i hi
  have hcc : c = c' := by
    have : (c : Int) = (c' : Int) := by rw [← hpc, hpc']
    omega
  have hcv : c = n - 1 := by omega
  have hinc : inconsistent B m (n - 1) = true := by
    rw [inconsistent_iff]
    refine ⟨i, by have := hF.k_le; omega, ?_, ?_⟩
    · intro j hj
      rw [hF.left_zero i hi j (by rw [hpc]; omega)]
      rfl
    · rw [← hcv, hF.piv_one i hi c hpc]
      rfl
  rw [hc] at hinc
  exact Bool.false_ne_true hinc

theorem pivot_row_sum (B : Mat) (m n : Nat) (pc ip : Nat → Int) (k : Nat)
    (hF : PivotForm B m n pc ip k) (i : Nat) (hi : i < k) (c : Nat) (hpc : pc i = (c : Int))
    (hcv : c < n - 1) (x : Nat → ℚ) :
    ∑ j ∈ Finset.range (n - 1), toQ (B i j) * x j = x c + freeSum B i (n - 1) ip x := by
  have him : i < m := lt_of_lt_of_le hi hF.k_le
  have hterm : ∀ j ∈ Finset.range (n - 1), toQ (B i j) * x j
      = (if j = c then x j else 0) + (if ip j = 0 then toQ (B i j) * x j else 0) := by
    intro j _
    by_cases hjc : j = c
    · subst hjc
      have h1 : ip j = 1 := (hF.ip_iff j).mpr ⟨i, hi, hpc⟩
      rw [hF.piv_one i hi j hpc, toQ_one]
      simp [h1]
    · rcases hF.ip_val j with h1 | h0
      · obtain ⟨i', hi', hpc'⟩ := (hF.ip_iff j).mp h1
        have hne : i ≠ i' := by
          intro heq
          subst heq
          have : (c : Int) = (j : Int) := by rw [← hpc, hpc']
          omega
        rw [hF.col_zero i' hi' j hpc' i him hne, toQ_zero]
        simp [hjc, h1]
      · simp [hjc, h0]
  rw [Finset.sum_congr rfl hterm, Finset.sum_add_distrib, freeSum]
  congr 1
  rw [Finset.sum_ite_eq' (Finset.range (n - 1)) c (fun j => x j)]
  simp [hcv]

theorem isSolution_pivotForm (B : Mat) (m n : Nat) (pc ip : Nat → Int) (k : Nat) (hn : 1 ≤ n)
    (hF : PivotForm B m n pc ip k) (hc : inconsistent B m (n - 1) = false) (x : Nat → ℚ) :
    IsSolution B m n x
      ↔ ∀ i < k, ∀ c : Nat, pc i = (c : Int) →
          x c = toQ (B i (n - 1)) - freeSum B i (n - 1) ip x := by
  constructor
  · intro h i hi c hpc
    have hcv := pivot_lt_vars B m n pc ip k hn hF hc i hi c hpc
    have h1 := h i (lt_of_lt_of_le hi hF.k_le)
    rw [pivot_row_sum B m n pc ip k hF i hi c hpc hcv x] at h1
    linarith
  · intro h i him
    by_cases hi : i < k
    · obtain ⟨c, _, hpc⟩ := hF.pc_range i hi
      have hcv := pivot_lt_vars B m n pc ip k hn hF hc i hi c hpc
      rw [pivot_row_sum B m n pc ip k hF i hi c hpc hcv x, h i hi c hpc]
      ring
    · have hz : ∀ j < n, toQ (B i j) = 0 := by
        intro j hj
        rw [hF.zero_rows i (by omega) him j hj, toQ_zero]
      rw [hz (n - 1) (by omega)]
      apply Finset.sum_eq_zero
      intro j hj
      have := Finset.mem_range.mp hj
      rw [hz j (by omega), zero_mul]

theorem pc_injective (B : Mat) (m n : Nat) (pc ip : Nat → Int) (k : Nat)
    (hF : PivotForm B m n pc ip k) (i i' : Nat) (hi : i < k) (hi' : i' < k)
    (h : pc i = pc i') : i = i' := by
  rcases Nat.lt_trichotomy i i' with hlt | heq | hgt
  · have := hF.pc_mono i i' hlt hi'; omega
  · exact heq
  · have := hF.pc_mono i' i hgt hi; omega

theorem freeSum_congr (B : Mat) (i vars : Nat) (ip : Nat → Int) (x y : Nat → ℚ)
    (h : ∀ j < vars, ip j = 0 → x j = y j) : freeSum B i vars ip x = freeSum B i vars ip y := by
  unfold freeSum
  apply Finset.sum_congr rfl
  intro j hj
  by_cases h0 : ip j = 0
  · simp only [h0, if_true]; rw [h j (Finset.mem_range.mp hj) h0]
  · simp only [h0, if_false]

/-- In a consistent system in pivot form the free variables can be chosen at will. -/
theorem exists_solution (B : Mat) (m n : Nat) (pc ip : Nat → Int) (k : Nat) (hn : 1 ≤ n)
    (hF : PivotForm B m n pc ip k) (hc : inconsistent B m (n - 1) = false) (y : Nat → ℚ) :
    ∃ x, IsSolution B m n x ∧ ∀ j, ip j = 0 → x j = y j := by
  refine ⟨fun j => if ip j = 0 then y j
    else ∑ i ∈ Finset.range k,
      if pc i = (j : Int) then toQ (B i (n - 1)) - freeSum B i (n - 1) ip y else 0, ?_, ?_⟩
  · rw [isSolution_pivotForm B m n pc ip k hn hF hc]
    intro i hi c hpc
    have h1 : ip c = 1 := (hF.ip_iff c).mpr ⟨i, hi, hpc⟩
    have h0 : ¬ ip c = 0 := by rw [h1]; decide
    simp only [h0, if_false]
    rw [Finset.sum_eq_single i]
    · simp only [hpc, if_true]
      congr 1
      apply freeSum_congr
      intro j _ hj
      simp [hj]
    · intro i' hi' hne
      have hne' : ¬ pc i' = (c : Int) := by
        intro heq
        exact hne (pc_injective B m n pc ip k hF i' i (Finset.mem_range.mp hi') hi
          (by rw [heq, hpc]))
      simp [hne']
    · intro hnot
      exact absurd (Finset.mem_range.mpr hi) hnot
  · intro j hj
    simp [hj]

theorem main_eq (A : Mat) (m n : Nat) (s : RrefState) (hs : rref A m n = .ok s) :
    main A m n = .ok (classify s.A m n s.pivot_col s.is_pivot) := by
  simp [main, hs, bind, Except.bind, pure, Except.pure]

theorem classify_inconsistent_iff (B : Mat) (m n : Nat) (pc ip : Nat → Int) :
    classify B m n pc ip = .Inconsistent ↔ inconsistent B m (n - 1) = true := by
  unfold classify
  by_cases h : inconsistent B m (n - 1) = true
  · simp [h]
  · have hf : inconsistent B m (n - 1) = false := by simpa using h
    simp only [hf, Bool.false_eq_true, if_false, iff_false]
    split_ifs <;> exact not_false

theorem no_solution_of_inconsistent (B : Mat) (m n : Nat) (hB : MatNormalized B m n)
    (hn : 1 ≤ n) (h : inconsistent B m (n - 1) = true) (x : Nat → ℚ) :
    ¬ IsSolution B m n x := by
  intro hsol
  obtain ⟨i, hi, hz, hnz⟩ := (inconsistent_iff B m (n - 1)).mp h
  have h1 := hsol i hi
  have h2 : ∑ j ∈ Finset.range (n - 1), toQ (B i j) * x j = 0 := by
    apply Finset.sum_eq_zero
    intro j hj
    have hj' := Finset.mem_range.mp hj
    rw [(rat_is_zero_iff _ (normalized_den_ne _ (hB i hi j (by omega)))).mp (hz j hj'),
      zero_mul]
  rw [h2] at h1
  have h3 := (rat_is_zero_iff _ (normalized_den_ne _ (hB i hi (n - 1) (by omega)))).mpr h1.symm
  rw [hnz] at h3
  exact Bool.false_ne_true h3

theorem filterMap_range_none {β : Type} (m : Nat) (p : Nat → Prop) [DecidablePred p]
    (f : Nat → β) (h : ∀ i < m, ¬ p i) :
    (List.range m).filterMap (fun i => if p i then some (f i) else none) = [] := by
  induction m with
  | zero => rfl
  | succ m ih =>
    rw [List.range_succ, List.filterMap_append, ih (fun i hi => h i (by omega))]
    simp [h m (by omega)]

theorem filterMap_range_unique {β : Type} (m : Nat) (p : Nat → Prop) [DecidablePred p]
    (f : Nat → β) (i0 : Nat) (hi0 : i0 < m) (hp : p i0) (huniq : ∀ i < m, p i → i = i0) :
    (List.range m).filterMap (fun i => if p i then some (f i) else none) = [f i0] := by
  induction m with
  | zero => omega
  | succ m ih =>
    rw [List.range_succ, List.filterMap_append]
    by_cases hm : i0 = m
    · subst hm
      rw [filterMap_range_none i0 p f (fun i hi hpi => by
        have := huniq i (by omega) hpi; omega)]
      simp [hp]
    · rw [ih (by omega) (fun i hi hpi => huniq i (by omega) hpi)]
      have hnp : ¬ p m := fun hpm => hm (huniq m (by omega) hpm).symm
      simp [hnp]

theorem flatMap_eq_map {α β : Type} (l : List α) (F : α → List β) (g : α → β)
    (h : ∀ a ∈ l, F a = [g a]) : l.flatMap F = l.map g := by
  induction l with
  | nil => rfl
  | cons a l ih =>
    rw [List.flatMap_cons, List.map_cons, h a (List.mem_cons_self a l),
      ih (fun b hb => h b (List.mem_cons_of_mem a hb))]
    rfl

theorem rank_full (ip : Nat → Int) (vars : Nat) (h : rank ip vars = vars) :
    ∀ j < vars, ip j ≠ 0 := by
  intro j hj
  have h1 : (List.range vars).countP (fun j => ip j != 0) = (List.range vars).length := by
    rw [List.length_range]; exact h
  have h2 := List.countP_eq_length.mp h1 j (List.mem_range.mpr hj)
  simpa using h2

theorem freeSum_zero (B : Mat) (i vars : Nat) (ip : Nat → Int) (x : Nat → ℚ)
    (h : ∀ j < vars, ip j ≠ 0) : freeSum B i vars ip x = 0 := by
  unfold freeSum
  apply Finset.sum_eq_zero
  intro j hj
  simp [h j (Finset.mem_range.mp hj)]

theorem pivot_row_of_col (B : Mat) (m n : Nat) (pc ip : Nat → Int) (k : Nat)
    (hF : PivotForm B m n pc ip k) (j : Nat) (hj : ip j ≠ 0) :
    ∃ i, i < k ∧ pc i = (j : Int) ∧ ∀ i' < m, pc i' = (j : Int) → i' = i := by
  have h1 : ip j = 1 := by
    rcases hF.ip_val j with h | h
    · exact h
    · exact absurd h hj
  obtain ⟨i, hi, hpc⟩ := (hF.ip_iff j).mp h1
  refine ⟨i, hi, hpc, ?_⟩
  intro i' _ hpc'
  have hi' : i' < k := by
    by_contra hnot
    have := hF.pc_none i' (by omega)
    omega
  exact pc_injective B m n pc ip k hF i' i hi' hi (by rw [hpc, hpc'])

theorem classify_unique (B : Mat) (m n : Nat) (pc ip : Nat → Int) (vals : List (Nat × Rat))
    (h : classify B m n pc ip = .Unique vals) :
    inconsistent B m (n - 1) = false ∧ rank ip (n - 1) = n - 1
      ∧ vals = unique_lines B m (n - 1) pc := by
  unfold classify at h
  by_cases h1 : inconsistent B m (n - 1) = true
  · simp [h1] at h
  · have hf : inconsistent B m (n - 1) = false := by simpa using h1
    by_cases h2 : rank ip (n - 1) = n - 1
    · simp only [hf, Bool.false_eq_true, if_false, h2, if_true] at h
      exact ⟨hf, h2, (Solution.Unique.inj h).symm⟩
    · simp [hf, h2] at h

theorem flatMap_filter_map {α β : Type} (l : List α) (p : α → Prop) [DecidablePred p]
    (F : α → List β) (g : α → β)
    (h : ∀ a ∈ l, F a = if p a then [] else [g a]) :
    l.flatMap F = (l.filter (fun a => !decide (p a))).map g := by
  induction l with
  | nil => rfl
  | cons a l ih =>
    rw [List.flatMap_cons, h a (List.mem_cons_self a l),
      ih (fun b hb => h b (List.mem_cons_of_mem a hb))]
    by_cases hp : p a
    · simp [hp]
    · simp [hp]

theorem list_sum_range (f : Nat → ℚ) (n : Nat) :
    ((List.range n).map f).sum = ∑ k ∈ Finset.range n, f k := by
  induction n with
  | zero => simp
  | succ n ih => rw [List.sum_range_succ, Finset.sum_range_succ, ih]

theorem map_getD_range (l : List Nat) (f : Nat → ℚ) :
    (List.range l.length).map (fun k => f (l.getD k 0)) = l.map f := by
  apply List.ext_getElem
  · simp
  · intro i h1 h2
    simp only [List.length_map, List.length_range] at h1
    simp only [List.getElem_map, List.getElem_range]
    rw [List.getD_eq_getElem l 0 h1]

theorem free_cols_nodup (ip : Nat → Int) (vars : Nat) : (free_cols ip vars).Nodup :=
  List.Nodup.filter _ (List.nodup_range vars)

theorem mem_free_cols (ip : Nat → Int) (vars j : Nat) :
    j ∈ free_cols ip vars ↔ j < vars ∧ ip j = 0 := by
  simp [free_cols, List.mem_filter]

theorem free_sum_eq (B : Mat) (i vars : Nat) (ip : Nat → Int) (x : Nat → ℚ) :
    ∑ k ∈ Finset.range (free_cols ip vars).length,
        toQ (B i ((free_cols ip vars).getD k 0)) * x ((free_cols ip vars).getD k 0)
      = freeSum B i vars ip x := by
  rw [← list_sum_range (fun k => toQ (B i ((free_cols ip vars).getD k 0))
      * x ((free_cols ip vars).getD k 0)),
    map_getD_range (free_cols ip vars) (fun j => toQ (B i j) * x j),
    ← List.sum_toFinset _ (free_cols_nodup ip vars)]
  unfold freeSum
  rw [← Finset.sum_filter]
  apply Finset.sum_congr
  · ext j
    simp [mem_free_cols]
  · intro j _; rfl

theorem row_terms_sum (B : Mat) (i : Nat) (free : List Nat) (t : Nat → ℚ)
    (hB : ∀ k < free.length, (B i (free.getD k 0)).den ≠ 0) :
    ((row_terms B i free).map (termVal t)).sum
      = - ∑ k ∈ Finset.range free.length, toQ (B i (free.getD k 0)) * t (k + 1) := by
  have key : ∀ L : List Nat, (∀ k ∈ L, k < free.length) →
      (((L.filterMap fun k =>
          let a := B i (free.getD k 0)
          if rat_is_zero a = true then none
          else if a.num > 0 then some (⟨true, a, k + 1⟩ : Term)
          else some ⟨false, rat_neg a, k + 1⟩).map (termVal t)).sum
        = (L.map (fun k => - (toQ (B i (free.getD k 0)) * t (k + 1)))).sum) := by
    intro L
    induction L with
    | nil => intro _; rfl
    | cons k L ih =>
      intro hL
      have hk := hL k (List.mem_cons_self k L)
      have ih' := ih (fun a ha => hL a (List.mem_cons_of_mem k ha))
      rw [List.filterMap_cons, List.map_cons, List.sum_cons]
      have hd := hB k hk
      simp only []
      generalize B i (free.getD k 0) = a at hd
      by_cases hz : rat_is_zero a = true
      · have h0 := (rat_is_zero_iff _ hd).mp hz
        simp only [hz, if_true]
        rw [ih', h0]
        simp
      · by_cases hpos : a.num > 0
        · simp only [hz, Bool.false_eq_true, if_false, hpos, if_true, List.map_cons,
            List.sum_cons]
          rw [ih']
          simp [termVal]
        · simp only [hz, Bool.false_eq_true, if_false, hpos, List.map_cons, List.sum_cons]
          rw [ih']
          have hneg : toQ (rat_neg a) = - toQ a := by
            simp [toQ, rat_neg, neg_div]
          simp [termVal, hneg]
  have h := key (List.range free.length) (fun k hk => List.mem_range.mp hk)
  unfold row_terms
  rw [h, list_sum_range, Finset.sum_neg_distrib]

theorem classify_infinite (B : Mat) (m n : Nat) (pc ip : Nat → Int) (fl : List (Nat × Nat))
    (el : List Line) (h : classify B m n pc ip = .Infinite fl el) :
    inconsistent B m (n - 1) = false
      ∧ fl = free_lines (free_cols ip (n - 1))
      ∧ el = pivot_lines B m (n - 1) pc ip (free_cols ip (n - 1)) := by
  unfold classify at h
  by_cases h1 : inconsistent B m (n - 1) = true
  · simp [h1] at h
  · have hf : inconsistent B m (n - 1) = false := by simpa using h1
    by_cases h2 : rank ip (n - 1) = n - 1
    · simp [hf, h2] at h
    · simp only [hf, Bool.false_eq_true, if_false, h2] at h
      have h3 := Solution.Infinite.inj h
      exact ⟨hf, h3.1.symm, h3.2.symm⟩

theorem pivot_lines_eq (B : Mat) (m vars : Nat) (pc ip : Nat → Int) (free : List Nat)
    (ρ : Nat → Nat)
    (hρ : ∀ j, ip j ≠ 0 → ρ j < m ∧ pc (ρ j) = (j : Int)
      ∧ ∀ i' < m, pc i' = (j : Int) → i' = ρ j) :
    pivot_lines B m vars pc ip free
      = ((List.range vars).filter (fun j => ip j != 0)).map
          (fun j => (⟨j + 1, B (ρ j) vars, row_terms B (ρ j) free⟩ : Line)) := by
  unfold pivot_lines
  rw [flatMap_filter_map (List.range vars) (fun j => ip j = 0) _
    (fun j => (⟨j + 1, B (ρ j) vars, row_terms B (ρ j) free⟩ : Line))]
  · congr 1
  · intro j _
    by_cases h : ip j = 0
    · simp [h]
    · simp only [h, if_false]
      obtain ⟨h1, h2, h3⟩ := hρ j h
      exact filterMap_range_unique m (fun i => pc i = (j : Int))
        (fun i => (⟨j + 1, B i vars, row_terms B i free⟩ : Line)) (ρ j) h1 h2 h3

theorem getD_free_cols (ip : Nat → Int) (vars k : Nat) (hk : k < (free_cols ip vars).length) :
    (free_cols ip vars).getD k 0 < vars ∧ ip ((free_cols ip vars).getD k 0) = 0 := by
  rw [List.getD_eq_getElem _ 0 hk]
  exact (mem_free_cols ip vars _).mp (List.getElem_mem hk)

theorem describes_iff (B : Mat) (m n : Nat) (pc ip : Nat → Int) (hn : 1 ≤ n)
    (hB : MatNormalized B m n) (ρ : Nat → Nat)
    (hρ : ∀ j, ip j ≠ 0 → ρ j < m ∧ pc (ρ j) = (j : Int)
      ∧ ∀ i' < m, pc i' = (j : Int) → i' = ρ j)
    (t x : Nat → ℚ) :
    Describes (free_lines (free_cols ip (n - 1)))
        (pivot_lines B m (n - 1) pc ip (free_cols ip (n - 1))) t x
      ↔ (∀ k < (free_cols ip (n - 1)).length, x ((free_cols ip (n - 1)).getD k 0) = t (k + 1))
        ∧ (∀ j < n - 1, ip j ≠ 0 →
            x j = toQ (B (ρ j) (n - 1))
              - ∑ k ∈ Finset.range (free_cols ip (n - 1)).length,
                  toQ (B (ρ j) ((free_cols ip (n - 1)).getD k 0)) * t (k + 1)) := by
  have hval : ∀ j, ip j ≠ 0 →
      lineVal t ⟨j + 1, B (ρ j) (n - 1), row_terms B (ρ j) (free_cols ip (n - 1))⟩
        = toQ (B (ρ j) (n - 1))
          - ∑ k ∈ Finset.range (free_cols ip (n - 1)).length,
              toQ (B (ρ j) ((free_cols ip (n - 1)).getD k 0)) * t (k + 1) := by
    intro j hj
    unfold lineVal
    simp only []
    rw [row_terms_sum B (ρ j) (free_cols ip (n - 1)) t, sub_eq_add_neg]
    intro k hk
    exact normalized_den_ne _ (hB (ρ j) (hρ j hj).1 _
      (by have := (getD_free_cols ip (n - 1) k hk).1; omega))
  rw [pivot_lines_eq B m (n - 1) pc ip _ ρ hρ]
  unfold Describes free_lines
  constructor
  · rintro ⟨h1, h2⟩
    constructor
    · intro k hk
      have := h1 (_, k + 1) (List.mem_map.mpr ⟨k, List.mem_range.mpr hk, rfl⟩)
      simpa using this
    · intro j hj hip
      have hmem : (⟨j + 1, B (ρ j) (n - 1), row_terms B (ρ j) (free_cols ip (n - 1))⟩ : Line)
          ∈ ((List.range (n - 1)).filter (fun j => ip j != 0)).map
            (fun j => (⟨j + 1, B (ρ j) (n - 1),
              row_terms B (ρ j) (free_cols ip (n - 1))⟩ : Line)) := by
        apply List.mem_map.mpr
        refine ⟨j, List.mem_filter.mpr ⟨List.mem_range.mpr hj, ?_⟩, rfl⟩
        simpa using hip
      have := h2 _ hmem
      rw [hval j hip] at this
      simpa using this
  · rintro ⟨h1, h2⟩
    constructor
    · intro p hp
      obtain ⟨k, hk, rfl⟩ := List.mem_map.mp hp
      have := h1 k (List.mem_range.mp hk)
      simpa using this
    · intro ln hln
      obtain ⟨j, hj, rfl⟩ := List.mem_map.mp hln
      obtain ⟨hj1, hj2⟩ := List.mem_filter.mp hj
      have hip : ip j ≠ 0 := by simpa using hj2
      rw [hval j hip]
      have := h2 j (List.mem_range.mp hj1) hip
      simpa using this

theorem rat_norm_cross (n d : Int) (hd : d ≠ 0) :
    (rat_norm ⟨n, d⟩).num * d = n * (rat_norm ⟨n, d⟩).den := by
  rw [rat_norm_eq n d hd]
  simp only [ofQ]
  have hdQ : (d : ℚ) ≠ 0 := by exact_mod_cast hd
  have hq : (((n : ℚ) / d).num : ℚ) / (((n : ℚ) / d).den : ℚ) = (n : ℚ) / d :=
    Rat.num_div_den _
  have hden : ((((n : ℚ) / d).den : ℚ)) ≠ 0 := by
    exact_mod_cast ((n : ℚ) / d).den_pos.ne'
  rw [div_eq_div_iff hden hdQ] at hq
  exact_mod_cast hq

theorem wrap64_eq (x : Int) (h : InI64 x) : wrap64 x = x := by
  unfold wrap64
  unfold InI64 at h
  omega

theorem noWrap_inI64 (x : Int) (h : NoWrap x) : InI64 x := by
  unfold NoWrap at h
  unfold InI64
  omega

theorem i64_abs64_eq (x : Int) (h : NoWrap x) : i64_abs64 x = i64_abs x := by
  unfold i64_abs64 i64_abs
  split_ifs
  · apply wrap64_eq
    unfold NoWrap at h
    unfold InI64
    omega
  · rfl

theorem i64_rem_eq (a b : Int) (ha : NoWrap a) (hb : b ≠ 0) :
    i64_rem a b = .ok (Int.tmod a b) := by
  unfold i64_rem
  have : ¬ (b = 0 ∨ (a = -9223372036854775808 ∧ b = -1)) := by
    unfold NoWrap at ha
    omega
  rw [if_neg this]

theorem i64_div_eq (a b : Int) (ha : NoWrap a) (hb : b ≠ 0) :
    i64_div a b = .ok (Int.tdiv a b) := by
  unfold i64_div
  have : ¬ (b = 0 ∨ (a = -9223372036854775808 ∧ b = -1)) := by
    unfold NoWrap at ha
    omega
  rw [if_neg this]

theorem natAbs_tmod_lt (a b : Int) (hb : b ≠ 0) : (Int.tmod a b).natAbs < b.natAbs := by
  have h : (Int.tmod a b).natAbs = a.natAbs % b.natAbs := by
    cases a <;> cases b <;> simp [Int.tmod] <;> rfl
  rw [h]
  exact Nat.mod_lt _ (Int.natAbs_pos.mpr hb)

theorem gcd_loop64_eq : ∀ (fuel : Nat) (a b : Int), NoWrap a → NoWrap b → b.natAbs ≤ fuel →
    gcd_loop64 fuel a b = .ok (gcd_loop fuel a b)
  | 0, a, b, _, _, hf => by
    have hb : b = 0 := by omega
    simp [gcd_loop64, gcd_loop, hb]
  | fuel + 1, a, b, ha, hb, hf => by
    unfold gcd_loop64 gcd_loop
    by_cases h0 : b = 0
    · simp [h0]
    · simp only [ne_eq, h0, not_false_eq_true, if_true]
      rw [i64_rem_eq a b ha h0]
      have hlt : (Int.tmod a b).natAbs < b.natAbs := by
        exact natAbs_tmod_lt a b h0
      have ht : NoWrap (Int.tmod a b) := by
        unfold NoWrap at *
        omega
      exact gcd_loop64_eq fuel b (Int.tmod a b) hb ht (by omega)

theorem gcd_i64_64_eq (a b : Int) (ha : NoWrap a) (hb : NoWrap b) :
    gcd_i64_64 a b = .ok (gcd_i64 a b) := by
  unfold gcd_i64_64 gcd_i64
  rw [i64_abs64_eq a ha, i64_abs64_eq b hb]
  have hnn : 0 ≤ i64_abs b := by rw [i64_abs_eq]; exact abs_nonneg b
  have hna : NoWrap (i64_abs a) := by
    rw [i64_abs_eq]; unfold NoWrap at *; constructor
    · have := abs_nonneg a; omega
    · rw [abs_le]; omega
  have hnb : NoWrap (i64_abs b) := by
    rw [i64_abs_eq]; unfold NoWrap at *; constructor
    · have := abs_nonneg b; omega
    · rw [abs_le]; omega
  have : (i64_abs b).natAbs = (i64_abs b).toNat := by omega
  simp only []
  rw [gcd_loop64_eq _ _ _ hna hnb (le_refl _), this]
  rfl

theorem gcd_i64_ne_zero (a b : Int) : gcd_i64 a b ≠ 0 := by
  unfold gcd_i64
  simp only []
  split_ifs with h
  · exact h
  · decide

theorem rat_norm64_eq (r : Rat) (hn : NoWrap r.num) (hd : NoWrap r.den) :
    rat_norm64 r = .ok (rat_norm r) := by
  unfold rat_norm64 rat_norm
  by_cases h0 : r.num = 0
  · simp [h0]
  · simp only [h0, if_false]
    have hnn : NoWrap (-r.num) := by unfold NoWrap at *; omega
    have hdn : NoWrap (-r.den) := by unfold NoWrap at *; omega
    by_cases hneg : r.den < 0
    · simp only [hneg, if_true]
      rw [wrap64_eq _ (noWrap_inI64 _ hnn), wrap64_eq _ (noWrap_inI64 _ hdn),
        gcd_i64_64_eq _ _ hnn hdn]
      simp only [bind, Except.bind]
      rw [i64_div_eq _ _ hnn (gcd_i64_ne_zero _ _), i64_div_eq _ _ hdn (gcd_i64_ne_zero _ _)]
      rfl
    · simp only [hneg, if_false]
      rw [gcd_i64_64_eq _ _ hn hd]
      simp only [bind, Except.bind]
      rw [i64_div_eq _ _ hn (gcd_i64_ne_zero _ _), i64_div_eq _ _ hd (gcd_i64_ne_zero _ _)]
      rfl

theorem rat_ops64_core (a b : Rat) (ha : Normalized a) (hb : Normalized b) (n : Int)
    (hn : NoWrap n) (hden : NoWrap (a.den * b.den)) :
    rat_norm64 ⟨n, a.den * b.den⟩ = .ok (rat_norm ⟨n, a.den * b.den⟩)
      ∧ Normalized (rat_norm ⟨n, a.den * b.den⟩)
      ∧ toQ (rat_norm ⟨n, a.den * b.den⟩) = (n : ℚ) / ((a.den * b.den : Int) : ℚ) := by
  have hd : a.den * b.den ≠ 0 :=
    mul_ne_zero (normalized_den_ne a ha) (normalized_den_ne b hb)
  refine ⟨rat_norm64_eq _ hn hden, ?_, ?_⟩
  · rw [rat_norm_eq _ _ hd]; exact ofQ_normalized _
  · rw [rat_norm_eq _ _ hd]; exact toQ_ofQ _

theorem bind_ne_error {α β : Type} (e : Fatal64) (x : Except Fatal64 α)
    (f : α → Except Fatal64 β) (hx : x ≠ .error e) (hf : ∀ v, f v ≠ .error e) :
    (x >>= f) ≠ .error e := by
  cases x with
  | error e' =>
    intro h
    change (Except.error e' : Except Fatal64 β) = Except.error e at h
    exact hx (by rw [Except.error.inj h])
  | ok v => exact hf v

theorem i64_rem_cases (a b : Int) :
    i64_rem a b = .error .Sigfpe ∨ i64_rem a b = .ok (Int.tmod a b) := by
  unfold i64_rem
  split_ifs
  · exact Or.inl rfl
  · exact Or.inr rfl

theorem i64_div_cases (a b : Int) :
    i64_div a b = .error .Sigfpe ∨ i64_div a b = .ok (Int.tdiv a b) := by
  unfold i64_div
  split_ifs
  · exact Or.inl rfl
  · exact Or.inr rfl

theorem i64_rem_ne (e : Fatal64) (he : e ≠ .Sigfpe) (a b : Int) : i64_rem a b ≠ .error e := by
  unfold i64_rem
  split_ifs
  · intro h; exact he (Except.error.inj h).symm
  · intro h; exact Except.noConfusion h

theorem i64_div_ne (e : Fatal64) (he : e ≠ .Sigfpe) (a b : Int) : i64_div a b ≠ .error e := by
  unfold i64_div
  split_ifs
  · intro h; exact he (Except.error.inj h).symm
  · intro h; exact Except.noConfusion h

theorem gcd_loop64_ne_dbz : ∀ (fuel : Nat) (a b : Int),
    gcd_loop64 fuel a b ≠ .error .DivideByZero
  | 0, a, b => by
    unfold gcd_loop64
    split_ifs
    · intro h; exact Fatal64.noConfusion (Except.error.inj h)
    · intro h; exact Except.noConfusion h
  | fuel + 1, a, b => by
    unfold gcd_loop64
    split_ifs
    · exact bind_ne_error _ _ _ (i64_rem_ne _ (by decide) a b)
        (fun t => gcd_loop64_ne_dbz fuel b t)
    · intro h; exact Except.noConfusion h

theorem gcd_loop64_ne_fuel : ∀ (fuel : Nat) (a b : Int), b.natAbs ≤ fuel →
    gcd_loop64 fuel a b ≠ .error .OutOfFuel
  | 0, a, b, hf => by
    have hb : b = 0 := by omega
    simp [gcd_loop64, hb]
  | fuel + 1, a, b, hf => by
    unfold gcd_loop64
    split_ifs with h0
    · rcases i64_rem_cases a b with h | h
      · rw [h]
        intro h'
        exact absurd (Except.error.inj h') (by decide)
      · rw [h]
        exact gcd_loop64_ne_fuel fuel b (Int.tmod a b)
          (by have := natAbs_tmod_lt a b h0; omega)
    · intro h; exact Except.noConfusion h

theorem gcd_i64_64_ne (e : Fatal64) (he : e ≠ .Sigfpe) (a b : Int) :
    gcd_i64_64 a b ≠ .error e := by
  unfold gcd_i64_64
  refine bind_ne_error _ _ _ ?_ (fun v h => Except.noConfusion h)
  cases e with
  | Sigfpe => exact absurd rfl he
  | DivideByZero => exact gcd_loop64_ne_dbz _ _ _
  | OutOfFuel => exact gcd_loop64_ne_fuel _ _ _ (le_refl _)

/-- The 64-bit rat_norm returns a pair or stops in the division trap: it neither takes the
divide-by-zero exit nor exhausts the iteration bound of the model. -/
theorem rat_norm64_ne (e : Fatal64) (he : e ≠ .Sigfpe) (r : Rat) : rat_norm64 r ≠ .error e := by
  unfold rat_norm64
  split_ifs
  · intro h; exact Except.noConfusion h
  all_goals
    refine bind_ne_error _ _ _ (gcd_i64_64_ne e he _ _) (fun g => ?_)
    refine bind_ne_error _ _ _ (i64_div_ne e he _ _) (fun n => ?_)
    refine bind_ne_error _ _ _ (i64_div_ne e he _ _) (fun d => ?_)
    intro h; exact Except.noConfusion h

theorem rat_div64_eq (a b : Rat) (ha : Normalized a) (hb : Normalized b) (hn : b.num ≠ 0)
    (h1 : NoWrap (a.num * b.den)) (h2 : NoWrap (a.den * b.num)) :
    rat_div64 a b = .ok (ofQ (toQ a / toQ b)) := by
  have he := rat_div_eq a b (normalized_den_ne a ha) (normalized_den_ne b hb) hn
  unfold rat_div at he
  rw [if_neg hn] at he
  unfold rat_div64
  rw [if_neg hn, wrap64_eq _ (noWrap_inI64 _ h1), wrap64_eq _ (noWrap_inI64 _ h2),
    rat_norm64_eq _ h1 h2, Except.ok.inj he]

theorem rat_neg64_eq (a : Rat) (hn : InI64 a.num) (hmin : a.num ≠ -9223372036854775808) :
    rat_neg64 a = rat_neg a := by
  unfold rat_neg64 rat_neg
  rw [wrap64_eq]
  unfold InI64 at *
  omega

theorem rat_neg_normalized (a : Rat) (ha : Normalized a) : Normalized (rat_neg a) := by
  refine ⟨ha.1, ?_⟩
  have := ha.2
  simpa [rat_neg, Int.gcd_eq_natAbs] using this

theorem wrap64_modEq (x : Int) : wrap64 x ≡ x [ZMOD 18446744073709551616] := by
  unfold wrap64 Int.ModEq
  omega

theorem wrap64_eq_zero (x : Int) (h : x ≡ 0 [ZMOD 18446744073709551616]) : wrap64 x = 0 := by
  unfold Int.ModEq at h
  unfold wrap64
  omega

theorem rat_add64_neg64 (a : Rat) : rat_add64 a (rat_neg64 a) = .ok ⟨0, 1⟩ := by
  have h : wrap64 (wrap64 (a.num * a.den) + wrap64 (wrap64 (-a.num) * a.den)) = 0 := by
    apply wrap64_eq_zero
    have h1 := wrap64_modEq (a.num * a.den)
    have h2 := wrap64_modEq (wrap64 (-a.num) * a.den)
    have h3 := (wrap64_modEq (-a.num)).mul_right a.den
    have h4 := h1.add (h2.trans h3)
    have h5 : a.num * a.den + -a.num * a.den = 0 := by ring
    rw [h5] at h4
    exact h4
  unfold rat_add64
  simp only [rat_neg64]
  rw [h]
  simp [rat_norm64]

theorem rat_neg64_normalized (a : Rat) (ha : Normalized a) (hn : InI64 a.num) :
    Normalized (rat_neg64 a) := by
  by_cases hmin : a.num = -9223372036854775808
  · have h : rat_neg64 a = a := by
      unfold rat_neg64
      rw [hmin]
      have : wrap64 (- -9223372036854775808) = -9223372036854775808 := by decide
      rw [this, ← hmin]
    rw [h]
    exact ha
  · rw [rat_neg64_eq a hn hmin]
    exact rat_neg_normalized a ha

theorem rat_div64_ne (e : Fatal64) (he : e ≠ .Sigfpe) (a b : Rat) (hb : b.num ≠ 0) :
    rat_div64 a b ≠ .error e := by
  unfold rat_div64
  rw [if_neg hb]
  exact rat_norm64_ne e he _

theorem div_row_loop64_ne (e : Fatal64) (he : e ≠ .Sigfpe) (r : Nat) (piv : Rat)
    (hp : piv.num ≠ 0) : ∀ (k : Nat) (A : Mat), div_row_loop64 r piv k A ≠ .error e
  | 0, A => fun h => Except.noConfusion h
  | k + 1, A => by
    unfold div_row_loop64
    refine bind_ne_error _ _ _ (div_row_loop64_ne e he r piv hp k A) (fun A' => ?_)
    refine bind_ne_error _ _ _ (rat_div64_ne e he _ _ hp) (fun q => ?_)
    intro h; exact Except.noConfusion h

theorem elim_row_loop64_ne (e : Fatal64) (he : e ≠ .Sigfpe) (r rr : Nat) (f : Rat) :
    ∀ (k : Nat) (A : Mat), elim_row_loop64 r rr f k A ≠ .error e
  | 0, A => fun h => Except.noConfusion h
  | k + 1, A => by
    unfold elim_row_loop64
    refine bind_ne_error _ _ _ (elim_row_loop64_ne e he r rr f k A) (fun A' => ?_)
    refine bind_ne_error _ _ _ (rat_norm64_ne e he _) (fun p => ?_)
    refine bind_ne_error _ _ _ (rat_norm64_ne e he _) (fun d => ?_)
    intro h; exact Except.noConfusion h

theorem elim_loop64_ne (e : Fatal64) (he : e ≠ .Sigfpe) (r lead n : Nat) :
    ∀ (k : Nat) (A : Mat), elim_loop64 r lead n k A ≠ .error e
  | 0, A => fun h => Except.noConfusion h
  | k + 1, A => by
    unfold elim_loop64
    refine bind_ne_error _ _ _ (elim_loop64_ne e he r lead n k A) (fun A' => ?_)
    by_cases hk : k = r
    · rw [if_pos hk]
      intro h; exact Except.noConfusion h
    · rw [if_neg hk]
      simp only []
      split_ifs
      · intro h; exact Except.noConfusion h
      · exact elim_row_loop64_ne e he _ _ _ _ _

theorem rref_body64_ne (e : Fatal64) (he : e ≠ .Sigfpe) (m n : Nat) (s : RrefState)
    (hr : s.r < m) (hl : s.lead < n) : rref_body64 m n s ≠ .error e := by
  obtain ⟨_, hi2, _, hi4⟩ :=
    find_pivot_spec s.A m s.lead (m - s.r) s.r (by omega) (by omega)
  unfold rref_body64
  generalize find_pivot s.A m s.lead (m - s.r) s.r = i at hi2 hi4
  simp only []
  split_ifs with him
  · intro h; exact Except.noConfusion h
  · have hp : (swap_rows s.A s.r i n s.r s.lead).num ≠ 0 := by
      rw [swap_rows_apply]
      simp only [hl, if_true]
      have := hi4 (by omega)
      simpa [rat_is_zero] using this
    refine bind_ne_error _ _ _ (div_row_loop64_ne e he _ _ hp _ _) (fun A1 => ?_)
    refine bind_ne_error _ _ _ (elim_loop64_ne e he _ _ _ _ _) (fun A2 => ?_)
    intro h; exact Except.noConfusion h

theorem rref_body64_progress (m n : Nat) (s s' : RrefState)
    (h : rref_body64 m n s = .ok s') :
    s'.lead = s.lead + 1 ∧ (s'.r = s.r ∨ s'.r = s.r + 1) := by
  unfold rref_body64 at h
  simp only [] at h
  split at h
  · cases h
    exact ⟨rfl, Or.inl rfl⟩
  · cases hd : div_row_loop64 s.r (swap_rows s.A s.r (find_pivot s.A m s.lead (m - s.r) s.r) n
        s.r s.lead) n (swap_rows s.A s.r (find_pivot s.A m s.lead (m - s.r) s.r) n) with
    | error e => rw [hd] at h; exact Except.noConfusion h
    | ok A1 =>
      rw [hd] at h
      cases he : elim_loop64 s.r s.lead n m A1 with
      | error e =>
        simp only [bind, Except.bind, he] at h
        exact Except.noConfusion h
      | ok A2 =>
        simp only [bind, Except.bind, he, pure, Except.pure] at h
        cases h
        exact ⟨rfl, Or.inr rfl⟩

theorem rref_loop64_ne (e : Fatal64) (he : e ≠ .Sigfpe) (m n : Nat) :
    ∀ (fuel : Nat) (s : RrefState), (m - s.r) + (n - s.lead) ≤ fuel →
      rref_loop64 m n fuel s ≠ .error e
  | 0, s, hf => by
    have hc : ¬(s.r < m ∧ s.lead < n) := by omega
    unfold rref_loop64
    rw [if_neg hc]
    intro h; exact Except.noConfusion h
  | fuel + 1, s, hf => by
    unfold rref_loop64
    split_ifs with hc
    · cases hb : rref_body64 m n s with
      | error e' =>
        intro h
        change (Except.error e' : Except Fatal64 RrefState) = .error e at h
        exact rref_body64_ne e he m n s hc.1 hc.2 (by rw [hb, Except.error.inj h])
      | ok s' =>
        obtain ⟨h1, h2⟩ := rref_body64_progress m n s s' hb
        exact rref_loop64_ne e he m n fuel s' (by rcases h2 with h2 | h2 <;> omega)
    · intro h; exact Except.noConfusion h

/-- The 64-bit reducer returns a state or stops in the division trap of rat_norm: the
divide-by-zero exit of rat_div is not reached (the pivot has a nonzero numerator), and
the iteration bounds of the model are not exhausted. -/
theorem rref64_returns_or_traps (A : Mat) (m n : Nat) :
    (∃ s, rref64 A m n = .ok s) ∨ rref64 A m n = .error .Sigfpe := by
  have h1 := rref_loop64_ne .DivideByZero (by decide) m n (m + n)
    { A := A, pivot_col := fun _ => -1, is_pivot := fun _ => 0, r := 0, lead := 0 }
    (by simp)
  have h2 := rref_loop64_ne .OutOfFuel (by decide) m n (m + n)
    { A := A, pivot_col := fun _ => -1, is_pivot := fun _ => 0, r := 0, lead := 0 }
    (by simp)
  unfold rref64
  cases h : rref_loop64 m n (m + n)
      { A := A, pivot_col := fun _ => -1, is_pivot := fun _ => 0, r := 0, lead := 0 } with
  | ok s => exact Or.inl ⟨s, rfl⟩
  | error e =>
    right
    cases e with
    | Sigfpe => rfl
    | DivideByZero => exact absurd h h1
    | OutOfFuel => exact absurd h h2

theorem ok_of_map {α β : Type} (e : Except Fatal64 α) (f : α → β) (v : β) (s : α)
    (hm : e.map f = .ok v) (hs : e = .ok s) : f s = v := by
  rw [hs] at hm
  exact Except.ok.inj hm

/-- C1: for d ≠ 0, rat_norm (n, d) has a positive denominator, is in lowest terms,
denotes the same rational as n/d (cross-multiplied), and is exactly (0, 1) when n = 0. -/
theorem rat_norm_spec (n d : Int) (hd : d ≠ 0) :
    0 < (rat_norm ⟨n, d⟩).den
    ∧ Int.gcd |(rat_norm ⟨n, d⟩).num| (rat_norm ⟨n, d⟩).den = 1
    ∧ (rat_norm ⟨n, d⟩).num * d = n * (rat_norm ⟨n, d⟩).den
    ∧ (n = 0 → rat_norm ⟨n, d⟩ = ⟨0, 1⟩) := by
  have hN : Normalized (rat_norm ⟨n, d⟩) := by
    rw [rat_norm_eq n d hd]; exact ofQ_normalized _
  refine ⟨hN.1, ?_, rat_norm_cross n d hd, ?_⟩
  · have := hN.2
    simpa [Int.gcd_eq_natAbs, Int.natAbs_abs] using this
  · intro h
    subst h
    simp [rat_norm]

theorem rat_norm_spec_witness :
    (-4 : Int) ≠ 0 ∧
    (0 < (rat_norm ⟨6, -4⟩).den
    ∧ Int.gcd |(rat_norm ⟨6, -4⟩).num| (rat_norm ⟨6, -4⟩).den = 1
    ∧ (rat_norm ⟨6, -4⟩).num * (-4) = 6 * (rat_norm ⟨6, -4⟩).den
    ∧ ((6 : Int) = 0 → rat_norm ⟨6, -4⟩ = ⟨0, 1⟩)) :=
  ⟨by decide, rat_norm_spec 6 (-4) (by decide)⟩

/-- C3 (counterexample): on the normalized 64-bit rows [1 3/2^32 | 0], [1 1/2^32 | 0] the
subtraction in the elimination of row 1 wraps the denominator 2^32 * 2^32 to 0 and leaves
the cell (-1, 0), which is then taken as pivot of column 1 and divided to (0, 1). The
result has pivot_col = [0, 1], but the pivot cell of row 1 is (0, 1), not (1, 1), and the
cell (3, 2^32) above it was not cleared. -/
theorem rref64_pivot_structure_fails :
    MatNormalized exWrapPivot 2 3 ∧ MatInI64 exWrapPivot 2 3
      ∧ (rref64 exWrapPivot 2 3).map (snapshot 2 3)
          = .ok ([0, 1], [1, 1, 0],
              [[⟨1, 1⟩, ⟨3, 4294967296⟩, ⟨0, 1⟩], [⟨0, 1⟩, ⟨0, 1⟩, ⟨0, 1⟩]])
      ∧ ¬ ∃ s, rref64 exWrapPivot 2 3 = .ok s
          ∧ (∀ r < 2, s.pivot_col r ≠ -1 →
              ∃ c : Nat, c < 3 ∧ s.pivot_col r = (c : Int) ∧ s.A r c = ⟨1, 1⟩
                ∧ (∀ j < c, s.A r j = ⟨0, 1⟩)
                ∧ (∀ rr < 2, rr ≠ r → s.A rr c = ⟨0, 1⟩)) := by
  refine ⟨by decide, by decide, by decide, ?_⟩
  rintro ⟨s, hs, h⟩
  have hpc : s.pivot_col 1 = 1 :=
    ok_of_map _ (fun s => s.pivot_col 1) 1 s (by decide) hs
  have hcell : s.A 1 1 = ⟨0, 1⟩ :=
    ok_of_map _ (fun s => s.A 1 1) ⟨0, 1⟩ s (by decide) hs
  obtain ⟨c, _, hc, hone, _⟩ := h 1 (by decide) (by rw [hpc]; decide)
  have hc1 : c = 1 := by rw [hpc] at hc; exact_mod_cast hc.symm
  rw [hc1, hcell] at hone
  exact absurd hone (by decide)

/-- C3 (amended): in exact integer arithmetic (no overflow), after rref on a matrix of
normalized rationals the rows carrying a pivot have strictly increasing pivot columns, and
for each such row the pivot cell is (1, 1), the cells to its left are (0, 1), and the pivot
column is (0, 1) in every other row. -/
theorem rref_pivot_structure (A : Mat) (m n : Nat) (hA : MatNormalized A m n) :
    ∃ s, rref A m n = .ok s
      ∧ (∀ r r', r < r' → r' < m → s.pivot_col r ≠ -1 → s.pivot_col r' ≠ -1 →
          s.pivot_col r < s.pivot_col r')
      ∧ (∀ r < m, s.pivot_col r ≠ -1 →
          ∃ c : Nat, c < n ∧ s.pivot_col r = (c : Int) ∧ s.A r c = ⟨1, 1⟩
            ∧ (∀ j < c, s.A r j = ⟨0, 1⟩)
            ∧ (∀ rr < m, rr ≠ r → s.A rr c = ⟨0, 1⟩)) := by
  obtain ⟨s, hs, _, _, hF⟩ := rref_correct A m n hA
  have hk : ∀ r, s.pivot_col r ≠ -1 → r < s.r := by
    intro r hne
    by_contra hnot
    exact hne (hF.pc_none r (by omega))
  refine ⟨s, hs, ?_, ?_⟩
  · intro r r' hlt _ _ hne'
    exact hF.pc_mono r r' hlt (hk r' hne')
  · intro r _ hne
    obtain ⟨c, hc, hpc⟩ := hF.pc_range r (hk r hne)
    refine ⟨c, hc, hpc, hF.piv_one r (hk r hne) c hpc, ?_, hF.col_zero r (hk r hne) c hpc⟩
    intro j hj
    exact hF.left_zero r (hk r hne) j (by rw [hpc]; exact_mod_cast hj)

theorem rref_pivot_structure_witness :
    MatNormalized exUnique 2 3 ∧
    ∃ s, rref exUnique 2 3 = .ok s
      ∧ (∀ r r', r < r' → r' < 2 → s.pivot_col r ≠ -1 → s.pivot_col r' ≠ -1 →
          s.pivot_col r < s.pivot_col r')
      ∧ (∀ r < 2, s.pivot_col r ≠ -1 →
          ∃ c : Nat, c < 3 ∧ s.pivot_col r = (c : Int) ∧ s.A r c = ⟨1, 1⟩
            ∧ (∀ j < c, s.A r j = ⟨0, 1⟩)
            ∧ (∀ rr < 2, rr ≠ r → s.A rr c = ⟨0, 1⟩)) :=
  ⟨by decide, rref_pivot_structure exUnique 2 3 (by decide)⟩

/-- C4 (counterexample): both directions fail in 64-bit arithmetic. On the normalized 64-bit
rows [1 2^32 | 1], [2^32 0 | 0] the product 2^32 * 2^32 wraps to 0, the elimination leaves
row 1 as [0 0 | -2^32], and main reports Inconsistent, although x = (0, 1/2^32) solves the
system. On the rows [1 3/2^32 | 0], [1 1/2^32 | 0], [0 1 | 5], which have no solution, main
reports Unique. -/
theorem main64_misreports_inconsistency :
    (1 ≤ 2 ∧ 1 ≤ 3 ∧ MatNormalized exWrapSolvable 2 3 ∧ MatInI64 exWrapSolvable 2 3
      ∧ main64 exWrapSolvable 2 3 = .ok .Inconsistent
      ∧ IsSolution exWrapSolvable 2 3 (fun j => if j = 1 then 1 / 4294967296 else 0))
    ∧ (1 ≤ 3 ∧ MatNormalized exWrapAugmented 3 3 ∧ MatInI64 exWrapAugmented 3 3
      ∧ main64 exWrapAugmented 3 3 = .ok (.Unique [(1, ⟨0, 1⟩), (2, ⟨0, 1⟩)])
      ∧ ¬ ∃ x : Nat → ℚ, IsSolution exWrapAugmented 3 3 x) := by
  refine ⟨⟨by decide, by decide, by decide, by decide, by decide, ?_⟩,
    by decide, by decide, by decide, by decide, ?_⟩
  · intro i hi
    interval_cases i <;>
      norm_num [Finset.sum_range_succ, exWrapSolvable, ofRows, toQ]
  · rintro ⟨x, hx⟩
    have h0 := hx 0 (by decide)
    have h1 := hx 1 (by decide)
    have h2 := hx 2 (by decide)
    norm_num [Finset.sum_range_succ, exWrapAugmented, ofRows, toQ] at h0 h1 h2
    linarith

/-- C4 (amended): in exact integer arithmetic (no overflow), on an augmented matrix of
normalized rationals (m ≥ 1, n ≥ 1) the reduce-then-classify pass reports Inconsistent
exactly when the linear system of the original input matrix has no solution over the
rationals. -/
theorem inconsistent_iff_no_solution (A : Mat) (m n : Nat) (_hm : 1 ≤ m) (hn : 1 ≤ n)
    (hA : MatNormalized A m n) :
    main A m n = .ok .Inconsistent ↔ ¬ ∃ x : Nat → ℚ, IsSolution A m n x := by
  obtain ⟨s, hs, hnorm, hspace, hF⟩ := rref_correct A m n hA
  rw [main_eq A m n s hs]
  have hcl : (Except.ok (classify s.A m n s.pivot_col s.is_pivot) : Except Fatal Solution)
      = .ok .Inconsistent ↔ inconsistent s.A m (n - 1) = true := by
    rw [← classify_inconsistent_iff s.A m n s.pivot_col s.is_pivot]
    constructor
    · intro h; exact Except.ok.inj h
    · intro h; rw [h]
  rw [hcl]
  constructor
  · rintro h ⟨x, hx⟩
    exact no_solution_of_inconsistent s.A m n hnorm hn h x
      ((isSolution_congr A s.A m n hn hspace x).mpr hx)
  · intro h
    by_contra hc
    have hc' : inconsistent s.A m (n - 1) = false := by simpa using hc
    obtain ⟨x, hx, _⟩ :=
      exists_solution s.A m n s.pivot_col s.is_pivot s.r hn hF hc' (fun _ => 0)
    exact h ⟨x, (isSolution_congr A s.A m n hn hspace x).mp hx⟩

theorem inconsistent_iff_no_solution_witness :
    (1 ≤ 2 ∧ 1 ≤ 3 ∧ MatNormalized exInconsistent 2 3) ∧
    (main exInconsistent 2 3 = .ok .Inconsistent
      ↔ ¬ ∃ x : Nat → ℚ, IsSolution exInconsistent 2 3 x) :=
  ⟨by decide, inconsistent_iff_no_solution exInconsistent 2 3 (by decide) (by decide)
    (by decide)⟩

/-- C5 (counterexample): on the normalized 64-bit rows [2^32 1 | 0], [1 2^32 | 1] the
reduction wraps, main reports Unique with x1 = 1 and x2 = -2^32, and this assignment does
not satisfy the second equation (1 - 2^64 is not 1). -/
theorem main64_unique_not_solution :
    1 ≤ 2 ∧ 1 ≤ 3 ∧ MatNormalized exWrapUnique 2 3 ∧ MatInI64 exWrapUnique 2 3
      ∧ main64 exWrapUnique 2 3 = .ok (.Unique [(1, ⟨1, 1⟩), (2, ⟨-4294967296, 1⟩)])
      ∧ ¬ IsSolution exWrapUnique 2 3
          (fun j => if j = 0 then toQ ⟨1, 1⟩ else toQ ⟨-4294967296, 1⟩) := by
  refine ⟨by decide, by decide, by decide, by decide, by decide, ?_⟩
  intro hx
  have h1 := hx 1 (by decide)
  norm_num [Finset.sum_range_succ, exWrapUnique, ofRows, toQ] at h1

/-- C5 (amended): in exact integer arithmetic (no overflow), when the classifier reports
Unique on an augmented matrix of normalized rationals, the report is one line per variable
j = 0..vars-1 in increasing order, the value on line j is the augmented cell of the single
row i with pivot_col i = j, and the reported assignment solves the original system and is
its only rational solution. The two scenarios of the specification evaluate to x1 = 2,
x2 = 1 and to x1 = 1/4. -/
theorem unique_solution :
    (∀ (A : Mat) (m n : Nat) (vals : List (Nat × Rat)), 1 ≤ m → 1 ≤ n → MatNormalized A m n →
      main A m n = .ok (.Unique vals) →
      ∃ s, rref A m n = .ok s ∧ ∃ v : Nat → Rat,
        vals = (List.range (n - 1)).map (fun j => (j + 1, v j))
        ∧ (∀ j : Nat, j < n - 1 → ∃ i < m, s.pivot_col i = (j : Int) ∧ v j = s.A i (n - 1)
            ∧ ∀ i' < m, s.pivot_col i' = (j : Int) → i' = i)
        ∧ IsSolution A m n (fun j => toQ (v j))
        ∧ (∀ x : Nat → ℚ, IsSolution A m n x → ∀ j < n - 1, x j = toQ (v j)))
    ∧ main exUnique 2 3 = .ok (.Unique [(1, ⟨2, 1⟩), (2, ⟨1, 1⟩)])
    ∧ main exFraction 1 2 = .ok (.Unique [(1, ⟨1, 4⟩)]) := by
  refine ⟨?_, by decide, by decide⟩
  intro A m n vals _ hn hA hsolve
  obtain ⟨s, hs, hnorm, hspace, hF⟩ := rref_correct A m n hA
  rw [main_eq A m n s hs] at hsolve
  obtain ⟨hc, hrank, hvals⟩ :=
    classify_unique s.A m n s.pivot_col s.is_pivot vals (Except.ok.inj hsolve)
  have hfull := rank_full s.is_pivot (n - 1) hrank
  have hrow : ∀ j, ∃ i, j < n - 1 →
      (i < s.r ∧ s.pivot_col i = (j : Int) ∧ ∀ i' < m, s.pivot_col i' = (j : Int) → i' = i) := by
    intro j
    by_cases hj : j < n - 1
    · obtain ⟨i, h1, h2, h3⟩ :=
        pivot_row_of_col s.A m n s.pivot_col s.is_pivot s.r hF j (hfull j hj)
      exact ⟨i, fun _ => ⟨h1, h2, h3⟩⟩
    · exact ⟨0, fun h => absurd h hj⟩
  choose ρ hρ using hrow
  have hkm : s.r ≤ m := hF.k_le
  refine ⟨s, hs, fun j => s.A (ρ j) (n - 1), ?_, ?_, ?_, ?_⟩
  · rw [hvals]
    unfold unique_lines
    apply flatMap_eq_map
    intro j hj
    obtain ⟨h1, h2, h3⟩ := hρ j (List.mem_range.mp hj)
    exact filterMap_range_unique m (fun i => s.pivot_col i = (j : Int))
      (fun i => (j + 1, s.A i (n - 1))) (ρ j) (by omega) h2 h3
  · intro j hj
    obtain ⟨h1, h2, h3⟩ := hρ j hj
    exact ⟨ρ j, by omega, h2, rfl, h3⟩
  · rw [← isSolution_congr A s.A m n hn hspace,
      isSolution_pivotForm s.A m n s.pivot_col s.is_pivot s.r hn hF hc]
    intro i hi c hpc
    have hcv := pivot_lt_vars s.A m n s.pivot_col s.is_pivot s.r hn hF hc i hi c hpc
    obtain ⟨_, _, h3⟩ := hρ c hcv
    show toQ (s.A (ρ c) (n - 1)) = _
    rw [freeSum_zero _ _ _ _ _ hfull, sub_zero, ← h3 i (by omega) hpc]
  · intro x hx j hj
    rw [← isSolution_congr A s.A m n hn hspace,
      isSolution_pivotForm s.A m n s.pivot_col s.is_pivot s.r hn hF hc] at hx
    obtain ⟨h1, h2, _⟩ := hρ j hj
    rw [hx (ρ j) h1 j h2, freeSum_zero _ _ _ _ _ hfull, sub_zero]

theorem unique_solution_witness :
    (1 ≤ 2 ∧ 1 ≤ 3 ∧ MatNormalized exUnique 2 3
      ∧ main exUnique 2 3 = .ok (.Unique [(1, ⟨2, 1⟩), (2, ⟨1, 1⟩)])) ∧
    ∃ s, rref exUnique 2 3 = .ok s ∧ ∃ v : Nat → Rat,
      [(1, (⟨2, 1⟩ : Rat)), (2, ⟨1, 1⟩)] = (List.range (3 - 1)).map (fun j => (j + 1, v j))
      ∧ (∀ j : Nat, j < 3 - 1 → ∃ i < 2, s.pivot_col i = (j : Int) ∧ v j = s.A i (3 - 1)
          ∧ ∀ i' < 2, s.pivot_col i' = (j : Int) → i' = i)
      ∧ IsSolution exUnique 2 3 (fun j => toQ (v j))
      ∧ (∀ x : Nat → ℚ, IsSolution exUnique 2 3 x → ∀ j < 3 - 1, x j = toQ (v j)) :=
  ⟨by decide, unique_solution.1 exUnique 2 3 [(1, ⟨2, 1⟩), (2, ⟨1, 1⟩)] (by decide)
    (by decide) (by decide) (by decide)⟩

/-- C6 (counterexample): on the normalized 64-bit rows [1 2^32 | 1], [2^32 0 | 2^32],
whose only solution is x = (1, 0), the elimination wraps row 1 to zero and main reports
Infinite with the lines x2 = t1, x1 = 1 - 2^32*t1. The parameter value t1 = 1 gives the
assignment (1 - 2^32, 1), which the lines describe and which does not solve the system. -/
theorem main64_infinite_not_solution_set :
    1 ≤ 2 ∧ 1 ≤ 3 ∧ MatNormalized exWrapInfinite 2 3 ∧ MatInI64 exWrapInfinite 2 3
      ∧ main64 exWrapInfinite 2 3
          = .ok (.Infinite [(2, 1)] [⟨1, ⟨1, 1⟩, [⟨true, ⟨4294967296, 1⟩, 1⟩]⟩])
      ∧ Describes [(2, 1)] [⟨1, ⟨1, 1⟩, [⟨true, ⟨4294967296, 1⟩, 1⟩]⟩]
          (fun _ => 1) (fun j => if j = 0 then 1 - 4294967296 else 1)
      ∧ ¬ IsSolution exWrapInfinite 2 3 (fun j => if j = 0 then 1 - 4294967296 else 1)
      ∧ (∀ x : Nat → ℚ, IsSolution exWrapInfinite 2 3 x → x 0 = 1 ∧ x 1 = 0) := by
  refine ⟨by decide, by decide, by decide, by decide, by decide, ?_, ?_, ?_⟩
  · constructor
    · intro p hp
      simp only [List.mem_singleton] at hp
      subst hp
      norm_num
    · intro ln hl
      simp only [List.mem_singleton] at hl
      subst hl
      norm_num [lineVal, termVal, toQ]
  · intro hx
    have h1 := hx 1 (by decide)
    norm_num [Finset.sum_range_succ, exWrapInfinite, ofRows, toQ] at h1
  · intro x hx
    have h0 := hx 0 (by decide)
    have h1 := hx 1 (by decide)
    norm_num [Finset.sum_range_succ, exWrapInfinite, ofRows, toQ] at h0 h1
    constructor
    · linarith
    · nlinarith

/-- C6 (amended): in exact integer arithmetic (no overflow), when the classifier reports
Infinite on an augmented matrix of normalized rationals, the free variables are exactly the
non-pivot coefficient columns, numbered t1, t2, ... in increasing column order; each pivot
column j owned by row i gets the line
x_j = A'[i][vars] - sum over free columns k of A'[i][k] * t_k; and the reported lines
describe exactly the solution set of the original system: every parameter choice yields
one assignment, which is a solution, and every solution arises from some choice. The
scenario of the specification evaluates to x2 = t1, x1 = 1 - 1*t1. -/
theorem infinite_solutions :
    (∀ (A : Mat) (m n : Nat) (fl : List (Nat × Nat)) (el : List Line),
      1 ≤ m → 1 ≤ n → MatNormalized A m n → main A m n = .ok (.Infinite fl el) →
      ∃ s, rref A m n = .ok s ∧ ∃ free : List Nat,
        free = (List.range (n - 1)).filter (fun j => s.is_pivot j == 0)
        ∧ (∀ j : Nat, j < n - 1 → (j ∈ free ↔ ¬ ∃ i < m, s.pivot_col i = (j : Int)))
        ∧ fl = (List.range free.length).map (fun k => (free.getD k 0 + 1, k + 1))
        ∧ el.map (fun ln => ln.var)
            = ((List.range (n - 1)).filter (fun j => s.is_pivot j != 0)).map (fun j => j + 1)
        ∧ (∀ ln ∈ el, ∃ i < m, s.pivot_col i = ((ln.var - 1 : Nat) : Int)
            ∧ ln.const = s.A i (n - 1)
            ∧ ∀ t : Nat → ℚ, lineVal t ln = toQ (s.A i (n - 1))
                - ∑ k ∈ Finset.range free.length, toQ (s.A i (free.getD k 0)) * t (k + 1))
        ∧ (∀ t x : Nat → ℚ, Describes fl el t x → IsSolution A m n x)
        ∧ (∀ x : Nat → ℚ, IsSolution A m n x → ∃ t, Describes fl el t x)
        ∧ (∀ t : Nat → ℚ, ∃ x, Describes fl el t x)
        ∧ (∀ t x x' : Nat → ℚ, Describes fl el t x → Describes fl el t x' →
            ∀ j < n - 1, x j = x' j))
    ∧ main exInfinite 1 3
        = .ok (.Infinite [(2, 1)] [⟨1, ⟨1, 1⟩, [⟨true, ⟨1, 1⟩, 1⟩]⟩]) := by
  refine ⟨?_, by decide⟩
  intro A m n fl el _ hn hA hsolve
  obtain ⟨s, hs, hnorm, hspace, hF⟩ := rref_correct A m n hA
  rw [main_eq A m n s hs] at hsolve
  obtain ⟨hc, hfl, hel⟩ :=
    classify_infinite s.A m n s.pivot_col s.is_pivot fl el (Except.ok.inj hsolve)
  have hkm : s.r ≤ m := hF.k_le
  -- the row owning each pivot column
  have hrow : ∀ j, ∃ i, s.is_pivot j ≠ 0 →
      (i < s.r ∧ s.pivot_col i = (j : Int) ∧ ∀ i' < m, s.pivot_col i' = (j : Int) → i' = i) := by
    intro j
    by_cases hj : s.is_pivot j ≠ 0
    · obtain ⟨i, h1, h2, h3⟩ :=
        pivot_row_of_col s.A m n s.pivot_col s.is_pivot s.r hF j hj
      exact ⟨i, fun _ => ⟨h1, h2, h3⟩⟩
    · exact ⟨0, fun h => absurd h hj⟩
  choose ρ hρ using hrow
  have hρ' : ∀ j, s.is_pivot j ≠ 0 → ρ j < m ∧ s.pivot_col (ρ j) = (j : Int)
      ∧ ∀ i' < m, s.pivot_col i' = (j : Int) → i' = ρ j := by
    intro j hj
    obtain ⟨h1, h2, h3⟩ := hρ j hj
    exact ⟨by omega, h2, h3⟩
  have hdesc := describes_iff s.A m n s.pivot_col s.is_pivot hn hnorm ρ hρ'
  rw [← hfl, ← hel] at hdesc
  have hsol := fun x => (isSolution_congr A s.A m n hn hspace x).symm.trans
    (isSolution_pivotForm s.A m n s.pivot_col s.is_pivot s.r hn hF hc x)
  -- under the free-variable lines, the parameter sum is the free part of the row
  have hsum : ∀ (t x : Nat → ℚ) (i : Nat),
      (∀ k < (free_cols s.is_pivot (n - 1)).length,
        x ((free_cols s.is_pivot (n - 1)).getD k 0) = t (k + 1)) →
      ∑ k ∈ Finset.range (free_cols s.is_pivot (n - 1)).length,
          toQ (s.A i ((free_cols s.is_pivot (n - 1)).getD k 0)) * t (k + 1)
        = freeSum s.A i (n - 1) s.is_pivot x := by
    intro t x i h
    rw [← free_sum_eq]
    apply Finset.sum_congr rfl
    intro k hk
    rw [h k (Finset.mem_range.mp hk)]
  refine ⟨s, hs, free_cols s.is_pivot (n - 1), rfl, ?_, hfl, ?_, ?_, ?_, ?_, ?_, ?_⟩
  · intro j hj
    rw [mem_free_cols]
    constructor
    · rintro ⟨_, h0⟩ ⟨i, hi, hpc⟩
      have hik : i < s.r := by
        by_contra hnot
        have := hF.pc_none i (by omega)
        omega
      have h1 := (hF.ip_iff j).mpr ⟨i, hik, hpc⟩
      rw [h0] at h1
      exact absurd h1 (by decide)
    · intro hno
      refine ⟨hj, ?_⟩
      rcases hF.ip_val j with h1 | h0
      · obtain ⟨i, hi, hpc⟩ := (hF.ip_iff j).mp h1
        exact absurd ⟨i, by omega, hpc⟩ hno
      · exact h0
  · rw [hel, pivot_lines_eq s.A m (n - 1) s.pivot_col s.is_pivot _ ρ hρ', List.map_map]
    rfl
  · intro ln hln
    rw [hel, pivot_lines_eq s.A m (n - 1) s.pivot_col s.is_pivot _ ρ hρ'] at hln
    obtain ⟨j, hj, rfl⟩ := List.mem_map.mp hln
    obtain ⟨hj1, hj2⟩ := List.mem_filter.mp hj
    have hip : s.is_pivot j ≠ 0 := by simpa using hj2
    obtain ⟨h1, h2, _⟩ := hρ' j hip
    refine ⟨ρ j, h1, by simpa using h2, rfl, ?_⟩
    intro t
    unfold lineVal
    simp only []
    rw [row_terms_sum s.A (ρ j) (free_cols s.is_pivot (n - 1)) t, sub_eq_add_neg]
    intro k hk
    exact normalized_den_ne _ (hnorm (ρ j) h1 _
      (by have := (getD_free_cols s.is_pivot (n - 1) k hk).1; omega))
  · intro t x hd
    obtain ⟨h1, h2⟩ := (hdesc t x).mp hd
    rw [hsol x]
    intro i hi c hpc
    have hcv := pivot_lt_vars s.A m n s.pivot_col s.is_pivot s.r hn hF hc i hi c hpc
    have hip : s.is_pivot c ≠ 0 := by
      rw [(hF.ip_iff c).mpr ⟨i, hi, hpc⟩]; decide
    obtain ⟨_, _, h3⟩ := hρ' c hip
    rw [h2 c hcv hip, ← h3 i (by omega) hpc, hsum t x i h1]
  · intro x hx
    rw [hsol x] at hx
    refine ⟨fun p => x ((free_cols s.is_pivot (n - 1)).getD (p - 1) 0), ?_⟩
    rw [hdesc]
    have h1 : ∀ k < (free_cols s.is_pivot (n - 1)).length,
        x ((free_cols s.is_pivot (n - 1)).getD k 0)
          = (fun p => x ((free_cols s.is_pivot (n - 1)).getD (p - 1) 0)) (k + 1) := by
      intro k _
      simp
    refine ⟨h1, ?_⟩
    intro j _ hip
    obtain ⟨h2, h3, _⟩ := hρ j hip
    rw [hx (ρ j) h2 j h3]
    simp only [Nat.add_sub_cancel]
    rw [free_sum_eq]
  · intro t
    refine ⟨fun j => if s.is_pivot j = 0
      then t ((free_cols s.is_pivot (n - 1)).indexOf j + 1)
      else toQ (s.A (ρ j) (n - 1))
        - ∑ k ∈ Finset.range (free_cols s.is_pivot (n - 1)).length,
            toQ (s.A (ρ j) ((free_cols s.is_pivot (n - 1)).getD k 0)) * t (k + 1), ?_⟩
    rw [hdesc]
    constructor
    · intro k hk
      have h0 := (getD_free_cols s.is_pivot (n - 1) k hk).2
      simp only [h0, if_true]
      rw [List.getD_eq_getElem _ 0 hk,
        List.indexOf_getElem (free_cols_nodup s.is_pivot (n - 1)) k hk]
    · intro j _ hip
      simp only [hip, if_false]
  · intro t x x' hd hd' j hj
    obtain ⟨h1, h2⟩ := (hdesc t x).mp hd
    obtain ⟨h1', h2'⟩ := (hdesc t x').mp hd'
    by_cases hip : s.is_pivot j = 0
    · have hmem : j ∈ free_cols s.is_pivot (n - 1) :=
        (mem_free_cols s.is_pivot (n - 1) j).mpr ⟨hj, hip⟩
      have hk := List.indexOf_lt_length.mpr hmem
      have hget : (free_cols s.is_pivot (n - 1)).getD
          ((free_cols s.is_pivot (n - 1)).indexOf j) 0 = j := by
        rw [List.getD_eq_getElem _ 0 hk]
        exact List.getElem_indexOf hk
      have e1 := h1 _ hk
      have e2 := h1' _ hk
      rw [hget] at e1 e2
      rw [e1, e2]
    · rw [h2 j hj hip, h2' j hj hip]

theorem infinite_solutions_witness :
    (1 ≤ 1 ∧ 1 ≤ 3 ∧ MatNormalized exInfinite 1 3
      ∧ main exInfinite 1 3
          = .ok (.Infinite [(2, 1)] [⟨1, ⟨1, 1⟩, [⟨true, ⟨1, 1⟩, 1⟩]⟩])) ∧
    ∀ x : Nat → ℚ, IsSolution exInfinite 1 3 x →
      ∃ t, Describes [(2, 1)] [⟨1, ⟨1, 1⟩, [⟨true, ⟨1, 1⟩, 1⟩]⟩] t x := by
  refine ⟨by decide, ?_⟩
  obtain ⟨s, _, free, _, _, _, _, _, _, h, _, _⟩ :=
    infinite_solutions.1 exInfinite 1 3 [(2, 1)] [⟨1, ⟨1, 1⟩, [⟨true, ⟨1, 1⟩, 1⟩]⟩]
      (by decide) (by decide) (by decide) (by decide)
  exact h

/-- C7: on a valid input matrix (m ≥ 1, n ≥ 1, normalized cells) the reducer returns a
state, so the divide-by-zero exit of rat_div is not reached, and the reduce-then-classify
pass returns a solution that is exactly one of Inconsistent, Unique or Infinite. -/
theorem main_total (A : Mat) (m n : Nat) (_hm : 1 ≤ m) (_hn : 1 ≤ n)
    (hA : MatNormalized A m n) :
    (∃ s, rref A m n = .ok s) ∧ rref A m n ≠ .error .DivideByZero
      ∧ ∃ sol, main A m n = .ok sol
        ∧ (sol = .Inconsistent ∨ (∃ v, sol = .Unique v) ∨ (∃ f e, sol = .Infinite f e))
        ∧ ¬(sol = .Inconsistent ∧ ∃ v, sol = .Unique v)
        ∧ ¬(sol = .Inconsistent ∧ ∃ f e, sol = .Infinite f e)
        ∧ ¬((∃ v, sol = .Unique v) ∧ ∃ f e, sol = .Infinite f e) := by
  obtain ⟨s, hs, _⟩ := rref_correct A m n hA
  refine ⟨⟨s, hs⟩, by rw [hs]; exact fun h => Except.noConfusion h, ?_⟩
  refine ⟨classify s.A m n s.pivot_col s.is_pivot, by simp [main, hs, bind, Except.bind, pure, Except.pure], ?_⟩
  cases classify s.A m n s.pivot_col s.is_pivot <;> simp

theorem main_total_witness :
    (1 ≤ 2 ∧ 1 ≤ 3 ∧ MatNormalized exInconsistent 2 3) ∧
    ((∃ s, rref exInconsistent 2 3 = .ok s) ∧ rref exInconsistent 2 3 ≠ .error .DivideByZero
      ∧ ∃ sol, main exInconsistent 2 3 = .ok sol
        ∧ (sol = .Inconsistent ∨ (∃ v, sol = .Unique v) ∨ (∃ f e, sol = .Infinite f e))
        ∧ ¬(sol = .Inconsistent ∧ ∃ v, sol = .Unique v)
        ∧ ¬(sol = .Inconsistent ∧ ∃ f e, sol = .Infinite f e)
        ∧ ¬((∃ v, sol = .Unique v) ∧ ∃ f e, sol = .Infinite f e)) :=
  ⟨by decide, main_total exInconsistent 2 3 (by decide) (by decide) (by decide)⟩

/-- The pivot form asks for the zero rows to come last: a matrix whose only nonzero row is
below a zero row is moved by the reducer. -/
theorem rref_moves_zero_row_down :
    (rref (ofRows [[⟨0, 1⟩, ⟨0, 1⟩], [⟨1, 1⟩, ⟨0, 1⟩]]) 2 2).map (fun s => s.A 0 0)
      = .ok ⟨1, 1⟩ := by
  decide

/-- C8 (counterexample): the single row [1 | -2^63/5] is a normalized 64-bit matrix in
reduced row-echelon form, and rref on it stops in the division trap of rat_norm instead of
returning it. And on the output of rref for the rows [1 3/2^32 | 0], [1 1/2^32 | 0], a
normalized matrix, a second run of rref changes pivot_col from [0, 1] to [0, -1] and
is_pivot from [1, 1, 0] to [1, 0, 0]. -/
theorem rref64_not_idempotent :
    (MatNormalized exTrap 1 2 ∧ MatInI64 exTrap 1 2
      ∧ PivotForm exTrap 1 2 (fun i => if i = 0 then 0 else -1)
          (fun j => if j = 0 then 1 else 0) 1
      ∧ (rref64 exTrap 1 2).map (snapshot 1 2) = .error .Sigfpe
      ∧ ¬ ∃ s, rref64 exTrap 1 2 = .ok s)
    ∧ (MatNormalized exWrapPivot 2 3 ∧ MatInI64 exWrapPivot 2 3
      ∧ (rref64 exWrapPivot 2 3).map (snapshot 2 3)
          = .ok ([0, 1], [1, 1, 0],
              [[⟨1, 1⟩, ⟨3, 4294967296⟩, ⟨0, 1⟩], [⟨0, 1⟩, ⟨0, 1⟩, ⟨0, 1⟩]])
      ∧ (rref64 exWrapPivot 2 3 >>= fun s => rref64 s.A 2 3).map (snapshot 2 3)
          = .ok ([0, -1], [1, 0, 0],
              [[⟨1, 1⟩, ⟨3, 4294967296⟩, ⟨0, 1⟩], [⟨0, 1⟩, ⟨0, 1⟩, ⟨0, 1⟩]])) := by
  refine ⟨⟨by decide, by decide, ?_, by decide, ?_⟩, by decide, by decide, by decide,
    by decide⟩
  · exact
      { k_le := le_refl 1
        pc_range := fun i hi => ⟨0, by decide, by
          have : i = 0 := by omega
          simp [this]⟩
        pc_none := fun i hi => by
          have : i ≠ 0 := by omega
          simp [this]
        pc_mono := fun i i' h h' => by omega
        piv_one := fun i hi c hc => by
          have hi0 : i = 0 := by omega
          subst hi0
          have hc0 : c = 0 := by
            simp only [if_true] at hc
            exact_mod_cast hc.symm
          subst hc0
          decide
        left_zero := fun i hi j hj => by
          have hi0 : i = 0 := by omega
          subst hi0
          simp only [if_true] at hj
          omega
        col_zero := fun i hi c _ rr hrr hne => by omega
        zero_rows := fun i hi hi' => by omega
        ip_val := fun j => by
          by_cases h : j = 0
          · left; simp [h]
          · right; simp [h]
        ip_iff := fun j => by
          constructor
          · intro h
            by_cases hj : j = 0
            · exact ⟨0, by decide, by simp [hj]⟩
            · simp [hj] at h
          · rintro ⟨i, hi, hpc⟩
            have hi0 : i = 0 := by omega
            subst hi0
            simp only [if_true] at hpc
            have : j = 0 := by exact_mod_cast hpc.symm
            simp [this] }
  · rintro ⟨s, hs⟩
    have h : (rref64 exTrap 1 2).map (fun _ => ()) = .error .Sigfpe := by decide
    rw [hs] at h
    exact Except.noConfusion h

/-- C8 (amended): in exact integer arithmetic (no overflow), rref is idempotent. On a
normalized matrix R in reduced row-echelon form with pivot map (pc, ip), rref returns R
cell for cell together with that same pivot map; in particular running rref on the output
of rref on any normalized matrix changes neither the cells nor pivot_col nor is_pivot. -/
theorem rref_idempotent :
    (∀ (R : Mat) (m n : Nat) (pc ip : Nat → Int) (k : Nat),
        MatNormalized R m n → PivotForm R m n pc ip k →
        ∃ s, rref R m n = .ok s ∧ (∀ i < m, ∀ j < n, s.A i j = R i j)
          ∧ (∀ i < m, s.pivot_col i = pc i) ∧ (∀ j < n, s.is_pivot j = ip j))
    ∧ (∀ (A : Mat) (m n : Nat), MatNormalized A m n →
        ∃ s s', rref A m n = .ok s ∧ rref s.A m n = .ok s'
          ∧ (∀ i < m, ∀ j < n, s'.A i j = s.A i j)
          ∧ (∀ i < m, s'.pivot_col i = s.pivot_col i)
          ∧ (∀ j < n, s'.is_pivot j = s.is_pivot j)) := by
  constructor
  · intro R m n pc ip k hR hF
    obtain ⟨s, hs, hcells, hpc, hip⟩ := rref_of_pivotForm R m n pc ip k hR hF
    exact ⟨s, hs, hcells, fun i _ => hpc i, fun j _ => hip j⟩
  · intro A m n hA
    obtain ⟨s, hs, hnorm, _, hF⟩ := rref_correct A m n hA
    obtain ⟨s', hs', hcells, hpc, hip⟩ :=
      rref_of_pivotForm s.A m n s.pivot_col s.is_pivot s.r hnorm hF
    exact ⟨s, s', hs, hs', hcells, fun i _ => hpc i, fun j _ => hip j⟩

theorem rref_idempotent_witness :
    MatNormalized exUnique 2 3 ∧
    ∃ s s', rref exUnique 2 3 = .ok s ∧ rref s.A 2 3 = .ok s'
      ∧ (∀ i < 2, ∀ j < 3, s'.A i j = s.A i j)
      ∧ (∀ i < 2, s'.pivot_col i = s.pivot_col i)
      ∧ (∀ j < 3, s'.is_pivot j = s.is_pivot j) :=
  ⟨by decide, rref_idempotent.2 exUnique 2 3 (by decide)⟩

/-- C9: rat_add and rat_mul are commutative as (num, den) pairs; this holds for all pairs,
in particular for normalized ones. -/
theorem rat_add_mul_comm (a b : Rat) :
    rat_add a b = rat_add b a ∧ rat_mul a b = rat_mul b a := by
  constructor
  · unfold rat_add
    rw [add_comm (a.num * b.den), mul_comm a.den b.den]
  · unfold rat_mul
    rw [mul_comm a.num b.num, mul_comm a.den b.den]

/-- C10: for normalized a, rat_sub a a is (0, 1), and when a.num ≠ 0 the division
rat_div a a succeeds with result (1, 1). -/
theorem rat_sub_self_div_self (a : Rat) (ha : Normalized a) :
    rat_sub a a = ⟨0, 1⟩ ∧ (a.num ≠ 0 → rat_div a a = .ok ⟨1, 1⟩) := by
  constructor
  · simp [rat_sub, rat_norm]
  · intro hnum
    have hden : a.den ≠ 0 := ha.1.ne'
    have hprod : a.den * a.num ≠ 0 := mul_ne_zero hden hnum
    simp only [rat_div, hnum, if_false]
    rw [rat_norm_eq _ _ hprod]
    have hQ : ((a.den * a.num : Int) : ℚ) ≠ 0 := by exact_mod_cast hprod
    have h1 : (((a.num * a.den : Int) : ℚ)) / ((a.den * a.num : Int) : ℚ) = 1 := by
      rw [mul_comm a.num a.den]; exact div_self hQ
    rw [h1]
    rfl

theorem rat_sub_self_div_self_witness :
    Normalized ⟨-3, 2⟩ ∧
    (rat_sub ⟨-3, 2⟩ ⟨-3, 2⟩ = ⟨0, 1⟩ ∧
      ((⟨-3, 2⟩ : Rat).num ≠ 0 → rat_div ⟨-3, 2⟩ ⟨-3, 2⟩ = .ok ⟨1, 1⟩)) :=
  ⟨by decide, rat_sub_self_div_self ⟨-3, 2⟩ (by decide)⟩

theorem rat_norm_normalized (n d : Int) (hd : d ≠ 0) : Normalized (rat_norm ⟨n, d⟩) := by
  rw [rat_norm_eq n d hd]
  exact ofQ_normalized _


theorem rref_body_progress (m n : Nat) (s s' : RrefState) (h : rref_body m n s = .ok s') :
    s'.lead = s.lead + 1 ∧ (s'.r = s.r ∨ s'.r = s.r + 1) := by
  unfold rref_body at h
  simp only [] at h
  split at h
  · cases h
    exact ⟨rfl, Or.inl rfl⟩
  · cases hd : div_row_loop s.r (swap_rows s.A s.r (find_pivot s.A m s.lead (m - s.r) s.r) n
        s.r s.lead) n (swap_rows s.A s.r (find_pivot s.A m s.lead (m - s.r) s.r) n) with
    | error e => rw [hd] at h; cases h
    | ok A2 =>
      rw [hd] at h
      cases h
      exact ⟨rfl, Or.inr rfl⟩

/-- On any matrix the body of the main loop returns a state: the pivot handed to rat_div
was selected as a nonzero cell. The pivot map is updated in lockstep. -/
theorem rref_body_ok (m n : Nat) (s : RrefState) (hr : s.r < m) (hl : s.lead < n) :
    rref_body m n s = .ok { s with lead := s.lead + 1 }
      ∨ ∃ A', rref_body m n s = .ok
          { A := A', pivot_col := int_set s.pivot_col s.r s.lead,
            is_pivot := int_set s.is_pivot s.lead 1, r := s.r + 1, lead := s.lead + 1 } := by
  obtain ⟨_, hi2, _, hi4⟩ :=
    find_pivot_spec s.A m s.lead (m - s.r) s.r (by omega) (by omega)
  unfold rref_body
  generalize find_pivot s.A m s.lead (m - s.r) s.r = i at hi2 hi4
  by_cases him : i = m
  · left
    simp [him]
  · right
    have hilt : i < m := by omega
    have hp : (swap_rows s.A s.r i n s.r s.lead).num ≠ 0 := by
      have h1 : swap_rows s.A s.r i n s.r s.lead = s.A i s.lead := by
        simp [swap_rows_apply, hl]
      rw [h1]
      have := hi4 hilt
      simpa [rat_is_zero] using this
    simp only [him, if_false]
    rw [div_row_loop_eq s.r _ hp n]
    exact ⟨_, rfl⟩

theorem rref_loop_eq_total (m n : Nat) (fuel : Nat) (s : RrefState)
    (hf : (m - s.r) + (n - s.lead) ≤ fuel) : rref_loop m n fuel s = rref_total m n s := by
  induction fuel generalizing s with
  | zero =>
    have hc : ¬(s.r < m ∧ s.lead < n) := by omega
    rw [rref_total]
    simp [rref_loop, hc]
  | succ fuel ih =>
    rw [rref_total]
    unfold rref_loop
    by_cases hc : s.r < m ∧ s.lead < n
    · simp only [hc, and_self, if_true]
      cases hb : rref_body m n s with
      | error e => rfl
      | ok s' =>
        obtain ⟨h1, h2⟩ := rref_body_progress m n s s' hb
        have := ih s' (by rcases h2 with h2 | h2 <;> omega)
        simpa [bind, Except.bind] using this
    · simp [hc]

theorem pivotMap_step (m lead : Nat) (pc ip : Nat → Int) (r : Nat) (hr : r < m)
    (h : PivotMap m lead pc ip r) :
    PivotMap m (lead + 1) (int_set pc r lead) (int_set ip lead 1) (r + 1) := by
  have hpc_old : ∀ i < r, int_set pc r lead i = pc i := by
    intro i hi
    have : i ≠ r := by omega
    simp [int_set, this]
  have hpc_new : int_set pc r lead r = (lead : Int) := by simp [int_set]
  have hcases : ∀ i, i < r + 1 → i < r ∨ i = r := fun i hi => by omega
  refine
    { k_le := hr
      pc_range := ?_
      pc_none := ?_
      pc_mono := ?_
      ip_val := ?_
      ip_iff := ?_ }
  · intro i hi
    rcases hcases i hi with h1 | h1
    · obtain ⟨c, hc, hpc⟩ := h.pc_range i h1
      exact ⟨c, by omega, by rw [hpc_old i h1, hpc]⟩
    · subst h1
      exact ⟨lead, by omega, hpc_new⟩
  · intro i hi
    have : i ≠ r := by omega
    simp only [int_set, this, if_false]
    exact h.pc_none i (by omega)
  · intro i i' hii hi'
    rcases hcases i' hi' with h1 | h1
    · rw [hpc_old i (by omega), hpc_old i' h1]
      exact h.pc_mono i i' hii h1
    · subst h1
      rw [hpc_old i hii, hpc_new]
      obtain ⟨c, hc, hpc⟩ := h.pc_range i hii
      rw [hpc]
      exact_mod_cast hc
  · intro j
    by_cases hjl : j = lead
    · left; simp [int_set, hjl]
    · simp only [int_set, hjl, if_false]
      exact h.ip_val j
  · intro j
    by_cases hjl : j = lead
    · subst hjl
      simp only [int_set, if_true, true_iff]
      exact ⟨r, by omega, hpc_new⟩
    · have hip : int_set ip lead 1 j = ip j := by simp [int_set, hjl]
      rw [hip, h.ip_iff j]
      constructor
      · rintro ⟨i, hi, hpc⟩
        exact ⟨i, by omega, by rw [hpc_old i hi, hpc]⟩
      · rintro ⟨i, hi, hpc⟩
        rcases hcases i hi with h1 | h1
        · exact ⟨i, h1, by rw [← hpc_old i h1, hpc]⟩
        · subst h1
          rw [hpc_new] at hpc
          exact absurd (by omega : j = lead) hjl

theorem pivotMap_widen (m n n' : Nat) (pc ip : Nat → Int) (k : Nat) (hn : n ≤ n')
    (h : PivotMap m n pc ip k) : PivotMap m n' pc ip k where
  k_le := h.k_le
  pc_range := fun i hi => by
    obtain ⟨c, hc, hpc⟩ := h.pc_range i hi
    exact ⟨c, by omega, hpc⟩
  pc_none := h.pc_none
  pc_mono := h.pc_mono
  ip_val := h.ip_val
  ip_iff := h.ip_iff

/-- On every matrix, normalized or not, rref returns a state whose loop has run to its
end, and the two halves of the pivot map describe each other. -/
theorem rref_pivot_map (A : Mat) (m n : Nat) :
    ∃ s, rref A m n = .ok s ∧ ¬(s.r < m ∧ s.lead < n)
      ∧ PivotMap m n s.pivot_col s.is_pivot s.r := by
  obtain ⟨s, hs, ⟨hmap, hle⟩, hdone⟩ :=
    rref_loop_rule m n
      (fun s => PivotMap m s.lead s.pivot_col s.is_pivot s.r ∧ s.lead ≤ n)
      (by
        intro s ⟨hmap, _⟩ hr hl
        rcases rref_body_ok m n s hr hl with hb | ⟨A', hb⟩
        · refine ⟨_, hb, ⟨pivotMap_widen m s.lead (s.lead + 1) _ _ _ (by omega) hmap, hl⟩, ?_⟩
          simp only; omega
        · refine ⟨_, hb, ⟨pivotMap_step m s.lead _ _ s.r hr hmap, hl⟩, ?_⟩
          simp only; omega)
      (m + n)
      { A := A, pivot_col := fun _ => -1, is_pivot := fun _ => 0, r := 0, lead := 0 }
      ⟨{ k_le := Nat.zero_le m
         pc_range := fun i hi => absurd hi (Nat.not_lt_zero i)
         pc_none := fun _ _ => rfl
         pc_mono := fun i i' _ hi' => absurd hi' (Nat.not_lt_zero i')
         ip_val := fun _ => Or.inr rfl
         ip_iff := fun j => by
           show (0 : Int) = 1 ↔ ∃ i < 0, (-1 : Int) = (j : Int)
           constructor
           · intro h; exact absurd h (by decide)
           · rintro ⟨i, hi, _⟩; exact absurd hi (Nat.not_lt_zero i) }, Nat.zero_le n⟩
      (by simp)
  exact ⟨s, hs, hdone, pivotMap_widen m s.lead n _ _ _ hle hmap⟩

/-- In exact integer arithmetic, for normalized a and b, rat_div a b is the divide-by-zero
error exactly when b.num = 0, and when b.num ≠ 0 it returns the normalized pair whose value
is the quotient. -/
theorem rat_div_fails_iff (a b : Rat) (ha : Normalized a) (hb : Normalized b) :
    (rat_div a b = .error .DivideByZero ↔ b.num = 0)
      ∧ (b.num ≠ 0 → ∃ q, rat_div a b = .ok q ∧ Normalized q ∧ toQ q = toQ a / toQ b) := by
  constructor
  · constructor
    · intro h
      by_contra hn
      rw [rat_div_eq a b (normalized_den_ne a ha) (normalized_den_ne b hb) hn] at h
      exact Except.noConfusion h
    · intro h
      simp [rat_div, h]
  · intro hn
    refine ⟨ofQ (toQ a / toQ b),
      rat_div_eq a b (normalized_den_ne a ha) (normalized_den_ne b hb) hn,
      ofQ_normalized _, toQ_ofQ _⟩

/-- C11 (counterexample): for the normalized 64-bit inputs a = (2^62, 1) and
b = (2^62, 3), with b nonzero, the cross product 3 * 2^62 wraps to -2^62 and rat_div
returns (-1, 1), whose value is -1, while the quotient a / b is 3. -/
theorem rat_div64_wraps :
    Normalized ⟨4611686018427387904, 1⟩ ∧ Normalized ⟨4611686018427387904, 3⟩
      ∧ InI64 4611686018427387904 ∧ InI64 1 ∧ InI64 3
      ∧ (⟨4611686018427387904, 3⟩ : Rat).num ≠ 0
      ∧ rat_div64 ⟨4611686018427387904, 1⟩ ⟨4611686018427387904, 3⟩ = .ok ⟨-1, 1⟩
      ∧ toQ ⟨-1, 1⟩ = -1
      ∧ toQ ⟨4611686018427387904, 1⟩ / toQ ⟨4611686018427387904, 3⟩ = 3 := by
  refine ⟨by decide, by decide, by decide, by decide, by decide, by decide, by decide, ?_, ?_⟩
  · norm_num [toQ]
  · norm_num [toQ]

/-- C11 (amended): for normalized a and b the 64-bit rat_div a b is the divide-by-zero
error exactly when b.num = 0; and when b.num ≠ 0 and the two cross products a.num * b.den
and a.den * b.num have absolute value at most 2^63 - 1, it returns the normalized pair
whose value is the quotient of the values of a and b. -/
theorem rat_div64_fails_iff (a b : Rat) (ha : Normalized a) (hb : Normalized b) :
    (rat_div64 a b = .error .DivideByZero ↔ b.num = 0)
      ∧ (b.num ≠ 0 → NoWrap (a.num * b.den) → NoWrap (a.den * b.num) →
          ∃ q, rat_div64 a b = .ok q ∧ Normalized q ∧ toQ q = toQ a / toQ b) := by
  constructor
  · constructor
    · intro h
      by_contra hn
      unfold rat_div64 at h
      rw [if_neg hn] at h
      exact rat_norm64_ne _ (by decide) _ h
    · intro h
      simp [rat_div64, h]
  · intro hn h1 h2
    exact ⟨ofQ (toQ a / toQ b), rat_div64_eq a b ha hb hn h1 h2, ofQ_normalized _, toQ_ofQ _⟩

theorem rat_div64_fails_iff_witness :
    (Normalized ⟨3, 4⟩ ∧ Normalized ⟨5, 6⟩ ∧ (⟨5, 6⟩ : Rat).num ≠ 0
      ∧ NoWrap ((3 : Int) * 6) ∧ NoWrap ((4 : Int) * 5)) ∧
    (rat_div64 ⟨3, 4⟩ ⟨5, 6⟩ = .error .DivideByZero ↔ (⟨5, 6⟩ : Rat).num = 0) ∧
    ∃ q, rat_div64 ⟨3, 4⟩ ⟨5, 6⟩ = .ok q ∧ Normalized q ∧ toQ q = toQ ⟨3, 4⟩ / toQ ⟨5, 6⟩ :=
  ⟨by decide, (rat_div64_fails_iff ⟨3, 4⟩ ⟨5, 6⟩ (by decide) (by decide)).1,
    (rat_div64_fails_iff ⟨3, 4⟩ ⟨5, 6⟩ (by decide) (by decide)).2 (by decide) (by decide)
      (by decide)⟩

/-- In exact integer arithmetic the Rational Number invariant is closed under the
operations: for normalized a and b, the results of rat_add, rat_sub, rat_mul, rat_neg and
rat_from_i64 are normalized, and so is the result of rat_div when b is nonzero. -/
theorem normalized_closed (a b : Rat) (x : Int) (ha : Normalized a) (hb : Normalized b) :
    Normalized (rat_add a b) ∧ Normalized (rat_sub a b) ∧ Normalized (rat_mul a b)
      ∧ Normalized (rat_neg a) ∧ Normalized (rat_from_i64 x)
      ∧ (b.num ≠ 0 → ∃ q, rat_div a b = .ok q ∧ Normalized q) := by
  have hd : a.den * b.den ≠ 0 :=
    mul_ne_zero (normalized_den_ne a ha) (normalized_den_ne b hb)
  refine ⟨rat_norm_normalized _ _ hd, rat_norm_normalized _ _ hd, rat_norm_normalized _ _ hd,
    ?_, ?_, ?_⟩
  · refine ⟨ha.1, ?_⟩
    have := ha.2
    simpa [rat_neg, Int.gcd_eq_natAbs] using this
  · refine ⟨by simp [rat_from_i64], ?_⟩
    simp [rat_from_i64]
  · intro hn
    exact ⟨ofQ (toQ a / toQ b),
      rat_div_eq a b (normalized_den_ne a ha) (normalized_den_ne b hb) hn, ofQ_normalized _⟩

/-- C12 (counterexample): the 64-bit operations leave the invariant on normalized 64-bit
inputs. rat_mul on (-2^63, 3) and (1, 2^61) returns (4, -3), with a negative denominator;
rat_add on (1, 2^32) and (1, 2^32), rat_sub on (1, 2^32) and (-1, 2^32), and rat_div on
(1, 2^32) and (2^32, 1), where the divisor is nonzero, each return (1, 0), with
denominator 0. -/
theorem rat_ops64_not_normalized :
    Normalized ⟨-9223372036854775808, 3⟩ ∧ Normalized ⟨1, 2305843009213693952⟩
      ∧ Normalized ⟨1, 4294967296⟩ ∧ Normalized ⟨-1, 4294967296⟩
      ∧ Normalized ⟨4294967296, 1⟩
      ∧ InI64 (-9223372036854775808) ∧ InI64 2305843009213693952 ∧ InI64 4294967296
      ∧ rat_mul64 ⟨-9223372036854775808, 3⟩ ⟨1, 2305843009213693952⟩ = .ok ⟨4, -3⟩
      ∧ ¬ Normalized ⟨4, -3⟩
      ∧ rat_add64 ⟨1, 4294967296⟩ ⟨1, 4294967296⟩ = .ok ⟨1, 0⟩
      ∧ rat_sub64 ⟨1, 4294967296⟩ ⟨-1, 4294967296⟩ = .ok ⟨1, 0⟩
      ∧ (⟨4294967296, 1⟩ : Rat).num ≠ 0
      ∧ rat_div64 ⟨1, 4294967296⟩ ⟨4294967296, 1⟩ = .ok ⟨1, 0⟩
      ∧ ¬ Normalized ⟨1, 0⟩ := by
  decide

/-- C12 (amended): for normalized a and b with 64-bit components, the 64-bit rat_neg a and
rat_from_i64 x are normalized; and whenever the cross products of the operation, their sum
or difference and the denominator product have absolute value at most 2^63 - 1, rat_add,
rat_sub and rat_mul return a normalized pair, and so does rat_div when b is nonzero. -/
theorem normalized_closed64 (a b : Rat) (x : Int) (ha : Normalized a) (hb : Normalized b)
    (hn : InI64 a.num) :
    (NoWrap (a.den * b.den) → NoWrap (a.num * b.den) → NoWrap (b.num * a.den) →
        NoWrap (a.num * b.den + b.num * a.den) →
        ∃ q, rat_add64 a b = .ok q ∧ Normalized q)
      ∧ (NoWrap (a.den * b.den) → NoWrap (a.num * b.den) → NoWrap (b.num * a.den) →
        NoWrap (a.num * b.den - b.num * a.den) →
        ∃ q, rat_sub64 a b = .ok q ∧ Normalized q)
      ∧ (NoWrap (a.den * b.den) → NoWrap (a.num * b.num) →
        ∃ q, rat_mul64 a b = .ok q ∧ Normalized q)
      ∧ Normalized (rat_neg64 a) ∧ Normalized (rat_from_i64 x)
      ∧ (b.num ≠ 0 → NoWrap (a.num * b.den) → NoWrap (a.den * b.num) →
        ∃ q, rat_div64 a b = .ok q ∧ Normalized q) := by
  refine ⟨?_, ?_, ?_, rat_neg64_normalized a ha hn, ?_, ?_⟩
  · intro hden h1 h2 h3
    obtain ⟨c1, c2, _⟩ := rat_ops64_core a b ha hb _ h3 hden
    refine ⟨_, ?_, c2⟩
    unfold rat_add64
    rw [wrap64_eq _ (noWrap_inI64 _ h1), wrap64_eq _ (noWrap_inI64 _ h2),
      wrap64_eq _ (noWrap_inI64 _ h3), wrap64_eq _ (noWrap_inI64 _ hden)]
    exact c1
  · intro hden h1 h2 h3
    obtain ⟨c1, c2, _⟩ := rat_ops64_core a b ha hb _ h3 hden
    refine ⟨_, ?_, c2⟩
    unfold rat_sub64
    rw [wrap64_eq _ (noWrap_inI64 _ h1), wrap64_eq _ (noWrap_inI64 _ h2),
      wrap64_eq _ (noWrap_inI64 _ h3), wrap64_eq _ (noWrap_inI64 _ hden)]
    exact c1
  · intro hden h1
    obtain ⟨c1, c2, _⟩ := rat_ops64_core a b ha hb _ h1 hden
    refine ⟨_, ?_, c2⟩
    unfold rat_mul64
    rw [wrap64_eq _ (noWrap_inI64 _ h1), wrap64_eq _ (noWrap_inI64 _ hden)]
    exact c1
  · refine ⟨by simp [rat_from_i64], ?_⟩
    simp [rat_from_i64]
  · intro hnz h1 h2
    exact ⟨_, rat_div64_eq a b ha hb hnz h1 h2, ofQ_normalized _⟩

theorem normalized_closed64_witness :
    (Normalized ⟨-3, 4⟩ ∧ Normalized ⟨5, 6⟩ ∧ InI64 (-3) ∧ (⟨5, 6⟩ : Rat).num ≠ 0
      ∧ NoWrap ((4 : Int) * 6) ∧ NoWrap ((-3 : Int) * 6) ∧ NoWrap ((5 : Int) * 4)
      ∧ NoWrap ((-3 : Int) * 6 + 5 * 4) ∧ NoWrap ((-3 : Int) * 6 - 5 * 4)
      ∧ NoWrap ((-3 : Int) * 5) ∧ NoWrap ((4 : Int) * 5)) ∧
    ((∃ q, rat_add64 ⟨-3, 4⟩ ⟨5, 6⟩ = .ok q ∧ Normalized q)
      ∧ (∃ q, rat_sub64 ⟨-3, 4⟩ ⟨5, 6⟩ = .ok q ∧ Normalized q)
      ∧ (∃ q, rat_mul64 ⟨-3, 4⟩ ⟨5, 6⟩ = .ok q ∧ Normalized q)
      ∧ Normalized (rat_neg64 ⟨-3, 4⟩) ∧ Normalized (rat_from_i64 7)
      ∧ (∃ q, rat_div64 ⟨-3, 4⟩ ⟨5, 6⟩ = .ok q ∧ Normalized q)) :=
  ⟨by decide,
    (normalized_closed64 ⟨-3, 4⟩ ⟨5, 6⟩ 7 (by decide) (by decide) (by decide)).1
      (by decide) (by decide) (by decide) (by decide),
    (normalized_closed64 ⟨-3, 4⟩ ⟨5, 6⟩ 7 (by decide) (by decide) (by decide)).2.1
      (by decide) (by decide) (by decide) (by decide),
    (normalized_closed64 ⟨-3, 4⟩ ⟨5, 6⟩ 7 (by decide) (by decide) (by decide)).2.2.1
      (by decide) (by decide),
    (normalized_closed64 ⟨-3, 4⟩ ⟨5, 6⟩ 7 (by decide) (by decide) (by decide)).2.2.2.1,
    (normalized_closed64 ⟨-3, 4⟩ ⟨5, 6⟩ 7 (by decide) (by decide) (by decide)).2.2.2.2.1,
    (normalized_closed64 ⟨-3, 4⟩ ⟨5, 6⟩ 7 (by decide) (by decide) (by decide)).2.2.2.2.2
      (by decide) (by decide) (by decide)⟩

theorem dec_char_facts : ∀ d < 10,
    is_digit (Char.ofNat (48 + d)) = true ∧ (Char.ofNat (48 + d)).toNat - 48 = d
      ∧ is_space (Char.ofNat (48 + d)) = false ∧ Char.ofNat (48 + d) ≠ '-'
      ∧ Char.ofNat (48 + d) ≠ '+' ∧ Char.ofNat (48 + d) ≠ '/' := by
  decide

theorem dec_digits_append (n : Nat) : ∀ fuel acc, n < fuel →
    dec_digits fuel n acc = dec_digits (n + 1) n [] ++ acc := by
  induction n using Nat.strong_induction_on with
  | _ n ih =>
    intro fuel acc hf
    obtain ⟨f, rfl⟩ : ∃ f, fuel = f + 1 := ⟨fuel - 1, by omega⟩
    unfold dec_digits
    by_cases h0 : n / 10 = 0
    · simp [h0]
    · simp only [h0, if_false]
      have hlt : n / 10 < n := Nat.div_lt_self (by omega) (by decide)
      rw [ih (n / 10) hlt f _ (by omega), ih (n / 10) hlt n [_] hlt]
      simp

theorem dec_digits_rec (n : Nat) :
    dec_digits (n + 1) n [] =
      if n / 10 = 0 then [Char.ofNat (48 + n % 10)]
      else dec_digits (n / 10 + 1) (n / 10) [] ++ [Char.ofNat (48 + n % 10)] := by
  conv_lhs => unfold dec_digits
  by_cases h0 : n / 10 = 0
  · simp [h0]
  · simp only [h0, if_false]
    exact dec_digits_append (n / 10) n _ (Nat.div_lt_self (by omega) (by decide))

theorem dec_digits_chars (n : Nat) :
    ∀ c ∈ dec_digits (n + 1) n [], ∃ d < 10, c = Char.ofNat (48 + d) := by
  induction n using Nat.strong_induction_on with
  | _ n ih =>
    intro c hc
    rw [dec_digits_rec] at hc
    by_cases h0 : n / 10 = 0
    · simp only [h0, if_true, List.mem_singleton] at hc
      exact ⟨n % 10, Nat.mod_lt n (by decide), hc⟩
    · simp only [h0, if_false, List.mem_append, List.mem_singleton] at hc
      rcases hc with hc | hc
      · exact ih (n / 10) (Nat.div_lt_self (by omega) (by decide)) c hc
      · exact ⟨n % 10, Nat.mod_lt n (by decide), hc⟩

theorem dec_digits_ne_nil (n : Nat) : dec_digits (n + 1) n [] ≠ [] := by
  rw [dec_digits_rec]
  split_ifs <;> simp

theorem atoll_digits_dec (n : Nat) :
    ∃ k, ∀ a rest, atoll_digits a (dec_digits (n + 1) n [] ++ rest)
      = atoll_digits (a * 10 ^ k + n) rest := by
  induction n using Nat.strong_induction_on with
  | _ n ih =>
    have hd := dec_char_facts (n % 10) (Nat.mod_lt n (by decide))
    by_cases h0 : n / 10 = 0
    · refine ⟨1, fun a rest => ?_⟩
      rw [dec_digits_rec]
      simp only [h0, if_true, List.singleton_append, atoll_digits, hd.1, hd.2.1, pow_one]
      congr 1
      have := Nat.div_add_mod n 10
      omega
    · obtain ⟨k, hk⟩ := ih (n / 10) (Nat.div_lt_self (by omega) (by decide))
      refine ⟨k + 1, fun a rest => ?_⟩
      rw [dec_digits_rec]
      simp only [h0, if_false, List.append_assoc, List.singleton_append]
      rw [hk]
      simp only [atoll_digits, hd.1, hd.2.1, if_true]
      congr 1
      have := Nat.div_add_mod n 10
      rw [pow_succ]
      nlinarith [Nat.div_add_mod n 10]

theorem atoll_fmt_lld (x : Int) (rest : List Char) (hrest : ∀ a, atoll_digits a rest = a) :
    atoll (fmt_lld x ++ rest) = x := by
  obtain ⟨k, hk⟩ := atoll_digits_dec x.natAbs
  have hval : atoll_digits 0 (dec_digits (x.natAbs + 1) x.natAbs [] ++ rest) = x.natAbs := by
    rw [hk, hrest]; simp
  unfold fmt_lld atoll
  by_cases hneg : x < 0
  · simp only [hneg, if_true, List.cons_append]
    have hsp : is_space '-' = false := by decide
    rw [List.dropWhile_cons_of_neg (by simp [hsp])]
    simp only [if_true]
    rw [hval]
    omega
  · simp only [hneg, if_false]
    obtain ⟨c, cs, hcs⟩ : ∃ c cs, dec_digits (x.natAbs + 1) x.natAbs [] = c :: cs := by
      cases h : dec_digits (x.natAbs + 1) x.natAbs [] with
      | nil => exact absurd h (dec_digits_ne_nil _)
      | cons c cs => exact ⟨c, cs, rfl⟩
    obtain ⟨d, hd, hc⟩ := dec_digits_chars x.natAbs c (by rw [hcs]; exact List.mem_cons_self c cs)
    have hf := dec_char_facts d hd
    rw [hcs] at hval
    rw [hcs, List.cons_append, List.dropWhile_cons_of_neg (by rw [hc]; simp [hf.2.2.1])]
    simp only []
    rw [if_neg (by rw [hc]; exact hf.2.2.2.1), if_neg (by rw [hc]; exact hf.2.2.2.2.1)]
    rw [List.cons_append] at hval
    rw [hval]
    omega

theorem fmt_lld_no_slash (x : Int) : ∀ c ∈ fmt_lld x, c ≠ '/' := by
  have h : ∀ c ∈ dec_digits (x.natAbs + 1) x.natAbs [], c ≠ '/' := by
    intro c hc
    obtain ⟨d, hd, rfl⟩ := dec_digits_chars x.natAbs c hc
    exact (dec_char_facts d hd).2.2.2.2.2
  intro c hc
  unfold fmt_lld at hc
  split_ifs at hc
  · rcases List.mem_cons.mp hc with rfl | hc
    · decide
    · exact h c hc
  · exact h c hc

theorem strchr_none (s : List Char) (x : Char) (h : ∀ c ∈ s, c ≠ x) : strchr s x = none := by
  induction s with
  | nil => rfl
  | cons c cs ih =>
    simp only [strchr, h c (List.mem_cons_self c cs), if_false]
    exact ih (fun d hd => h d (List.mem_cons_of_mem c hd))

theorem strchr_append (p r : List Char) (x : Char) (h : ∀ c ∈ p, c ≠ x) :
    strchr (p ++ x :: r) x = some (x :: r) := by
  induction p with
  | nil => simp [strchr]
  | cons c cs ih =>
    simp only [List.cons_append, strchr, h c (List.mem_cons_self c cs), if_false]
    exact ih (fun d hd => h d (List.mem_cons_of_mem c hd))

/-- Parsing round trip over unbounded integers: for every normalized r, rat_parse applied
to the text printed by rat_print (the decimal numerator alone when r.den = 1, otherwise
numerator, '/', denominator) returns exactly r. -/
theorem rat_parse_print (r : Rat) (hr : Normalized r) : rat_parse (rat_print r) = r := by
  unfold rat_parse rat_print
  by_cases hd : r.den = 1
  · simp only [hd, if_true]
    rw [strchr_none _ _ (fmt_lld_no_slash r.num)]
    simp only []
    have := atoll_fmt_lld r.num [] (fun a => rfl)
    rw [List.append_nil] at this
    rw [this, rat_from_i64, ← hd]
  · simp only [hd, if_false]
    rw [strchr_append _ _ _ (fmt_lld_no_slash r.num)]
    simp only [List.drop_one, List.tail_cons]
    have hslash : ∀ a, atoll_digits a ('/' :: fmt_lld r.den) = a := by
      intro a
      have : is_digit '/' = false := by decide
      simp [atoll_digits, this]
    rw [atoll_fmt_lld r.num _ hslash]
    have := atoll_fmt_lld r.den [] (fun a => rfl)
    rw [List.append_nil] at this
    rw [this, rat_norm_eq _ _ (normalized_den_ne r hr)]
    exact ofQ_toQ r hr

theorem atoll64_fmt_lld (x : Int) (rest : List Char) (hrest : ∀ a, atoll_digits a rest = a)
    (hx : InI64 x) : atoll64 (fmt_lld x ++ rest) = x := by
  unfold atoll64
  rw [atoll_fmt_lld x rest hrest]
  unfold InI64 at hx
  omega

/-- C13 (counterexample): for the normalized 64-bit rational r = (-2^63, 5) the printed
text is -9223372036854775808/5, and rat_parse on it stops in the division trap: inside
rat_norm, gcd_i64 returns -1 and the quotient -2^63 / -1 is not representable. -/
theorem rat_parse64_print_traps :
    Normalized ⟨-9223372036854775808, 5⟩ ∧ InI64 (-9223372036854775808) ∧ InI64 5
      ∧ rat_print ⟨-9223372036854775808, 5⟩
          = ['-', '9', '2', '2', '3', '3', '7', '2', '0', '3', '6', '8', '5', '4', '7', '7',
             '5', '8', '0', '8', '/', '5']
      ∧ gcd_i64_64 (-9223372036854775808) 5 = .ok (-1)
      ∧ rat_parse64 (rat_print ⟨-9223372036854775808, 5⟩) = .error .Sigfpe
      ∧ rat_parse64 (rat_print ⟨-9223372036854775808, 5⟩)
          ≠ .ok ⟨-9223372036854775808, 5⟩ := by
  decide

/-- C13 (amended): parsing round trip in 64-bit arithmetic. For every normalized r with
64-bit components, other than those with numerator -2^63 and a denominator different from
1, rat_parse applied to the text printed by rat_print returns exactly r. -/
theorem rat_parse64_print (r : Rat) (hr : Normalized r) (hn : InI64 r.num) (hd : InI64 r.den)
    (hmin : r.den = 1 ∨ r.num ≠ -9223372036854775808) :
    rat_parse64 (rat_print r) = .ok r := by
  unfold rat_parse64 rat_print
  by_cases h1 : r.den = 1
  · simp only [h1, if_true]
    rw [strchr_none _ _ (fmt_lld_no_slash r.num)]
    simp only []
    have := atoll64_fmt_lld r.num [] (fun a => rfl) hn
    rw [List.append_nil] at this
    rw [this, rat_from_i64, ← h1]
  · simp only [h1, if_false]
    rw [strchr_append _ _ _ (fmt_lld_no_slash r.num)]
    simp only [List.drop_one, List.tail_cons]
    have hslash : ∀ a, atoll_digits a ('/' :: fmt_lld r.den) = a := by
      intro a
      have : is_digit '/' = false := by decide
      simp [atoll_digits, this]
    rw [atoll64_fmt_lld r.num _ hslash hn]
    have := atoll64_fmt_lld r.den [] (fun a => rfl) hd
    rw [List.append_nil] at this
    rw [this]
    have hnum : NoWrap r.num := by
      rcases hmin with h | h
      · exact absurd h h1
      · unfold InI64 at hn; unfold NoWrap; omega
    have hden : NoWrap r.den := by
      have := hr.1
      unfold InI64 at hd; unfold NoWrap; omega
    rw [rat_norm64_eq _ hnum hden, rat_norm_eq _ _ (normalized_den_ne r hr)]
    exact congrArg Except.ok (ofQ_toQ r hr)

theorem rat_parse64_print_witness :
    (Normalized ⟨-3, 2⟩ ∧ InI64 (-3) ∧ InI64 2
      ∧ ((2 : Int) = 1 ∨ (-3 : Int) ≠ -9223372036854775808)) ∧
    rat_parse64 (rat_print ⟨-3, 2⟩) = .ok ⟨-3, 2⟩ :=
  ⟨by decide, rat_parse64_print ⟨-3, 2⟩ (by decide) (by decide) (by decide) (by decide)⟩

/-- C14 (counterexample): the 64-bit rat_mul wraps silently. For the normalized 64-bit
inputs a = b = (2^32, 1) the cross product 2^64 wraps to 0 and the function returns the
pair (0, 1) with no error, while the exact product is (2^64, 1). Likewise rat_add on
(2^63 - 1, 1) and (1, 1) returns (-2^63, 1), and rat_sub on (-2^63, 1) and (1, 1) returns
(2^63 - 1, 1). -/
theorem rat_mul64_wraps :
    Normalized ⟨4294967296, 1⟩ ∧ InI64 4294967296 ∧ InI64 1
      ∧ rat_mul64 ⟨4294967296, 1⟩ ⟨4294967296, 1⟩ = .ok ⟨0, 1⟩
      ∧ rat_mul ⟨4294967296, 1⟩ ⟨4294967296, 1⟩ = ⟨18446744073709551616, 1⟩
      ∧ Normalized ⟨9223372036854775807, 1⟩ ∧ Normalized ⟨1, 1⟩ ∧ InI64 9223372036854775807
      ∧ rat_add64 ⟨9223372036854775807, 1⟩ ⟨1, 1⟩ = .ok ⟨-9223372036854775808, 1⟩
      ∧ rat_add ⟨9223372036854775807, 1⟩ ⟨1, 1⟩ = ⟨9223372036854775808, 1⟩
      ∧ Normalized ⟨-9223372036854775808, 1⟩ ∧ InI64 (-9223372036854775808)
      ∧ rat_sub64 ⟨-9223372036854775808, 1⟩ ⟨1, 1⟩ = .ok ⟨9223372036854775807, 1⟩
      ∧ rat_sub ⟨-9223372036854775808, 1⟩ ⟨1, 1⟩ = ⟨-9223372036854775809, 1⟩ := by
  decide

/-- C14 (amended): in 64-bit arithmetic, for normalized a and b, whenever the denominator
product, the cross products of the operation and their sum or difference have absolute
value at most 2^63 - 1, rat_add, rat_sub and rat_mul return the exact sum, difference and
product in lowest terms (the same pair as exact integer arithmetic gives). -/
theorem rat_ops64_exact (a b : Rat) (ha : Normalized a) (hb : Normalized b)
    (hden : NoWrap (a.den * b.den)) :
    (NoWrap (a.num * b.den) → NoWrap (b.num * a.den) →
        NoWrap (a.num * b.den + b.num * a.den) →
        rat_add64 a b = .ok (rat_add a b) ∧ Normalized (rat_add a b)
          ∧ toQ (rat_add a b) = toQ a + toQ b)
    ∧ (NoWrap (a.num * b.den) → NoWrap (b.num * a.den) →
        NoWrap (a.num * b.den - b.num * a.den) →
        rat_sub64 a b = .ok (rat_sub a b) ∧ Normalized (rat_sub a b)
          ∧ toQ (rat_sub a b) = toQ a - toQ b)
    ∧ (NoWrap (a.num * b.num) →
        rat_mul64 a b = .ok (rat_mul a b) ∧ Normalized (rat_mul a b)
          ∧ toQ (rat_mul a b) = toQ a * toQ b) := by
  have haQ : (a.den : ℚ) ≠ 0 := by exact_mod_cast normalized_den_ne a ha
  have hbQ : (b.den : ℚ) ≠ 0 := by exact_mod_cast normalized_den_ne b hb
  have hwd : wrap64 (a.den * b.den) = a.den * b.den := wrap64_eq _ (noWrap_inI64 _ hden)
  refine ⟨?_, ?_, ?_⟩
  · intro h1 h2 h3
    have e : rat_add64 a b = rat_norm64 ⟨a.num * b.den + b.num * a.den, a.den * b.den⟩ := by
      unfold rat_add64
      rw [wrap64_eq _ (noWrap_inI64 _ h1), wrap64_eq _ (noWrap_inI64 _ h2),
        wrap64_eq _ (noWrap_inI64 _ h3), hwd]
    obtain ⟨c1, c2, c3⟩ := rat_ops64_core a b ha hb _ h3 hden
    refine ⟨e.trans c1, c2, ?_⟩
    unfold rat_add
    rw [c3]
    simp only [toQ]
    push_cast
    field_simp
  · intro h1 h2 h3
    have e : rat_sub64 a b = rat_norm64 ⟨a.num * b.den - b.num * a.den, a.den * b.den⟩ := by
      unfold rat_sub64
      rw [wrap64_eq _ (noWrap_inI64 _ h1), wrap64_eq _ (noWrap_inI64 _ h2),
        wrap64_eq _ (noWrap_inI64 _ h3), hwd]
    obtain ⟨c1, c2, c3⟩ := rat_ops64_core a b ha hb _ h3 hden
    refine ⟨e.trans c1, c2, ?_⟩
    unfold rat_sub
    rw [c3]
    simp only [toQ]
    push_cast
    field_simp
    ring
  · intro h1
    have e : rat_mul64 a b = rat_norm64 ⟨a.num * b.num, a.den * b.den⟩ := by
      unfold rat_mul64
      rw [wrap64_eq _ (noWrap_inI64 _ h1), hwd]
    obtain ⟨c1, c2, c3⟩ := rat_ops64_core a b ha hb _ h1 hden
    refine ⟨e.trans c1, c2, ?_⟩
    unfold rat_mul
    rw [c3]
    simp only [toQ]
    push_cast
    field_simp

theorem rat_ops64_exact_witness :
    (Normalized ⟨-3, 4⟩ ∧ Normalized ⟨5, 6⟩ ∧ NoWrap ((4 : Int) * 6)
      ∧ NoWrap ((-3 : Int) * 6) ∧ NoWrap ((5 : Int) * 4)
      ∧ NoWrap ((-3 : Int) * 6 + 5 * 4) ∧ NoWrap ((-3 : Int) * 6 - 5 * 4)
      ∧ NoWrap ((-3 : Int) * 5)) ∧
    ((rat_add64 ⟨-3, 4⟩ ⟨5, 6⟩ = .ok (rat_add ⟨-3, 4⟩ ⟨5, 6⟩)
        ∧ Normalized (rat_add ⟨-3, 4⟩ ⟨5, 6⟩)
        ∧ toQ (rat_add ⟨-3, 4⟩ ⟨5, 6⟩) = toQ ⟨-3, 4⟩ + toQ ⟨5, 6⟩)
    ∧ (rat_sub64 ⟨-3, 4⟩ ⟨5, 6⟩ = .ok (rat_sub ⟨-3, 4⟩ ⟨5, 6⟩)
        ∧ Normalized (rat_sub ⟨-3, 4⟩ ⟨5, 6⟩)
        ∧ toQ (rat_sub ⟨-3, 4⟩ ⟨5, 6⟩) = toQ ⟨-3, 4⟩ - toQ ⟨5, 6⟩)
    ∧ (rat_mul64 ⟨-3, 4⟩ ⟨5, 6⟩ = .ok (rat_mul ⟨-3, 4⟩ ⟨5, 6⟩)
        ∧ Normalized (rat_mul ⟨-3, 4⟩ ⟨5, 6⟩)
        ∧ toQ (rat_mul ⟨-3, 4⟩ ⟨5, 6⟩) = toQ ⟨-3, 4⟩ * toQ ⟨5, 6⟩)) :=
  ⟨by decide,
    (rat_ops64_exact ⟨-3, 4⟩ ⟨5, 6⟩ (by decide) (by decide) (by decide)).1
      (by decide) (by decide) (by decide),
    (rat_ops64_exact ⟨-3, 4⟩ ⟨5, 6⟩ (by decide) (by decide) (by decide)).2.1
      (by decide) (by decide) (by decide),
    (rat_ops64_exact ⟨-3, 4⟩ ⟨5, 6⟩ (by decide) (by decide) (by decide)).2.2 (by decide)⟩

/-- Nearby statement that holds: the result of rat_parse is normalized when the text has
no '/' or when the integer read after the first '/' is nonzero. -/
theorem rat_parse_normalized (s : List Char) :
    (strchr s '/' = none → Normalized (rat_parse s))
      ∧ (∀ slash, strchr s '/' = some slash → atoll (slash.drop 1) ≠ 0 →
          Normalized (rat_parse s)) := by
  constructor
  · intro h
    unfold rat_parse
    rw [h]
    exact ⟨by simp [rat_from_i64], by simp [rat_from_i64]⟩
  · intro slash h hb
    unfold rat_parse
    rw [h]
    exact rat_norm_normalized _ _ hb

/-- When the integer read after the first '/' is zero and the one before it is not,
rat_parse returns a pair with denominator 0. -/
theorem rat_parse_den_zero (s slash : List Char) (h : strchr s '/' = some slash)
    (hb : atoll (slash.drop 1) = 0) (ha : atoll s ≠ 0) : (rat_parse s).den = 0 := by
  unfold rat_parse
  rw [h]
  simp only [hb]
  unfold rat_norm
  simp [ha]

/-- C15 (failing input): rat_parse has no failure outcome. On the text 1/0 it returns the
pair (1, 0), whose denominator is zero and which is not normalized; likewise 3/0 gives
(1, 0) and -6/0 gives (-1, 0), while 0/0 gives (0, 1). The sibling rat_div rejects a zero
divisor. -/
theorem rat_parse_zero_denominator :
    rat_parse ['1', '/', '0'] = ⟨1, 0⟩
      ∧ ¬ Normalized (rat_parse ['1', '/', '0'])
      ∧ rat_parse ['3', '/', '0'] = ⟨1, 0⟩
      ∧ rat_parse ['-', '6', '/', '0'] = ⟨-1, 0⟩
      ∧ rat_parse ['0', '/', '0'] = ⟨0, 1⟩
      ∧ rat_div ⟨1, 1⟩ ⟨0, 1⟩ = .error .DivideByZero := by
  decide

/-- In exact integer arithmetic, for normalized a, rat_neg a has numerator -a.num and the
same positive denominator, it is normalized, and rat_add a (rat_neg a) is the zero rational
(0, 1). -/
theorem rat_neg_inverse (a : Rat) (ha : Normalized a) :
    (rat_neg a).num = -a.num ∧ (rat_neg a).den = a.den ∧ 0 < (rat_neg a).den
      ∧ Normalized (rat_neg a) ∧ toQ (rat_neg a) = -toQ a
      ∧ rat_add a (rat_neg a) = ⟨0, 1⟩ := by
  refine ⟨rfl, rfl, ha.1, ?_, ?_, ?_⟩
  · refine ⟨ha.1, ?_⟩
    have := ha.2
    simpa [rat_neg, Int.gcd_eq_natAbs] using this
  · simp [toQ, rat_neg, neg_div]
  · simp [rat_add, rat_neg, rat_norm]

/-- C16 (counterexample): on the normalized 64-bit input (-2^63, 1) the negation of
`rat_neg` wraps: the result is (-2^63, 1) again, so its numerator is not -a.num and its
value is not the additive inverse. -/
theorem rat_neg64_int_min :
    Normalized ⟨-9223372036854775808, 1⟩ ∧ InI64 (-9223372036854775808) ∧ InI64 1
      ∧ rat_neg64 ⟨-9223372036854775808, 1⟩ = ⟨-9223372036854775808, 1⟩
      ∧ (rat_neg64 ⟨-9223372036854775808, 1⟩).num ≠ -(⟨-9223372036854775808, 1⟩ : Rat).num
      ∧ toQ (rat_neg64 ⟨-9223372036854775808, 1⟩) ≠ -toQ ⟨-9223372036854775808, 1⟩ := by
  refine ⟨by decide, by decide, by decide, by decide, by decide, ?_⟩
  have h : rat_neg64 ⟨-9223372036854775808, 1⟩ = ⟨-9223372036854775808, 1⟩ := by decide
  rw [h]
  norm_num [toQ]

/-- C16 (amended): for every normalized rational a with 64-bit components whose numerator
is not -2^63, the 64-bit rat_neg a has numerator -a.num and the same positive denominator,
it is normalized, its value is the additive inverse of the value of a, and
rat_add a (rat_neg a) returns the zero rational (0, 1). -/
theorem rat_neg64_inverse (a : Rat) (ha : Normalized a) (hn : InI64 a.num)
    (hmin : a.num ≠ -9223372036854775808) :
    (rat_neg64 a).num = -a.num ∧ (rat_neg64 a).den = a.den ∧ 0 < (rat_neg64 a).den
      ∧ Normalized (rat_neg64 a) ∧ toQ (rat_neg64 a) = -toQ a
      ∧ rat_add64 a (rat_neg64 a) = .ok ⟨0, 1⟩ := by
  refine ⟨?_, rfl, ha.1, ?_, ?_, rat_add64_neg64 a⟩
  · rw [rat_neg64_eq a hn hmin]; rfl
  · rw [rat_neg64_eq a hn hmin]; exact rat_neg_normalized a ha
  · rw [rat_neg64_eq a hn hmin]; simp [toQ, rat_neg, neg_div]

theorem rat_neg64_inverse_witness :
    (Normalized ⟨-3, 4⟩ ∧ InI64 (-3) ∧ (-3 : Int) ≠ -9223372036854775808) ∧
    ((rat_neg64 ⟨-3, 4⟩).num = -(⟨-3, 4⟩ : Rat).num
      ∧ (rat_neg64 ⟨-3, 4⟩).den = (⟨-3, 4⟩ : Rat).den ∧ 0 < (rat_neg64 ⟨-3, 4⟩).den
      ∧ Normalized (rat_neg64 ⟨-3, 4⟩) ∧ toQ (rat_neg64 ⟨-3, 4⟩) = -toQ ⟨-3, 4⟩
      ∧ rat_add64 ⟨-3, 4⟩ (rat_neg64 ⟨-3, 4⟩) = .ok ⟨0, 1⟩) :=
  ⟨by decide, rat_neg64_inverse ⟨-3, 4⟩ (by decide) (by decide) (by decide)⟩

/-- C17: rref terminates on every matrix. Each iteration of the main loop advances lead by
one and r by zero (no pivot, same row retried) or one, so the measure
(m - r) + (n - lead) decreases; the loop with any bound of at least that measure equals the
total function defined by recursion on the measure; and rref, which runs the loop with the
bound m + n, returns a state at which the loop condition is false. -/
theorem rref_terminates :
    (∀ (m n : Nat) (s s' : RrefState), rref_body m n s = .ok s' →
        s'.lead = s.lead + 1 ∧ (s'.r = s.r ∨ s'.r = s.r + 1)
          ∧ (s.r < m → s.lead < n →
              (m - s'.r) + (n - s'.lead) < (m - s.r) + (n - s.lead)))
    ∧ (∀ (m n fuel : Nat) (s : RrefState), (m - s.r) + (n - s.lead) ≤ fuel →
        rref_loop m n fuel s = rref_total m n s)
    ∧ (∀ (A : Mat) (m n : Nat),
        rref A m n = rref_total m n
            { A := A, pivot_col := fun _ => -1, is_pivot := fun _ => 0, r := 0, lead := 0 }
          ∧ ∃ s, rref A m n = .ok s ∧ ¬(s.r < m ∧ s.lead < n)) := by
  refine ⟨?_, rref_loop_eq_total, ?_⟩
  · intro m n s s' h
    obtain ⟨h1, h2⟩ := rref_body_progress m n s s' h
    refine ⟨h1, h2, ?_⟩
    intro hr hl
    rcases h2 with h2 | h2 <;> omega
  · intro A m n
    refine ⟨rref_loop_eq_total m n (m + n) _ (by simp), ?_⟩
    obtain ⟨s, hs, hdone, _⟩ := rref_pivot_map A m n
    exact ⟨s, hs, hdone⟩

/-- C18: after rref on any matrix the two halves of the pivot map agree: a column j < n has
is_pivot j set (to 1, the only value besides 0) exactly when some row i < m has
pivot_col i = j, that row is unique, and every pivot_col i is -1 or a column index
below n. -/
theorem pivot_map_agrees (A : Mat) (m n : Nat) :
    ∃ s, rref A m n = .ok s
      ∧ (∀ j : Nat, j < n → (s.is_pivot j ≠ 0 ↔ ∃ i < m, s.pivot_col i = (j : Int)))
      ∧ (∀ j : Nat, s.is_pivot j = 0 ∨ s.is_pivot j = 1)
      ∧ (∀ j : Nat, j < n → ∀ i < m, ∀ i' < m,
          s.pivot_col i = (j : Int) → s.pivot_col i' = (j : Int) → i = i')
      ∧ (∀ i < m, s.pivot_col i = -1 ∨ ∃ c : Nat, c < n ∧ s.pivot_col i = (c : Int)) := by
  obtain ⟨s, hs, _, hM⟩ := rref_pivot_map A m n
  have hlt : ∀ i (j : Nat), s.pivot_col i = (j : Int) → i < s.r := by
    intro i j hpc
    by_contra hnot
    have := hM.pc_none i (by omega)
    omega
  refine ⟨s, hs, ?_, ?_, ?_, ?_⟩
  · intro j _
    constructor
    · intro hne
      have h1 : s.is_pivot j = 1 := by
        rcases hM.ip_val j with h | h
        · exact h
        · exact absurd h hne
      obtain ⟨i, hi, hpc⟩ := (hM.ip_iff j).mp h1
      exact ⟨i, lt_of_lt_of_le hi hM.k_le, hpc⟩
    · rintro ⟨i, _, hpc⟩
      rw [(hM.ip_iff j).mpr ⟨i, hlt i j hpc, hpc⟩]
      decide
  · intro j
    rcases hM.ip_val j with h | h
    · exact Or.inr h
    · exact Or.inl h
  · intro j _ i _ i' _ hpc hpc'
    have hi := hlt i j hpc
    have hi' := hlt i' j hpc'
    rcases Nat.lt_trichotomy i i' with h | h | h
    · have := hM.pc_mono i i' h hi'; omega
    · exact h
    · have := hM.pc_mono i' i h hi; omega
  · intro i _
    by_cases hi : i < s.r
    · obtain ⟨c, hc, hpc⟩ := hM.pc_range i hi
      exact Or.inr ⟨c, hc, hpc⟩
    · exact Or.inl (hM.pc_none i (by omega))

/-- C19 (counterexample): on the normalized 64-bit rows [1 3/2^32 | 0], [1 1/2^32 | 0],
[0 1 | 0] row 1 takes the wrapped cell as pivot of column 1, so row 2 keeps
pivot_col = -1 although it is [0 1 | 0], which is not zero. -/
theorem rref64_sentinel_row_nonzero :
    MatNormalized exWrapSentinel 3 3 ∧ MatInI64 exWrapSentinel 3 3
      ∧ (rref64 exWrapSentinel 3 3).map (snapshot 3 3)
          = .ok ([0, 1, -1], [1, 1, 0],
              [[⟨1, 1⟩, ⟨3, 4294967296⟩, ⟨0, 1⟩], [⟨0, 1⟩, ⟨0, 1⟩, ⟨0, 1⟩],
               [⟨0, 1⟩, ⟨1, 1⟩, ⟨0, 1⟩]])
      ∧ ¬ ∃ s, rref64 exWrapSentinel 3 3 = .ok s
          ∧ (∀ r < 3, s.pivot_col r = -1 → ∀ j < 3, s.A r j = ⟨0, 1⟩) := by
  refine ⟨by decide, by decide, by decide, ?_⟩
  rintro ⟨s, hs, h⟩
  have hpc : s.pivot_col 2 = -1 :=
    ok_of_map _ (fun s => s.pivot_col 2) (-1) s (by decide) hs
  have hcell : s.A 2 1 = ⟨1, 1⟩ :=
    ok_of_map _ (fun s => s.A 2 1) ⟨1, 1⟩ s (by decide) hs
  have := h 2 (by decide) hpc 1 (by decide)
  rw [hcell] at this
  exact absurd this (by decide)

/-- C19 (amended): in exact integer arithmetic (no overflow), after rref on a matrix of
normalized rationals every row with pivot_col = -1 is (0, 1) in all n columns, and every
row after a row with pivot_col = -1 also has pivot_col = -1. -/
theorem sentinel_rows_zero (A : Mat) (m n : Nat) (hA : MatNormalized A m n) :
    ∃ s, rref A m n = .ok s
      ∧ (∀ r < m, s.pivot_col r = -1 → ∀ j < n, s.A r j = ⟨0, 1⟩)
      ∧ (∀ r r', r < r' → r' < m → s.pivot_col r = -1 → s.pivot_col r' = -1) := by
  obtain ⟨s, hs, _, _, hF⟩ := rref_correct A m n hA
  have hge : ∀ r, s.pivot_col r = -1 → s.r ≤ r := by
    intro r hpc
    by_contra hnot
    obtain ⟨c, _, hc⟩ := hF.pc_range r (by omega)
    omega
  refine ⟨s, hs, ?_, ?_⟩
  · intro r hr hpc j hj
    exact hF.zero_rows r (hge r hpc) hr j hj
  · intro r r' hlt _ hpc
    exact hF.pc_none r' (by have := hge r hpc; omega)

theorem sentinel_rows_zero_witness :
    MatNormalized (ofRows [[⟨1, 1⟩, ⟨1, 1⟩, ⟨1, 1⟩], [⟨2, 1⟩, ⟨2, 1⟩, ⟨2, 1⟩]]) 2 3 ∧
    ∃ s, rref (ofRows [[⟨1, 1⟩, ⟨1, 1⟩, ⟨1, 1⟩], [⟨2, 1⟩, ⟨2, 1⟩, ⟨2, 1⟩]]) 2 3 = .ok s
      ∧ (∀ r < 2, s.pivot_col r = -1 → ∀ j < 3, s.A r j = ⟨0, 1⟩)
      ∧ (∀ r r', r < r' → r' < 2 → s.pivot_col r = -1 → s.pivot_col r' = -1) :=
  ⟨by decide, sentinel_rows_zero _ 2 3 (by decide)⟩

/-- C20 (counterexample): on the normalized 64-bit rows [1 3/2^32 | 0], [1 1/2^32 | 0],
[0 1 | 5] the augmented column becomes a pivot column (is_pivot 2 = 1, owned by row 2,
which is [0 1/5 | 1]), yet no row has all coefficient cells zero and a nonzero augmented
cell: the inconsistency test does not fire and main reports Unique with a pivot in the
augmented column. -/
theorem rref64_augmented_pivot_without_row :
    1 ≤ 3 ∧ MatNormalized exWrapAugmented 3 3 ∧ MatInI64 exWrapAugmented 3 3
      ∧ (rref64 exWrapAugmented 3 3).map (snapshot 3 3)
          = .ok ([0, 1, 2], [1, 1, 1],
              [[⟨1, 1⟩, ⟨3, 4294967296⟩, ⟨0, 1⟩], [⟨0, 1⟩, ⟨0, 1⟩, ⟨0, 1⟩],
               [⟨0, 1⟩, ⟨1, 5⟩, ⟨1, 1⟩]])
      ∧ (rref64 exWrapAugmented 3 3).map (fun s => inconsistent s.A 3 (3 - 1)) = .ok false
      ∧ main64 exWrapAugmented 3 3 = .ok (.Unique [(1, ⟨0, 1⟩), (2, ⟨0, 1⟩)])
      ∧ ¬ ∃ s, rref64 exWrapAugmented 3 3 = .ok s
          ∧ ((∃ i < 3, (∀ j < 3 - 1, rat_is_zero (s.A i j) = true)
                ∧ rat_is_zero (s.A i (3 - 1)) = false) ↔ s.is_pivot (3 - 1) ≠ 0) := by
  refine ⟨by decide, by decide, by decide, by decide, by decide, by decide, ?_⟩
  rintro ⟨s, hs, h⟩
  have hip : s.is_pivot 2 = 1 :=
    ok_of_map _ (fun s => s.is_pivot 2) 1 s (by decide) hs
  have hinc : inconsistent s.A 3 2 = false :=
    ok_of_map _ (fun s => inconsistent s.A 3 2) false s (by decide) hs
  have hrow := h.mpr (by show s.is_pivot 2 ≠ 0; rw [hip]; decide)
  have := (inconsistent_iff s.A 3 2).mpr hrow
  rw [hinc] at this
  exact absurd this (by decide)

/-- C20 (amended): in exact integer arithmetic (no overflow), after rref on a matrix of
normalized rationals with n ≥ 1 columns, some row has all coefficient cells zero and a
nonzero augmented cell exactly when is_pivot (n - 1) is set, which is also exactly when the
inconsistency test of main fires; such a row is [0 ... 0 | 1]; and when main reports Unique
or Infinite every pivot column is a coefficient column. -/
theorem augmented_pivot_iff (A : Mat) (m n : Nat) (hn : 1 ≤ n) (hA : MatNormalized A m n) :
    ∃ s, rref A m n = .ok s
      ∧ ((∃ i < m, (∀ j < n - 1, rat_is_zero (s.A i j) = true)
            ∧ rat_is_zero (s.A i (n - 1)) = false) ↔ s.is_pivot (n - 1) ≠ 0)
      ∧ (inconsistent s.A m (n - 1) = true ↔ s.is_pivot (n - 1) ≠ 0)
      ∧ (∀ i < m, (∀ j < n - 1, rat_is_zero (s.A i j) = true) →
          rat_is_zero (s.A i (n - 1)) = false →
          (∀ j < n - 1, s.A i j = ⟨0, 1⟩) ∧ s.A i (n - 1) = ⟨1, 1⟩
            ∧ s.pivot_col i = ((n - 1 : Nat) : Int))
      ∧ (∀ sol, main A m n = .ok sol → sol ≠ .Inconsistent →
          (∀ j : Nat, j < n → s.is_pivot j ≠ 0 → j < n - 1)
          ∧ (∀ i < m, s.pivot_col i ≠ -1 → s.pivot_col i < ((n - 1 : Nat) : Int))) := by
  obtain ⟨s, hs, hnorm, _, hF⟩ := rref_correct A m n hA
  have hkm : s.r ≤ m := hF.k_le
  -- a row matching the inconsistency pattern is the pivot row of the augmented column
  have hrow : ∀ i < m, (∀ j < n - 1, rat_is_zero (s.A i j) = true) →
      rat_is_zero (s.A i (n - 1)) = false →
      i < s.r ∧ s.pivot_col i = ((n - 1 : Nat) : Int) := by
    intro i hi hz hnz
    have hik : i < s.r := by
      by_contra hnot
      rw [hF.zero_rows i (by omega) hi (n - 1) (by omega)] at hnz
      exact absurd hnz (by decide)
    obtain ⟨c, hc, hpc⟩ := hF.pc_range i hik
    have hcn : c = n - 1 := by
      by_contra hne
      have h1 := hz c (by omega)
      rw [hF.piv_one i hik c hpc] at h1
      exact absurd h1 (by decide)
    exact ⟨hik, by rw [hpc, hcn]⟩
  have hiff : (∃ i < m, (∀ j < n - 1, rat_is_zero (s.A i j) = true)
      ∧ rat_is_zero (s.A i (n - 1)) = false) ↔ s.is_pivot (n - 1) ≠ 0 := by
    constructor
    · rintro ⟨i, hi, hz, hnz⟩
      obtain ⟨hik, hpc⟩ := hrow i hi hz hnz
      rw [(hF.ip_iff (n - 1)).mpr ⟨i, hik, hpc⟩]
      decide
    · intro hne
      have h1 : s.is_pivot (n - 1) = 1 := by
        rcases hF.ip_val (n - 1) with h | h
        · exact h
        · exact absurd h hne
      obtain ⟨i, hik, hpc⟩ := (hF.ip_iff (n - 1)).mp h1
      refine ⟨i, by omega, ?_, ?_⟩
      · intro j hj
        rw [hF.left_zero i hik j (by rw [hpc]; exact_mod_cast hj)]
        rfl
      · rw [hF.piv_one i hik (n - 1) hpc]
        rfl
  have hinc : inconsistent s.A m (n - 1) = true ↔ s.is_pivot (n - 1) ≠ 0 := by
    rw [inconsistent_iff]
    exact hiff
  refine ⟨s, hs, hiff, hinc, ?_, ?_⟩
  · intro i hi hz hnz
    obtain ⟨hik, hpc⟩ := hrow i hi hz hnz
    refine ⟨?_, hF.piv_one i hik (n - 1) hpc, hpc⟩
    intro j hj
    exact hF.left_zero i hik j (by rw [hpc]; exact_mod_cast hj)
  · intro sol hsol hne
    rw [main_eq A m n s hs] at hsol
    have hcl : classify s.A m n s.pivot_col s.is_pivot ≠ .Inconsistent := by
      rw [Except.ok.inj hsol]; exact hne
    have h0 : s.is_pivot (n - 1) = 0 := by
      by_contra hp
      exact hcl ((classify_inconsistent_iff s.A m n s.pivot_col s.is_pivot).mpr
        (hinc.mpr hp))
    constructor
    · intro j hj hp
      by_contra hnot
      have : j = n - 1 := by omega
      rw [this] at hp
      exact hp h0
    · intro i hi hp
      have hik : i < s.r := by
        by_contra hnot
        exact hp (hF.pc_none i (by omega))
      obtain ⟨c, hc, hpc⟩ := hF.pc_range i hik
      have hcn : c ≠ n - 1 := by
        intro heq
        have h1 := (hF.ip_iff (n - 1)).mpr ⟨i, hik, by rw [hpc, heq]⟩
        rw [h0] at h1
        exact absurd h1 (by decide)
      rw [hpc]
      have : c < n - 1 := by omega
      exact_mod_cast this

theorem augmented_pivot_iff_witness :
    (1 ≤ 3 ∧ MatNormalized exInconsistent 2 3) ∧
    ∃ s, rref exInconsistent 2 3 = .ok s
      ∧ ((∃ i < 2, (∀ j < 3 - 1, rat_is_zero (s.A i j) = true)
            ∧ rat_is_zero (s.A i (3 - 1)) = false) ↔ s.is_pivot (3 - 1) ≠ 0)
      ∧ (inconsistent s.A 2 (3 - 1) = true ↔ s.is_pivot (3 - 1) ≠ 0)
      ∧ (∀ i < 2, (∀ j < 3 - 1, rat_is_zero (s.A i j) = true) →
          rat_is_zero (s.A i (3 - 1)) = false →
          (∀ j < 3 - 1, s.A i j = ⟨0, 1⟩) ∧ s.A i (3 - 1) = ⟨1, 1⟩
            ∧ s.pivot_col i = ((3 - 1 : Nat) : Int))
      ∧ (∀ sol, main exInconsistent 2 3 = .ok sol → sol ≠ .Inconsistent →
          (∀ j : Nat, j < 3 → s.is_pivot j ≠ 0 → j < 3 - 1)
          ∧ (∀ i < 2, s.pivot_col i ≠ -1 → s.pivot_col i < ((3 - 1 : Nat) : Int))) :=
  ⟨by decide, augmented_pivot_iff exInconsistent 2 3 (by decide) (by decide)⟩

end GaussReduce
